import Mathlib

/-
Verification of the agent-react-devtools component-tree store, DevTools
bridge and profiler, against the repository's natural-language spec.

The definitions below are a shallow embedding of the TypeScript sources:
  packages/agent-react-devtools/src/component-tree.ts
  packages/agent-react-devtools/src/devtools-bridge.ts
  packages/agent-react-devtools/src/profiler.ts  (profiler source file)

Modelling conventions.
JS numbers in the operations stream are modelled as Int (the protocol
carries integers; rect counts may be -1).  JS Map and Set are modelled as
insertion-ordered association lists and duplicate-free lists: set of an
existing key updates it in place, set of a fresh key appends at the end,
exactly as JS iteration order behaves.  JS strings are modelled as Lean
String; String.toLower stands in for JS toLowerCase (they agree on ASCII,
which is all the verified claims exercise).
Reads past the end of a JS array yield undefined.  The decoder models the
exact JS behaviour wherever a verified claim depends on it: in the string
table loop a missing length behaves as a zero-length entry (the JS inner
loop bound j less-than undefined is false) and a missing code point makes
String.fromCodePoint throw a RangeError.  The few payload reads where JS
would instead fabricate undefined node ids are flagged with the distinct
error DecodeErr.truncated; no verified claim exercises those paths.
Unbounded JS loops (recursive node removal on a cyclic children graph,
a decode cursor driven backwards by negative counts) are modelled with
explicit fuel that provably suffices on every run on which JS terminates;
fuel exhaustion marks JS divergence.
-/

namespace ARD

/-- Association list with JS-Map semantics: lookup of the first binding. -/
def alGet {κ α : Type} [DecidableEq κ] : List (κ × α) → κ → Option α
  | [], _ => none
  | (k', v) :: rest, k => if k' = k then some v else alGet rest k

/-- Association-list update with JS-Map semantics: an existing key keeps its
position and gets the new value, a fresh key is appended at the end. -/
def alSet {κ α : Type} [DecidableEq κ] : List (κ × α) → κ → α → List (κ × α)
  | [], k, v => [(k, v)]
  | (k', v') :: rest, k, v =>
    if k' = k then (k, v) :: rest else (k', v') :: alSet rest k v

/-- Association-list deletion, JS Map.delete. -/
def alDelete {κ α : Type} [DecidableEq κ] (m : List (κ × α)) (k : κ) : List (κ × α) :=
  m.filter (fun p => p.1 ≠ k)

/-- JS Set.add: no-op when present, otherwise append at the end. -/
def setAdd {α : Type} [DecidableEq α] (s : List α) (x : α) : List α :=
  if x ∈ s then s else s ++ [x]

/-- Element kinds, the ComponentType union of types.ts.  Constructor names
abbreviate the wire strings: fn is the string function, cls is class. -/
inductive ComponentType where
  | fn | cls | host | memo | forwardRef | profiler | suspense | context | other
deriving DecidableEq

/-- ComponentNode record of types.ts. -/
structure ComponentNode where
  id : Int
  displayName : String
  type : ComponentType
  key : Option String
  parentId : Option Int
  children : List Int
  rendererId : Int
deriving DecidableEq

/-- TreeNode record returned by getTree and findByName (component-tree.ts). -/
structure TreeNode where
  id : Int
  label : String
  displayName : String
  type : ComponentType
  key : Option String
  parentId : Option Int
  children : List Int
  depth : Nat
deriving DecidableEq

/-- Mutable fields of the ComponentTree class (component-tree.ts).
labelToId and idToLabel are the label maps rebuilt by each getTree call;
extendedAddFormat is the latched 8-field-ADD flag. -/
structure TreeState where
  nodes : List (Int × ComponentNode)
  roots : List Int
  nameIndex : List (String × List Int)
  labelToId : List (String × Int)
  idToLabel : List (Int × String)
  extendedAddFormat : Bool
deriving DecidableEq

/-- Freshly constructed ComponentTree. -/
def emptyTree : TreeState := ⟨[], [], [], [], [], false⟩


/-- JS String.toLowerCase, written on the character list so that concrete
computations reduce in the kernel (Char.toLower lowers ASCII letters, which
is all the verified claims exercise). -/
def toLowerCase (s : String) : String := ⟨s.data.map Char.toLower⟩

/-- Mapping from wire element-type integers to ComponentType
(toComponentType in component-tree.ts). -/
def toComponentType (elementType : Int) : ComponentType :=
  if elementType = 1 then .cls
  else if elementType = 5 then .fn
  else if elementType = 6 then .forwardRef
  else if elementType = 7 then .host
  else if elementType = 8 then .memo
  else if elementType = 10 then .profiler
  else if elementType = 12 then .suspense
  else .other

/-- Indexing a JS number array: undefined (none) out of range. -/
def getOp (operations : List Int) (i : Int) : Option Int :=
  if i < 0 then none else operations.get? i.toNat

/-- Decode-time failures.  rangeError is the JS RangeError thrown by
String.fromCodePoint on a missing or out-of-range code point.  truncated
marks payload reads past the batch end where JS would fabricate undefined
values (never exercised by the verified claims).  nonTermination marks a
removal recursion that diverges in JS (cyclic children graph), and
fuelExhausted a decode cursor that revisits indices (possible only through
negative payload counts). -/
inductive DecodeErr where
  | rangeError
  | truncated
  | nonTermination
  | fuelExhausted
deriving DecidableEq

/-- Reading one string-table entry: strLen code points starting at i.
A missing code point raises rangeError, exactly where JS String.fromCodePoint
throws; JS accepts lone surrogates, which Char cannot carry, but no claim
exercises surrogate code points. -/
def readCodePoints (operations : List Int) : Int → Nat → Except DecodeErr (String × Int)
  | i, 0 => .ok ("", i)
  | i, n + 1 =>
    match getOp operations i with
    | none => .error .rangeError
    | some cp =>
      if 0 ≤ cp ∧ cp ≤ 1114111 then
        match readCodePoints operations (i + 1) n with
        | .ok (s, i') => .ok (String.singleton (Char.ofNat cp.toNat) ++ s, i')
        | .error e => .error e
      else .error .rangeError

/-- String-table parse loop of applyOperations (component-tree.ts).
While i is below stringTableEnd, read a length then that many code points.
A missing length behaves as zero (the JS inner loop bound is undefined) and
pushes the empty string.  The fuel argument counts remaining iterations;
the caller passes one more than the declared table size, which suffices
because every iteration advances i by at least one. -/
def parseStringTable (operations : List Int) (stringTableEnd : Int) :
    Nat → Int → List (Option String) → Except DecodeErr (List (Option String) × Int)
  | 0, _, _ => .error .fuelExhausted
  | fuel + 1, i, acc =>
    if i < stringTableEnd then
      match getOp operations i with
      | none => parseStringTable operations stringTableEnd fuel (i + 1) (acc ++ [some ""])
      | some strLen =>
        match readCodePoints operations (i + 1) strLen.toNat with
        | .ok (s, i') => parseStringTable operations stringTableEnd fuel i' (acc ++ [some s])
        | .error e => .error e
    else .ok (acc, i)

/-- String-table indexing: entry 0 is null; out of range is undefined,
which the ADD decoding treats like null. -/
def tableGet (stringTable : List (Option String)) (idx : Int) : Option String :=
  if idx < 0 then none
  else match stringTable.get? idx.toNat with
    | some v => v
    | none => none

/-- Rect skipping (skipRects in component-tree.ts): a count of -1 means no
rects, otherwise 4 values per rect follow.  A missing count makes the JS
cursor NaN, which ends the decode loop; that is the none result. -/
def skipRects (operations : List Int) (i : Int) : Option Int :=
  match getOp operations i with
  | none => none
  | some count => some (if count = -1 then i + 1 else i + 1 + count * 4)

/-- Name-index bucket lookup with the empty set for a missing key. -/
def bucketGet (st : TreeState) (s : String) : List Int :=
  (alGet st.nameIndex s).getD []

/-- Parent unlink step of removeNode (component-tree.ts): if the node has a
parent that is present, replace that parent's children with the list minus
the removed id. -/
def removeUnlinkParent (st : TreeState) (node : ComponentNode) (id : Int) : TreeState :=
  match node.parentId with
  | some pid =>
    match alGet st.nodes pid with
    | some parent =>
      let parent' := { parent with children := parent.children.filter (· ≠ id) }
      { st with nodes := alSet st.nodes pid parent' }
    | none => st
  | none => st

/-- Name-index scrub step of removeNode (component-tree.ts): delete the id
from the bucket of the node's lowercased display name (when the name is
truthy), and drop the bucket when it empties. -/
def removeScrubName (st : TreeState) (node : ComponentNode) (id : Int) : TreeState :=
  if node.displayName ≠ "" then
    match alGet st.nameIndex (toLowerCase node.displayName) with
    | some s =>
      let s' := s.filter (· ≠ id)
      if s'.length = 0 then
        { st with nameIndex := alDelete st.nameIndex (toLowerCase node.displayName) }
      else
        { st with nameIndex := alSet st.nameIndex (toLowerCase node.displayName) s' }
    | none => st
  else st

/-- Recursive node removal (removeNode in component-tree.ts): unlink from
the parent's children, drop from roots, scrub the name index, recurse into
the children captured before any edits, then delete the node itself.
Fuel bounds the recursion depth; the removeNode wrapper passes one more
than the node count, which suffices on every run where JS terminates,
because a repeated id on the JS call chain would recurse forever. -/
def removeNodeF : Nat → TreeState → Int → Option TreeState := fun fuel =>
  Nat.rec (motive := fun _ => TreeState → Int → Option TreeState)
    (fun _ _ => none)
    (fun _ ih st id =>
    match alGet st.nodes id with
    | none => some st
    | some node =>
      let st := removeUnlinkParent st node id
      let st := { st with roots := st.roots.filter (· ≠ id) }
      let st := removeScrubName st node id
      match node.children.foldlM (fun s c => ih s c) st with
      | some st => some { st with nodes := alDelete st.nodes id }
      | none => none)
    fuel

/-- Top-level removeNode with its canonical fuel. -/
def removeNode (st : TreeState) (id : Int) : Option TreeState :=
  removeNodeF (st.nodes.length + 1) st id

/-- The three edits removeNode applies before recursing: parent unlink, root
filter, name-index scrub. -/
def removePre (st : TreeState) (node : ComponentNode) (id : Int) : TreeState :=
  let st1 := removeUnlinkParent st node id
  let st2 := { st1 with roots := st1.roots.filter (· ≠ id) }
  removeScrubName st2 node id

/-- One unrolling of removeNodeF, with the recursive occurrence abstracted;
definitionally equal to the successor case of the fuelled recursion. -/
def removeNodeBody (rec : TreeState → Int → Option TreeState) (st : TreeState) (id : Int) :
    Option TreeState :=
  match alGet st.nodes id with
  | none => some st
  | some node =>
    match node.children.foldlM (fun s c => rec s c) (removePre st node id) with
    | some st4 => some { st4 with nodes := alDelete st4.nodes id }
    | none => none

/-- The id loop of the REMOVE opcode: numRemoved ids starting at pos, each
fed to removeNode.  A missing id is removeNode(undefined), a no-op. -/
def removeIds (operations : List Int) : Int → Nat → TreeState → Option TreeState
  | _, 0, st => some st
  | pos, n + 1, st =>
    match getOp operations pos with
    | none => removeIds operations (pos + 1) n st
    | some id =>
      match removeNode st id with
      | some st' => removeIds operations (pos + 1) n st'
      | none => none

/-- Reading numChildren consecutive ids for REORDER_CHILDREN.  JS would push
undefined for a read past the end; flagged as truncated instead. -/
def readIds (operations : List Int) : Int → Nat → Option (List Int)
  | _, 0 => some []
  | pos, n + 1 =>
    match getOp operations pos with
    | none => none
    | some id => (readIds operations (pos + 1) n).map (id :: ·)

/-- Main opcode loop of applyOperations (component-tree.ts).  One recursive
step per JS loop iteration; fuel is one more than the batch length, enough
for every run whose cursor only moves forward.  The branches where a missing
count turns the JS cursor into NaN (ending the loop) return ok directly. -/
def opsLoop (operations : List Int) (rendererId : Int) (stringTable : List (Option String)) :
    Nat → TreeState → Int → List (Int × String) → Except DecodeErr (TreeState × List (Int × String))
  | 0, _, _, _ => .error .fuelExhausted
  | fuel + 1, st, i, added =>
    if i < (operations.length : Int) then
      match getOp operations i with
      | none =>
        -- a negative index reads undefined; the JS switch falls to default
        opsLoop operations rendererId stringTable fuel st (i + 1) added
      | some op =>
        if op = 1 then
          -- TREE_OPERATION_ADD
          match getOp operations (i + 1), getOp operations (i + 2) with
          | some id, some elementType =>
            if elementType = 11 then
              -- ELEMENT_TYPE_ROOT: skip the four flag values
              let node : ComponentNode := ⟨id, "Root", .other, none, none, [], rendererId⟩
              let st := { st with nodes := alSet st.nodes id node }
              let added := added ++ [(id, "Root")]
              let st :=
                if id ∈ st.roots then st else { st with roots := st.roots ++ [id] }
              opsLoop operations rendererId stringTable fuel st (i + 3 + 4) added
            else
              match getOp operations (i + 3), getOp operations (i + 5), getOp operations (i + 6) with
              | some parentId, some displayNameStringId, some keyStringId =>
                -- i+4 is ownerID, skipped without a read
                let fallback := if elementType = 7 then "HostComponent" else "Anonymous"
                let displayName :=
                  match (if displayNameStringId > 0 then tableGet stringTable displayNameStringId else none) with
                  | some s => if s = "" then fallback else s
                  | none => fallback
                let key : Option String :=
                  if keyStringId > 0 then
                    match tableGet stringTable keyStringId with
                    | some s => if s = "" then none else some s
                    | none => none
                  else none
                let node : ComponentNode :=
                  ⟨id, displayName, toComponentType elementType, key,
                    (if parentId = 0 then none else some parentId), [], rendererId⟩
                let st := { st with nodes := alSet st.nodes id node }
                let added := added ++ [(id, displayName)]
                let st :=
                  if parentId = 0 then
                    if id ∈ st.roots then st else { st with roots := st.roots ++ [id] }
                  else
                    match alGet st.nodes parentId with
                    | some parent =>
                      let parent' := { parent with children := parent.children ++ [id] }
                      { st with nodes := alSet st.nodes parentId parent' }
                    | none => st
                let st :=
                  if displayName ≠ "" then
                    let bucket' := setAdd (bucketGet st (toLowerCase displayName)) id
                    { st with nameIndex := alSet st.nameIndex (toLowerCase displayName) bucket' }
                  else st
                opsLoop operations rendererId stringTable fuel st
                  (i + 3 + 4 + (if st.extendedAddFormat then 1 else 0)) added
              | _, _, _ => .error .truncated
          | _, _ => .error .truncated
        else if op = 2 then
          -- TREE_OPERATION_REMOVE
          match getOp operations (i + 1) with
          | none => .ok (st, added)
          | some numRemoved =>
            match removeIds operations (i + 2) numRemoved.toNat st with
            | some st => opsLoop operations rendererId stringTable fuel st (i + 2 + numRemoved) added
            | none => .error .nonTermination
        else if op = 3 then
          -- TREE_OPERATION_REORDER_CHILDREN
          match getOp operations (i + 1) with
          | none => .ok (st, added)
          | some id =>
            match getOp operations (i + 2) with
            | none =>
              -- numChildren is undefined: the node (if present) gets an empty
              -- children list, then the NaN cursor ends the loop
              let st :=
                match alGet st.nodes id with
                | some node => { st with nodes := alSet st.nodes id ({ node with children := [] }) }
                | none => st
              .ok (st, added)
            | some numChildren =>
              match readIds operations (i + 3) numChildren.toNat with
              | none => .error .truncated
              | some newChildren =>
                let st :=
                  match alGet st.nodes id with
                  | some node =>
                    { st with nodes := alSet st.nodes id ({ node with children := newChildren }) }
                  | none => st
                opsLoop operations rendererId stringTable fuel st (i + 3 + numChildren) added
        else if op = 4 then
          opsLoop operations rendererId stringTable fuel st (i + 3) added
        else if op = 5 then
          opsLoop operations rendererId stringTable fuel st (i + 4) added
        else if op = 6 then
          opsLoop operations rendererId stringTable fuel st (i + 1) added
        else if op = 7 then
          opsLoop operations rendererId stringTable fuel st (i + 3) added
        else if op = 8 then
          let st := { st with extendedAddFormat := true }
          match skipRects operations (i + 5) with
          | none => .ok (st, added)
          | some i' => opsLoop operations rendererId stringTable fuel st i' added
        else if op = 9 then
          let st := { st with extendedAddFormat := true }
          match getOp operations (i + 1) with
          | none => .ok (st, added)
          | some numIds => opsLoop operations rendererId stringTable fuel st (i + 2 + numIds) added
        else if op = 10 then
          let st := { st with extendedAddFormat := true }
          match getOp operations (i + 2) with
          | none => .ok (st, added)
          | some numSuspenseChildren =>
            opsLoop operations rendererId stringTable fuel st (i + 3 + numSuspenseChildren) added
        else if op = 11 then
          let st := { st with extendedAddFormat := true }
          match skipRects operations (i + 2) with
          | none => .ok (st, added)
          | some i' => opsLoop operations rendererId stringTable fuel st i' added
        else if op = 12 then
          let st := { st with extendedAddFormat := true }
          match getOp operations (i + 1) with
          | none => .ok (st, added)
          | some numChanges =>
            opsLoop operations rendererId stringTable fuel st (i + 2 + numChanges * 4) added
        else if op = 13 then
          let st := { st with extendedAddFormat := true }
          opsLoop operations rendererId stringTable fuel st (i + 2) added
        else
          -- unknown opcode: advance one value and continue
          opsLoop operations rendererId stringTable fuel st (i + 1) added
    else .ok (st, added)

/-- Entry point applyOperations (component-tree.ts): batches shorter than 2
are ignored; then the string table is parsed and the opcode loop runs.  A
batch of length exactly 2 gives an undefined table size, a NaN table end and
a cursor of 3 past the batch, so nothing happens; that is the second early
return. -/
def applyOperations (st : TreeState) (operations : List Int) :
    Except DecodeErr (TreeState × List (Int × String)) :=
  if operations.length < 2 then .ok (st, [])
  else
    let rendererId := operations.getD 0 0
    match getOp operations 2 with
    | none => .ok (st, [])
    | some stringTableSize =>
      match parseStringTable operations (3 + stringTableSize) (stringTableSize.toNat + 1) 3 [none] with
      | .error e => .error e
      | .ok (stringTable, i) =>
        opsLoop operations rendererId stringTable (operations.length + 1) st i added0
where
  added0 : List (Int × String) := []

/-- Lookup getNode (component-tree.ts). -/
def getNode (st : TreeState) (id : Int) : Option ComponentNode :=
  alGet st.nodes id

/-- Accumulator threaded through the getTree walk: the emitted flat list,
the label counter, and the label maps being rebuilt. -/
structure WalkAcc where
  result : List TreeNode
  counter : Nat
  labelToId : List (String × Int)
  idToLabel : List (Int × String)
deriving DecidableEq

/-- Recursive walk of getTree (component-tree.ts): look the id up, stop on a
missing node or beyond maxDepth, emit the node with the next label, then
recurse into its children.  Fuel bounds the recursion depth; getTree passes
one more than the node count, which suffices whenever the JS recursion
terminates (a repeated id on the call chain would recurse forever). -/
def walkF (st : TreeState) (maxDepth : Option Nat) :
    Nat → Int → Nat → WalkAcc → Option WalkAcc := fun fuel =>
  Nat.rec (motive := fun _ => Int → Nat → WalkAcc → Option WalkAcc)
    (fun _ _ _ => none)
    (fun _ ih id depth acc =>
    match alGet st.nodes id with
    | none => some acc
    | some node =>
      if match maxDepth with | some m => decide (m < depth) | none => false then some acc
      else
        let label := "@c" ++ toString acc.counter
        let entry : TreeNode :=
          ⟨node.id, label, node.displayName, node.type, node.key, node.parentId,
            node.children, depth⟩
        let acc : WalkAcc :=
          ⟨acc.result ++ [entry], acc.counter + 1,
            alSet acc.labelToId label node.id, alSet acc.idToLabel node.id label⟩
        node.children.foldlM (fun a c => ih c (depth + 1) a) acc)
    fuel

/-- Tree flattening getTree (component-tree.ts): clears both label maps,
resets the counter to 1 and walks every root depth-first.  Returns the
updated tree state (the rebuilt label maps) with the flat node list; none
models a walk that diverges in JS. -/
def getTree (st : TreeState) (maxDepth : Option Nat) : Option (TreeState × List TreeNode) :=
  match st.roots.foldlM (fun acc r => walkF st maxDepth (st.nodes.length + 1) r 0 acc)
      (⟨[], 1, [], []⟩ : WalkAcc) with
  | some acc =>
    some ({ st with labelToId := acc.labelToId, idToLabel := acc.idToLabel }, acc.result)
  | none => none

/-- Node emission step of the getTree walk: push the entry with the next
label and record both label-map bindings. -/
def walkPush (node : ComponentNode) (depth : Nat) (acc : WalkAcc) : WalkAcc :=
  let label := "@c" ++ toString acc.counter
  let entry : TreeNode :=
    ⟨node.id, label, node.displayName, node.type, node.key, node.parentId,
      node.children, depth⟩
  ⟨acc.result ++ [entry], acc.counter + 1,
    alSet acc.labelToId label node.id, alSet acc.idToLabel node.id label⟩

/-- One unrolling of walkF with the recursive occurrence abstracted;
definitionally the successor case of the fuelled walk. -/
def walkBody (st : TreeState) (maxDepth : Option Nat)
    (rec : Int → Nat → WalkAcc → Option WalkAcc)
    (id : Int) (depth : Nat) (acc : WalkAcc) : Option WalkAcc :=
  match alGet st.nodes id with
  | none => some acc
  | some node =>
    if match maxDepth with | some m => decide (m < depth) | none => false then some acc
    else node.children.foldlM (fun a c => rec c (depth + 1) a) (walkPush node depth acc)

/-- Depth computation of the private toTreeNode (component-tree.ts): walk up
parent links, counting; a missing parent breaks out with the count so far.
Fuel marks the JS divergence on a cyclic parent chain. -/
def depthLoop (nodes : List (Int × ComponentNode)) :
    Nat → ComponentNode → Nat → Option Nat
  | 0, _, _ => none
  | fuel + 1, current, depth =>
    match current.parentId with
    | none => some depth
    | some pid =>
      match alGet nodes pid with
      | none => some (depth + 1)
      | some parent => depthLoop nodes fuel parent (depth + 1)

/-- Label lookup used by toTreeNode: the stored idToLabel entry, with the
placeholder when absent (or empty, which JS treats as falsy). -/
def labelFor (st : TreeState) (id : Int) : String :=
  match alGet st.idToLabel id with
  | some s => if s = "" then "@c?" else s
  | none => "@c?"

/-- Conversion toTreeNode (component-tree.ts). -/
def toTreeNode (st : TreeState) (node : ComponentNode) : Option TreeNode :=
  (depthLoop st.nodes (st.nodes.length + 1) node 0).map (fun depth =>
    ⟨node.id, labelFor st node.id, node.displayName, node.type, node.key,
      node.parentId, node.children, depth⟩)

/-- JS String.includes: substring containment. -/
def strIncludes (s : String) (sub : String) : Bool :=
  decide (sub.data <:+: s.data)

/-- Exact-match arm of findByName: every id in the bucket whose node is still
present and whose lowercased display name equals the query. -/
def collectExact (st : TreeState) (lower : String) : List Int → Option (List TreeNode)
  | [] => some []
  | id :: rest =>
    match alGet st.nodes id with
    | some node =>
      if toLowerCase node.displayName = lower then
        match toTreeNode st node with
        | some tn => (collectExact st lower rest).map (tn :: ·)
        | none => none
      else collectExact st lower rest
    | none => collectExact st lower rest

/-- Bucket drain of the fuzzy arm: every id whose node is still present. -/
def collectAll (st : TreeState) : List Int → Option (List TreeNode)
  | [] => some []
  | id :: rest =>
    match alGet st.nodes id with
    | some node =>
      match toTreeNode st node with
      | some tn => (collectAll st rest).map (tn :: ·)
      | none => none
    | none => collectAll st rest

/-- Fuzzy arm of findByName: iterate the name-index entries in insertion
order and drain every bucket whose key contains the query as a substring. -/
def collectFuzzy (st : TreeState) (lower : String) :
    List (String × List Int) → Option (List TreeNode)
  | [] => some []
  | (indexName, ids) :: rest =>
    if strIncludes indexName lower then
      match collectAll st ids with
      | some here => (collectFuzzy st lower rest).map (here ++ ·)
      | none => none
    else collectFuzzy st lower rest

/-- Search findByName (component-tree.ts): exact goes through the name
index bucket of the lowercased query; fuzzy iterates all index keys and
matches by substring.  none models JS divergence inside toTreeNode. -/
def findByName (st : TreeState) (name : String) (exact : Bool) : Option (List TreeNode) :=
  if exact then
    match alGet st.nameIndex (toLowerCase name) with
    | some ids => collectExact st (toLowerCase name) ids
    | none => some []
  else
    collectFuzzy st (toLowerCase name) st.nameIndex

/-- Count getComponentCount (component-tree.ts). -/
def getComponentCount (st : TreeState) : Nat := st.nodes.length

/-- Histogram getCountByType (component-tree.ts): a record keyed by the type
tag, bumped per node in map iteration order. -/
def getCountByType (st : TreeState) : List (ComponentType × Nat) :=
  st.nodes.foldl
    (fun counts p => alSet counts p.2.type ((alGet counts p.2.type).getD 0 + 1)) []

/-- Key listing getAllNodeIds (component-tree.ts). -/
def getAllNodeIds (st : TreeState) : List Int := st.nodes.map (·.1)

/-- Root listing getRootIds (component-tree.ts). -/
def getRootIds (st : TreeState) : List Int := st.roots

/-- Root removal removeRoot (component-tree.ts): plain removeNode. -/
def removeRoot (st : TreeState) (rootId : Int) : Option TreeState :=
  removeNode st rootId

/- ── DevTools bridge (devtools-bridge.ts) ──
Only the state the verified claims observe is modelled: the set of live
peer sockets (as abstract numeric identities), the recorded renderer ids,
the per-connection owned-root sets, the pending-inspection map and the one
shared ComponentTree.  Sending on a socket has no observable effect on this
state and is not modelled. -/

structure BridgeState where
  connections : List Nat
  rendererIds : List Int
  connectionRoots : List (Nat × List Int)
  pendingInspections : List (Int × Nat)
  tree : TreeState
deriving DecidableEq

/-- Owned-root set recorded for one connection. -/
def ownedRoots (b : BridgeState) (ws : Nat) : List Int :=
  (alGet b.connectionRoots ws).getD []

/-- Operations event handling (handleOperations in devtools-bridge.ts) as run
under the try block of the socket message listener: for a batch of length at
least 2, record the renderer id and add payload[1] to this connection's
owned-root set; then feed the batch to the shared tree.  An exception from
applyOperations is swallowed by the catch around handleMessage, so the
bookkeeping persists, the tree keeps its prior value, and the connection is
left open (this handler never closes a socket). -/
def handleOperations (b : BridgeState) (ws : Nat) (operations : List Int) : BridgeState :=
  let b :=
    if 2 ≤ operations.length then
      { b with
        rendererIds := setAdd b.rendererIds (operations.getD 0 0),
        connectionRoots :=
          alSet b.connectionRoots ws (setAdd (ownedRoots b ws) (operations.getD 1 0)) }
    else b
  match applyOperations b.tree operations with
  | .ok (t, _) => { b with tree := t }
  | .error _ => b

/-- Disconnect cleanup (cleanupConnection in devtools-bridge.ts): drop the
socket from the connection set, call removeRoot on every owned root, and
delete the ownership record.  none models JS divergence inside a removal. -/
def cleanupConnection (b : BridgeState) (ws : Nat) : Option BridgeState :=
  let b := { b with connections := b.connections.filter (· ≠ ws) }
  match alGet b.connectionRoots ws with
  | none => some b
  | some roots =>
    match roots.foldlM (fun t r => removeRoot t r) b.tree with
    | some t => some { b with tree := t, connectionRoots := alDelete b.connectionRoots ws }
    | none => none

/-- Result of the synchronous part of inspectElement: either an already
resolved null promise, or a pending inspection that can only be resolved by
a peer response or by the timer. -/
inductive InspectOutcome where
  | immediateNull
  | awaitingResponse (timeoutMs : Nat)
deriving DecidableEq

/-- Element inspection entry (inspectElement in devtools-bridge.ts): a
missing node resolves null immediately; otherwise a pending inspection with
the 5000 ms deadline is installed and the request is broadcast to every open
peer (the broadcast loop simply has no recipients when no peer is
connected - there is no early return for an empty connection set). -/
def inspectElement (b : BridgeState) (id : Int) : BridgeState × InspectOutcome :=
  match alGet b.tree.nodes id with
  | none => (b, .immediateNull)
  | some _ =>
    ({ b with pendingInspections := alSet b.pendingInspections id 5000 },
      .awaitingResponse 5000)

/- ── Profiler (profiler source file) ── -/

/-- ChangeDescription record of types.ts.  The nullable arrays are Options. -/
structure ChangeDescription where
  didHooksChange : Bool
  isFirstMount : Bool
  props : Option (List String)
  state : Option (List String)
  hooks : Option (List Int)
deriving DecidableEq

/-- RenderCause union of types.ts. -/
inductive RenderCause where
  | propsChanged | stateChanged | hooksChanged | parentRendered | forceUpdate | firstMount
deriving DecidableEq

/-- JS truthiness test x && x.length > 0 on a nullable array. -/
def jsNonempty {α : Type} : Option (List α) → Bool
  | some l => decide (0 < l.length)
  | none => false

/-- Cause derivation describeCauses (profiler source): first mount wins
outright; otherwise non-empty props, non-empty state and didHooksChange each
push their cause, and an empty outcome falls back to parent-rendered. -/
def describeCauses (desc : ChangeDescription) : List RenderCause :=
  if desc.isFirstMount then [RenderCause.firstMount]
  else
    let causes : List RenderCause := []
    let causes := causes ++ (if jsNonempty desc.props then [RenderCause.propsChanged] else [])
    let causes := causes ++ (if jsNonempty desc.state then [RenderCause.stateChanged] else [])
    let causes := causes ++ (if desc.didHooksChange then [RenderCause.hooksChanged] else [])
    if causes = [] then [RenderCause.parentRendered] else causes

/-- ProfilingCommit record of types.ts.  Durations are JS numbers carrying
profiling milliseconds; they are modelled as exact rationals. -/
structure ProfilingCommit where
  timestamp : Int
  duration : ℚ
  fiberActualDurations : List (Int × ℚ)
  fiberSelfDurations : List (Int × ℚ)
  changeDescriptions : List (Int × ChangeDescription)
deriving DecidableEq

/-- ProfilingSession record of types.ts. -/
structure ProfilingSession where
  name : String
  startedAt : Int
  stoppedAt : Option Int
  commits : List ProfilingCommit
deriving DecidableEq

/-- Profiler class state: the optional session and the display-name cache. -/
structure ProfilerState where
  session : Option ProfilingSession
  displayNames : List (Int × String)
deriving DecidableEq

/-- ComponentRenderReport record of types.ts (the fields getReport fills). -/
structure ComponentRenderReport where
  id : Int
  displayName : String
  renderCount : Nat
  totalDuration : ℚ
  avgDuration : ℚ
  maxDuration : ℚ
  causes : List RenderCause
deriving DecidableEq

/-- Commit loop of getReport: renderCount, totalDuration and maxDuration are
accumulated over the commits whose actual-duration map contains the id, and
the causes of each such commit's change description are added to the set. -/
def reportLoop (componentId : Int) :
    List ProfilingCommit → Nat → ℚ → ℚ → List RenderCause → Nat × ℚ × ℚ × List RenderCause
  | [], renderCount, totalDuration, maxDuration, causeSet =>
    (renderCount, totalDuration, maxDuration, causeSet)
  | commit :: rest, renderCount, totalDuration, maxDuration, causeSet =>
    match alGet commit.fiberActualDurations componentId with
    | none => reportLoop componentId rest renderCount totalDuration maxDuration causeSet
    | some duration =>
      let maxDuration := if maxDuration < duration then duration else maxDuration
      let causeSet :=
        match alGet commit.changeDescriptions componentId with
        | some desc => (describeCauses desc).foldl (fun s c => setAdd s c) causeSet
        | none => causeSet
      reportLoop componentId rest (renderCount + 1) (totalDuration + duration) maxDuration causeSet

/-- Report aggregation getReport (profiler source): no session or a
component absent from every commit produces no report; otherwise the
accumulated fields with avgDuration = totalDuration / renderCount and the
display name from the tree, the snapshot cache, or the numbered fallback. -/
def getReport (p : ProfilerState) (componentId : Int) (tree : TreeState) :
    Option ComponentRenderReport :=
  match p.session with
  | none => none
  | some session =>
    let node := getNode tree componentId
    let r := reportLoop componentId session.commits 0 0 0 []
    if r.1 = 0 then none
    else
      some
        { id := componentId
          displayName :=
            match (match node with
                   | some n => if n.displayName = "" then none else some n.displayName
                   | none => none) with
            | some s => s
            | none =>
              match alGet p.displayNames componentId with
              | some s => if s = "" then "Component#" ++ toString componentId else s
              | none => "Component#" ++ toString componentId
          renderCount := r.1
          totalDuration := r.2.1
          avgDuration := r.2.1 / (r.1 : ℚ)
          maxDuration := r.2.2.1
          causes := r.2.2.2 }

/- ── Association-list toolkit ── -/

theorem alGet_alSet_self {κ α : Type} [DecidableEq κ] (m : List (κ × α)) (k : κ) (v : α) :
    alGet (alSet m k v) k = some v := by
  induction m with
  | nil => simp [alSet, alGet]
  | cons p rest ih =>
    by_cases h : p.1 = k
    · obtain ⟨k', v'⟩ := p
      simp only at h
      simp [alSet, h, alGet]
    · obtain ⟨k', v'⟩ := p
      simp only at h
      simp [alSet, h, alGet, ih]

theorem alGet_alSet_ne {κ α : Type} [DecidableEq κ] (m : List (κ × α)) (k k' : κ) (v : α)
    (h : k ≠ k') : alGet (alSet m k v) k' = alGet m k' := by
  induction m with
  | nil => simp [alSet, alGet, h]
  | cons p rest ih =>
    obtain ⟨k₀, v₀⟩ := p
    by_cases h0 : k₀ = k
    · simp [alSet, h0, alGet, h]
    · simp [alSet, h0, alGet, ih]

theorem alGet_mem {κ α : Type} [DecidableEq κ] {m : List (κ × α)} {k : κ} {v : α}
    (h : alGet m k = some v) : (k, v) ∈ m := by
  induction m with
  | nil => simp [alGet] at h
  | cons p rest ih =>
    obtain ⟨k₀, v₀⟩ := p
    by_cases h0 : k₀ = k
    · simp [alGet, h0] at h
      simp [h0, h]
    · simp [alGet, h0] at h
      exact List.mem_cons_of_mem _ (ih h)

theorem alGet_eq_none {κ α : Type} [DecidableEq κ] (m : List (κ × α)) (k : κ) :
    alGet m k = none ↔ k ∉ m.map Prod.fst := by
  induction m with
  | nil => simp [alGet]
  | cons p rest ih =>
    obtain ⟨k₀, v₀⟩ := p
    by_cases h0 : k₀ = k
    · simp [alGet, h0]
    · simp [alGet, h0, ih, Ne.symm h0]

theorem alGet_isSome_iff {κ α : Type} [DecidableEq κ] (m : List (κ × α)) (k : κ) :
    (alGet m k).isSome = true ↔ k ∈ m.map Prod.fst := by
  cases h : alGet m k
  · simp [(alGet_eq_none m k).mp h]
  · simp
    exact ⟨_, alGet_mem h⟩

theorem mem_alGet {κ α : Type} [DecidableEq κ] {m : List (κ × α)} {k : κ} {v : α}
    (hnd : (m.map Prod.fst).Nodup) (h : (k, v) ∈ m) : alGet m k = some v := by
  induction m with
  | nil => simp at h
  | cons p rest ih =>
    obtain ⟨k₀, v₀⟩ := p
    rw [List.map_cons, List.nodup_cons] at hnd
    rcases List.mem_cons.mp h with h1 | h1
    · injection h1 with hk hv
      subst hk
      subst hv
      simp [alGet]
    · have hmem : k ∈ rest.map Prod.fst := List.mem_map_of_mem Prod.fst h1
      have hk : ¬ k₀ = k := fun hk0 => hnd.1 (hk0.symm ▸ hmem)
      simp [alGet, hk]
      exact ih hnd.2 h1

theorem alSet_fresh {κ α : Type} [DecidableEq κ] {m : List (κ × α)} {k : κ} (v : α)
    (h : alGet m k = none) : alSet m k v = m ++ [(k, v)] := by
  induction m with
  | nil => simp [alSet]
  | cons p rest ih =>
    obtain ⟨k₀, v₀⟩ := p
    by_cases h0 : k₀ = k
    · simp [alGet, h0] at h
    · simp [alGet, h0] at h
      simp [alSet, h0, ih h]

theorem alGet_append_left {κ α : Type} [DecidableEq κ] (m m' : List (κ × α)) (k : κ) (v : α)
    (h : alGet m k = some v) : alGet (m ++ m') k = some v := by
  induction m with
  | nil => simp [alGet] at h
  | cons p rest ih =>
    obtain ⟨k₀, v₀⟩ := p
    by_cases h0 : k₀ = k
    · simp [alGet, h0] at h ⊢
      exact h
    · simp [alGet, h0] at h ⊢
      exact ih h

theorem alGet_append_of_none {κ α : Type} [DecidableEq κ] (m m' : List (κ × α)) (k : κ)
    (h : alGet m k = none) : alGet (m ++ m') k = alGet m' k := by
  induction m with
  | nil => simp [alGet]
  | cons p rest ih =>
    obtain ⟨k₀, v₀⟩ := p
    by_cases h0 : k₀ = k
    · simp [alGet, h0] at h
    · simp [alGet, h0] at h ⊢
      exact ih h

theorem mem_setAdd {α : Type} [DecidableEq α] (s : List α) (x y : α) :
    y ∈ setAdd s x ↔ y = x ∨ y ∈ s := by
  unfold setAdd
  by_cases h : x ∈ s
  · rw [if_pos h]
    constructor
    · exact Or.inr
    · rintro (rfl | hy)
      · exact h
      · exact hy
  · rw [if_neg h]
    simp [or_comm]

/- ── Claim C8: cause derivation ── -/

/-- Claim C8.  Cause derivation yields exactly the singleton first-mount set
when isFirstMount holds, so first-mount never co-occurs with another cause;
otherwise props-changed is included iff props is non-empty, state-changed
iff state is non-empty, hooks-changed iff didHooksChange, and the single
fallback parent-rendered appears exactly when none of the three apply. -/
theorem c8_cause_derivation (desc : ChangeDescription) :
    (desc.isFirstMount = true → describeCauses desc = [RenderCause.firstMount]) ∧
    (desc.isFirstMount = false →
      RenderCause.firstMount ∉ describeCauses desc ∧
      (RenderCause.propsChanged ∈ describeCauses desc ↔ jsNonempty desc.props = true) ∧
      (RenderCause.stateChanged ∈ describeCauses desc ↔ jsNonempty desc.state = true) ∧
      (RenderCause.hooksChanged ∈ describeCauses desc ↔ desc.didHooksChange = true) ∧
      (describeCauses desc = [RenderCause.parentRendered] ↔
        jsNonempty desc.props = false ∧ jsNonempty desc.state = false ∧
        desc.didHooksChange = false) ∧
      (RenderCause.parentRendered ∈ describeCauses desc ↔
        jsNonempty desc.props = false ∧ jsNonempty desc.state = false ∧
        desc.didHooksChange = false)) := by
  constructor
  · intro h
    simp [describeCauses, h]
  · intro h
    cases hp : jsNonempty desc.props <;> cases hs : jsNonempty desc.state <;>
      cases hh : desc.didHooksChange <;>
        simp [describeCauses, h, hp, hh, hs]

/-- Witness for C8 at concrete change descriptions. -/
theorem c8_cause_derivation_witness :
    describeCauses ⟨false, true, some ["x"], none, none⟩ = [RenderCause.firstMount] ∧
    (RenderCause.propsChanged ∈ describeCauses ⟨false, false, some ["x"], none, none⟩ ↔
      jsNonempty (some ["x"] : Option (List String)) = true) :=
  ⟨(c8_cause_derivation _).1 rfl, ((c8_cause_derivation _).2 rfl).2.1⟩

/- ── Claim C6: inspect of a missing node and with no peers ── -/

/-- Bridge state with one component and no peer connections. -/
def inspectBridge : BridgeState :=
  ⟨[], [], [], [],
    ⟨[(3, ⟨3, "X", .fn, none, none, [], 1⟩)], [3], [("x", [3])], [], [], false⟩⟩

/-- Counterexample to claim C6.  With one node and no connected peer, the
source inspectElement still installs a pending inspection with the 5000 ms
deadline (the broadcast loop just has no recipients); it does not return an
immediately resolved null promise, so the call waits for the timer. -/
theorem c6_counterexample :
    inspectBridge.connections = [] ∧
    getNode inspectBridge.tree 3 = some ⟨3, "X", ComponentType.fn, none, none, [], 1⟩ ∧
    (inspectElement inspectBridge 3).2 = InspectOutcome.awaitingResponse 5000 ∧
    (inspectElement inspectBridge 3).2 ≠ InspectOutcome.immediateNull := by
  refine ⟨rfl, rfl, rfl, ?_⟩
  decide

/-- Claim C6 amended.  An inspect of a missing id resolves null immediately
with no state change; an inspect of a present node - also when no peer is
connected - installs a pending inspection with the 5000 ms deadline and
suspends, touching neither the tree nor the connection set. -/
theorem c6_amended (b : BridgeState) (id : Int) :
    (getNode b.tree id = none → inspectElement b id = (b, InspectOutcome.immediateNull)) ∧
    (∀ node, getNode b.tree id = some node →
      (inspectElement b id).2 = InspectOutcome.awaitingResponse 5000 ∧
      alGet (inspectElement b id).1.pendingInspections id = some 5000 ∧
      (inspectElement b id).1.tree = b.tree ∧
      (inspectElement b id).1.connections = b.connections) := by
  unfold inspectElement getNode
  cases h : alGet b.tree.nodes id <;> simp [h, alGet_alSet_self]

/-- Witness for the amended C6 at concrete inputs. -/
theorem c6_amended_witness :
    inspectElement inspectBridge 9 = (inspectBridge, InspectOutcome.immediateNull) ∧
    (inspectElement inspectBridge 3).2 = InspectOutcome.awaitingResponse 5000 :=
  ⟨(c6_amended inspectBridge 9).1 rfl, ((c6_amended inspectBridge 3).2 _ rfl).1⟩

/- ── Claim C9: exact search results are fuzzy search results ── -/

theorem strIncludes_self (s : String) : strIncludes s s = true := by
  simp [strIncludes]

theorem collectExact_sub (st : TreeState) (lower : String) :
    ∀ (ids : List Int) (l₁ la : List TreeNode),
      collectExact st lower ids = some l₁ → collectAll st ids = some la →
      ∀ tn ∈ l₁, tn ∈ la := by
  intro ids
  induction ids with
  | nil =>
    intro l₁ la h1 h2 tn htn
    simp [collectExact] at h1
    subst h1
    simp at htn
  | cons id rest ih =>
    intro l₁ la h1 h2 tn htn
    cases hn : alGet st.nodes id with
    | none =>
      simp only [collectExact, hn] at h1
      simp only [collectAll, hn] at h2
      exact ih l₁ la h1 h2 tn htn
    | some node =>
      cases htt : toTreeNode st node with
      | none =>
        simp only [collectAll, hn, htt] at h2
        exact absurd h2 (by simp)
      | some tn' =>
        simp only [collectAll, hn, htt, Option.map_eq_some'] at h2
        obtain ⟨la', hla', hcons⟩ := h2
        subst hcons
        by_cases hm : toLowerCase node.displayName = lower
        · simp only [collectExact, hn, if_pos hm, htt, Option.map_eq_some'] at h1
          obtain ⟨l₁', hl₁', hcons'⟩ := h1
          subst hcons'
          rcases List.mem_cons.mp htn with rfl | htn'
          · exact List.mem_cons_self _ _
          · exact List.mem_cons_of_mem _ (ih l₁' la' hl₁' hla' tn htn')
        · simp only [collectExact, hn, if_neg hm] at h1
          exact List.mem_cons_of_mem _ (ih l₁ la' h1 hla' tn htn)

theorem collectFuzzy_bucket (st : TreeState) (lower : String) :
    ∀ (entries : List (String × List Int)) (l₂ : List TreeNode),
      collectFuzzy st lower entries = some l₂ →
      ∀ k ids, (k, ids) ∈ entries → strIncludes k lower = true →
      ∃ la, collectAll st ids = some la ∧ ∀ tn ∈ la, tn ∈ l₂ := by
  intro entries
  induction entries with
  | nil =>
    intro l₂ h2 k ids hmem
    simp at hmem
  | cons e rest ih =>
    intro l₂ h2 k ids hmem hinc
    obtain ⟨k₀, ids₀⟩ := e
    rcases List.mem_cons.mp hmem with he | he
    · injection he with hk hids
      subst hk
      subst hids
      simp only [collectFuzzy, if_pos hinc] at h2
      cases hca : collectAll st ids with
      | none => rw [hca] at h2; exact absurd h2 (by simp)
      | some la =>
        rw [hca] at h2
        simp only [Option.map_eq_some'] at h2
        obtain ⟨l₂', hl₂', happ⟩ := h2
        subst happ
        exact ⟨la, rfl, fun tn htn => List.mem_append.mpr (Or.inl htn)⟩
    · simp only [collectFuzzy] at h2
      by_cases h0 : strIncludes k₀ lower = true
      · rw [if_pos h0] at h2
        cases hca : collectAll st ids₀ with
        | none => rw [hca] at h2; exact absurd h2 (by simp)
        | some la₀ =>
          rw [hca] at h2
          simp only [Option.map_eq_some'] at h2
          obtain ⟨l₂', hl₂', happ⟩ := h2
          subst happ
          obtain ⟨la, hla, hsub⟩ := ih l₂' hl₂' k ids he hinc
          exact ⟨la, hla, fun tn htn => List.mem_append.mpr (Or.inr (hsub tn htn))⟩
      · rw [if_neg h0] at h2
        exact ih l₂ h2 k ids he hinc

/-- Claim C9.  Whenever both searches complete (the JS searches diverge on
the same degenerate parent cycles), every node returned by the exact search
for a name is also returned by the fuzzy search for that name. -/
theorem c9_exact_subset_fuzzy (st : TreeState) (name : String) (l₁ l₂ : List TreeNode)
    (tn : TreeNode) (h1 : findByName st name true = some l₁)
    (h2 : findByName st name false = some l₂) (htn : tn ∈ l₁) : tn ∈ l₂ := by
  rw [findByName, if_pos rfl] at h1
  rw [findByName, if_neg (by simp)] at h2
  cases hb : alGet st.nameIndex (toLowerCase name) with
  | none =>
    rw [hb] at h1
    simp at h1
    subst h1
    simp at htn
  | some ids =>
    rw [hb] at h1
    obtain ⟨la, hla, hsub⟩ :=
      collectFuzzy_bucket st (toLowerCase name) st.nameIndex l₂ h2 (toLowerCase name) ids
        (alGet_mem hb) (strIncludes_self _)
    exact hsub tn (collectExact_sub st (toLowerCase name) ids l₁ la h1 hla tn htn)

/-- Component-tree state used to witness C9. -/
def searchState : TreeState :=
  ⟨[(3, ⟨3, "X", .fn, none, none, [], 1⟩)], [3], [("x", [3])], [], [], false⟩

/-- Result entry returned by both searches on searchState. -/
def searchHit : TreeNode := ⟨3, "@c?", "X", ComponentType.fn, none, none, [], 0⟩

/-- Witness for C9 at a concrete tree and query. -/
theorem c9_exact_subset_fuzzy_witness :
    findByName searchState "X" true = some [searchHit] ∧
    findByName searchState "X" false = some [searchHit] ∧
    searchHit ∈ [searchHit] :=
  ⟨by decide, by decide,
    c9_exact_subset_fuzzy searchState "X" [searchHit] [searchHit] searchHit
      (by decide) (by decide) (by simp)⟩

/- ── Claim C4: string-table overrun ── -/

/-- Condition of claim C4: the declared string-table size extends past the
end of the batch (the table occupies indices 3 through 3 + size - 1). -/
def tableOverruns (operations : List Int) : Bool :=
  match getOp operations 2 with
  | some size => decide ((operations.length : Int) < 3 + size)
  | none => false

theorem readCodePoints_ok_advance (operations : List Int) :
    ∀ (n : Nat) (i i' : Int) (str : String),
      readCodePoints operations i n = .ok (str, i') → i' = i + n := by
  intro n
  induction n with
  | zero =>
    intro i i' str h
    simp [readCodePoints] at h
    omega
  | succ n ih =>
    intro i i' str h
    rw [readCodePoints] at h
    cases hg : getOp operations i with
    | none =>
      simp only [hg] at h
      simp at h
    | some cp =>
      simp only [hg] at h
      by_cases hv : 0 ≤ cp ∧ cp ≤ 1114111
      · rw [if_pos hv] at h
        cases hrc : readCodePoints operations (i + 1) n with
        | ok r =>
          obtain ⟨s0, i0⟩ := r
          simp only [hrc] at h
          simp at h
          have := ih (i + 1) i0 s0 hrc
          omega
        | error e =>
          simp only [hrc] at h
          simp at h
      · rw [if_neg hv] at h
        simp at h

theorem readCodePoints_err (operations : List Int) :
    ∀ (n : Nat) (i : Int) (e : DecodeErr),
      readCodePoints operations i n = .error e → e = .rangeError := by
  intro n
  induction n with
  | zero =>
    intro i e h
    simp [readCodePoints] at h
  | succ n ih =>
    intro i e h
    rw [readCodePoints] at h
    cases hg : getOp operations i with
    | none => simp only [hg] at h; simp at h; exact h.symm
    | some cp =>
      simp only [hg] at h
      by_cases hv : 0 ≤ cp ∧ cp ≤ 1114111
      · rw [if_pos hv] at h
        cases hrc : readCodePoints operations (i + 1) n with
        | ok r =>
          simp only [hrc] at h
          simp at h
        | error e0 =>
          simp only [hrc] at h
          simp at h
          exact h ▸ ih (i + 1) e0 hrc
      · rw [if_neg hv] at h
        simp at h
        exact h.symm

theorem parseStringTable_step_exit (operations : List Int) (stringTableEnd : Int)
    (fuel : Nat) (i : Int) (acc : List (Option String)) (h : ¬ i < stringTableEnd) :
    parseStringTable operations stringTableEnd (fuel + 1) i acc = .ok (acc, i) := by
  rw [parseStringTable, if_neg h]

theorem parseStringTable_step_missing (operations : List Int) (stringTableEnd : Int)
    (fuel : Nat) (i : Int) (acc : List (Option String)) (hlt : i < stringTableEnd)
    (hg : getOp operations i = none) :
    parseStringTable operations stringTableEnd (fuel + 1) i acc =
      parseStringTable operations stringTableEnd fuel (i + 1) (acc ++ [some ""]) := by
  rw [parseStringTable, if_pos hlt, hg]

theorem parseStringTable_step_ok (operations : List Int) (stringTableEnd : Int)
    (fuel : Nat) (i : Int) (acc : List (Option String)) (strLen : Int) (s0 : String) (i0 : Int)
    (hlt : i < stringTableEnd) (hg : getOp operations i = some strLen)
    (hrc : readCodePoints operations (i + 1) strLen.toNat = .ok (s0, i0)) :
    parseStringTable operations stringTableEnd (fuel + 1) i acc =
      parseStringTable operations stringTableEnd fuel i0 (acc ++ [some s0]) := by
  rw [parseStringTable, if_pos hlt, hg]
  show (match readCodePoints operations (i + 1) strLen.toNat with
    | .ok (s, i') => parseStringTable operations stringTableEnd fuel i' (acc ++ [some s])
    | .error e => .error e) = _
  rw [hrc]

theorem parseStringTable_step_err (operations : List Int) (stringTableEnd : Int)
    (fuel : Nat) (i : Int) (acc : List (Option String)) (strLen : Int) (e : DecodeErr)
    (hlt : i < stringTableEnd) (hg : getOp operations i = some strLen)
    (hrc : readCodePoints operations (i + 1) strLen.toNat = .error e) :
    parseStringTable operations stringTableEnd (fuel + 1) i acc = .error e := by
  rw [parseStringTable, if_pos hlt, hg]
  show (match readCodePoints operations (i + 1) strLen.toNat with
    | .ok (s, i') => parseStringTable operations stringTableEnd fuel i' (acc ++ [some s])
    | .error e => .error e) = _
  rw [hrc]

theorem parseStringTable_ok_end (operations : List Int) (stringTableEnd : Int) :
    ∀ (fuel : Nat) (i i' : Int) (acc tbl : List (Option String)),
      parseStringTable operations stringTableEnd fuel i acc = .ok (tbl, i') →
      stringTableEnd ≤ i' := by
  intro fuel
  induction fuel with
  | zero =>
    intro i i' acc tbl h
    simp [parseStringTable] at h
  | succ fuel ih =>
    intro i i' acc tbl h
    rw [parseStringTable] at h
    by_cases hlt : i < stringTableEnd
    · rw [if_pos hlt] at h
      cases hg : getOp operations i with
      | none =>
        simp only [hg] at h
        exact ih _ _ _ _ h
      | some strLen =>
        simp only [hg] at h
        cases hrc : readCodePoints operations (i + 1) strLen.toNat with
        | ok r =>
          obtain ⟨s0, i0⟩ := r
          simp only [hrc] at h
          exact ih _ _ _ _ h
        | error e =>
          simp only [hrc] at h
          simp at h
    · rw [if_neg hlt] at h
      simp at h
      omega

theorem parseStringTable_total (operations : List Int) (stringTableEnd : Int) :
    ∀ (fuel : Nat) (i : Int) (acc : List (Option String)),
      (stringTableEnd - i).toNat < fuel →
      (∃ r, parseStringTable operations stringTableEnd fuel i acc = .ok r) ∨
      parseStringTable operations stringTableEnd fuel i acc = .error .rangeError := by
  intro fuel
  induction fuel with
  | zero => intro i acc h; omega
  | succ fuel ih =>
    intro i acc hfuel
    by_cases hlt : i < stringTableEnd
    · cases hg : getOp operations i with
      | none =>
        rw [parseStringTable_step_missing operations stringTableEnd fuel i acc hlt hg]
        exact ih (i + 1) (acc ++ [some ""]) (by omega)
      | some strLen =>
        cases hrc : readCodePoints operations (i + 1) strLen.toNat with
        | ok r =>
          obtain ⟨s0, i0⟩ := r
          have hadv := readCodePoints_ok_advance operations strLen.toNat (i + 1) i0 s0 hrc
          rw [parseStringTable_step_ok operations stringTableEnd fuel i acc strLen s0 i0 hlt hg hrc]
          exact ih i0 (acc ++ [some s0]) (by omega)
        | error e =>
          have he := readCodePoints_err operations strLen.toNat (i + 1) e hrc
          subst he
          exact Or.inr (parseStringTable_step_err operations stringTableEnd fuel i acc strLen _ hlt hg hrc)
    · exact Or.inl ⟨(acc, i), parseStringTable_step_exit operations stringTableEnd fuel i acc hlt⟩

theorem opsLoop_exit (operations : List Int) (rendererId : Int)
    (stringTable : List (Option String)) (fuel : Nat) (st : TreeState) (i : Int)
    (added : List (Int × String)) (h : ¬ i < (operations.length : Int)) :
    opsLoop operations rendererId stringTable (fuel + 1) st i added = .ok (st, added) := by
  rw [opsLoop, if_neg h]

/-- Claim C4 amended.  A batch whose declared string-table size overruns the
buffer is dropped without effect: the decoder either returns normally with
no added entries and the tree unchanged (when the overrun region decodes as
empty entries) or throws the RangeError of String.fromCodePoint, which the
bridge's message handler catches; in both cases the shared tree is unchanged
and the connection is not closed (the operations handler never closes a
socket and never touches the connection set).  There is no MalformedBatch
error anywhere in the code. -/
theorem c4_amended (operations : List Int) (hov : tableOverruns operations = true) :
    (∀ st : TreeState, applyOperations st operations = .ok (st, []) ∨
      applyOperations st operations = .error .rangeError) ∧
    (∀ (b : BridgeState) (ws : Nat),
      (handleOperations b ws operations).tree = b.tree ∧
      (handleOperations b ws operations).connections = b.connections) := by
  unfold tableOverruns at hov
  rcases hg : getOp operations 2 with _ | size
  · simp only [hg] at hov; simp at hov
  · simp only [hg] at hov
    simp at hov
    have hlen3 : 2 < operations.length := by
      unfold getOp at hg
      by_cases hneg : (2 : Int) < 0
      · omega
      · rw [if_neg hneg] at hg
        have := List.get?_eq_some.mp hg
        simpa using this.1
    have hmain : ∀ st : TreeState, applyOperations st operations = .ok (st, []) ∨
        applyOperations st operations = .error .rangeError := by
      intro st
      unfold applyOperations
      rw [if_neg (by omega)]
      simp only [hg]
      rcases parseStringTable_total operations (3 + size) (size.toNat + 1) 3 [none]
          (by omega) with ⟨⟨tbl, i'⟩, hok⟩ | herr
      · simp only [hok]
        have hend := parseStringTable_ok_end operations (3 + size) _ 3 i' [none] tbl hok
        have : ¬ i' < (operations.length : Int) := by omega
        exact Or.inl (opsLoop_exit operations _ tbl operations.length st i' _ this)
      · simp only [herr]
        exact Or.inr trivial
    refine ⟨hmain, fun b ws => ?_⟩
    unfold handleOperations
    by_cases h2 : 2 ≤ operations.length
    · rw [if_pos h2]
      rcases hmain b.tree with h | h <;> simp [h]
    · omega

/-- Counterexample to claim C4 as stated: the batch [1, 100, 1] declares a
one-value string table where zero values remain, an overrun, yet the decoder
does not fail at all - in JS the undefined length reads as an empty entry
and the loop ends - so no MalformedBatch (nor any other) error is raised. -/
theorem c4_counterexample :
    tableOverruns [1, 100, 1] = true ∧
    applyOperations emptyTree [1, 100, 1] = .ok (emptyTree, []) :=
  ⟨rfl, rfl⟩

/-- Batch whose overrunning string table hits the RangeError path. -/
def overrunBatch : List Int := [1, 100, 5, 3, 65]

/-- Bridge state used to witness C4. -/
def overrunBridge : BridgeState := ⟨[7], [], [], [], emptyTree⟩

/-- Witness for the amended C4 at concrete inputs. -/
theorem c4_amended_witness :
    tableOverruns overrunBatch = true ∧
    (applyOperations emptyTree overrunBatch = .ok (emptyTree, []) ∨
      applyOperations emptyTree overrunBatch = .error .rangeError) ∧
    (handleOperations overrunBridge 7 overrunBatch).tree = overrunBridge.tree ∧
    (handleOperations overrunBridge 7 overrunBatch).connections = overrunBridge.connections :=
  have h := c4_amended overrunBatch (by decide)
  ⟨by decide, h.1 emptyTree, (h.2 overrunBridge 7).1, (h.2 overrunBridge 7).2⟩

/- ── Counterexamples for C2, C3, C5 ── -/

/-- Batch adding a single non-root node whose parent id 99 names no node. -/
def orphanBatch : List Int := [1, 100, 0, 1, 5, 5, 99, 0, 0, 0]

/-- Tree state reached from the empty tree by orphanBatch. -/
def orphanState : TreeState :=
  ⟨[(5, ⟨5, "Anonymous", .fn, none, some 99, [], 1⟩)], [], [("anonymous", [5])], [], [], false⟩

/-- Counterexample to claim C2 as stated: a reachable state (one ADD whose
parent id names no node) has one live node, yet an unrestricted getTree
emits no node at all, so the labels stop before @c1 reaches the node count
and the node is reachable from no root. -/
theorem c2_counterexample :
    applyOperations emptyTree orphanBatch = .ok (orphanState, [(5, "Anonymous")]) ∧
    getComponentCount orphanState = 1 ∧
    getTree orphanState none = some (orphanState, []) :=
  ⟨rfl, rfl, rfl⟩

/-- Batch adding root 1 and then reordering its children to [1] itself. -/
def cyclicBatch : List Int := [1, 100, 0, 1, 1, 11, 1, 1, 1, 1, 3, 1, 1, 1]

/-- Tree state reached from the empty tree by cyclicBatch: node 1 is its own
child. -/
def cyclicState : TreeState :=
  ⟨[(1, ⟨1, "Root", .other, none, none, [1], 1⟩)], [1], [], [], [], false⟩

/-- Counterexample to claim C3 as stated: on the reachable state where node
1 lists itself as a child, a REMOVE naming the present id 1 makes the
recursive removal revisit id 1 forever - the JS call never returns (stack
overflow), modelled as the fuel-free none / nonTermination results - so
nothing is removed and the node count does not drop. -/
theorem c3_counterexample :
    applyOperations emptyTree cyclicBatch = .ok (cyclicState, [(1, "Root")]) ∧
    getNode cyclicState 1 = some ⟨1, "Root", ComponentType.other, none, none, [1], 1⟩ ∧
    removeNode cyclicState 1 = none ∧
    applyOperations cyclicState [1, 100, 0, 2, 1, 1] = .error .nonTermination :=
  ⟨rfl, rfl, rfl, rfl⟩

/-- Batch carrying opcode 13, which latches the extended-ADD flag. -/
def latchBatch : List Int := [1, 100, 0, 13, 7]

/-- Batch from a second connection holding two 7-field ADDs (ids 10, 20). -/
def secondConnBatch : List Int :=
  [1, 200, 0, 1, 10, 5, 0, 0, 0, 0, 1, 20, 5, 0, 0, 0, 0]

/-- Bridge with two live connections sharing the one tree. -/
def twoConnBridge : BridgeState := ⟨[1, 2], [], [], [], emptyTree⟩

/-- Counterexample to claim C5 as stated: the extended-ADD latch is not
scoped to a connection.  After connection 1 sends a batch with opcode 13,
connection 2's batch of two 7-field ADDs is decoded in the 8-field shape -
its second ADD is swallowed and node 20 is never created - whereas the same
batch from connection 2 alone creates both nodes.  Connection 1's traffic
changed how connection 2's batch was decoded. -/
theorem c5_counterexample :
    getNode (handleOperations (handleOperations twoConnBridge 1 latchBatch) 2
        secondConnBatch).tree 20 = none ∧
    getNode (handleOperations twoConnBridge 2 secondConnBatch).tree 20 =
      some ⟨20, "Anonymous", ComponentType.fn, none, none, [], 1⟩ ∧
    getNode (handleOperations (handleOperations twoConnBridge 1 latchBatch) 2
        secondConnBatch).tree 10 =
      some ⟨10, "Anonymous", ComponentType.fn, none, none, [], 1⟩ ∧
    (handleOperations (handleOperations twoConnBridge 1 latchBatch) 2
        secondConnBatch).tree.extendedAddFormat = true :=
  ⟨rfl, rfl, rfl, rfl⟩

/- ── Claim C7: profiling report aggregation ── -/

theorem reportLoop_spec (componentId : Int) :
    ∀ (commits : List ProfilingCommit) (rc : Nat) (td md : ℚ) (cs : List RenderCause),
      (reportLoop componentId commits rc td md cs).1 =
        rc + (commits.filterMap (fun c => alGet c.fiberActualDurations componentId)).length ∧
      (reportLoop componentId commits rc td md cs).2.1 =
        td + (commits.filterMap (fun c => alGet c.fiberActualDurations componentId)).sum ∧
      (reportLoop componentId commits rc td md cs).2.2.1 =
        (commits.filterMap (fun c => alGet c.fiberActualDurations componentId)).foldl
          (fun m d => if m < d then d else m) md := by
  intro commits
  induction commits with
  | nil => intro rc td md cs; simp [reportLoop]
  | cons commit rest ih =>
    intro rc td md cs
    cases hd : alGet commit.fiberActualDurations componentId with
    | none =>
      simp only [reportLoop, hd, List.filterMap_cons]
      exact ih rc td md cs
    | some duration =>
      simp only [reportLoop, hd, List.filterMap_cons]
      refine ⟨?_, ?_, ?_⟩
      · rw [(ih _ _ _ _).1]
        simp
        omega
      · rw [(ih _ _ _ _).2.1]
        simp
        ring
      · rw [(ih _ _ _ _).2.2]
        simp

theorem foldMax_le (l : List ℚ) :
    ∀ (m d : ℚ), d ∈ l → d ≤ l.foldl (fun a b => if a < b then b else a) m := by
  induction l with
  | nil => intro m d hd; simp at hd
  | cons x rest ih =>
    intro m d hd
    rcases List.mem_cons.mp hd with rfl | hd'
    · calc d ≤ (if m < d then d else m) := by
            by_cases h : m < d
            · rw [if_pos h]
            · rw [if_neg h]; linarith [not_lt.mp h]
        _ ≤ _ := foldMax_ge_init rest _
    · exact ih _ d hd'
where
  foldMax_ge_init (l : List ℚ) : ∀ m : ℚ, m ≤ l.foldl (fun a b => if a < b then b else a) m := by
    induction l with
    | nil => intro m; simp
    | cons x rest ih =>
      intro m
      calc m ≤ (if m < x then x else m) := by
            by_cases h : m < x
            · rw [if_pos h]; linarith
            · rw [if_neg h]
        _ ≤ _ := ih _

theorem foldMax_mem_or (l : List ℚ) :
    ∀ m : ℚ, l.foldl (fun a b => if a < b then b else a) m = m ∨
      l.foldl (fun a b => if a < b then b else a) m ∈ l := by
  induction l with
  | nil => intro m; simp
  | cons x rest ih =>
    intro m
    rcases ih (if m < x then x else m) with h | h
    · simp only [List.foldl_cons] at *
      rw [h]
      by_cases hx : m < x
      · rw [if_pos hx]
        exact Or.inr (List.mem_cons_self _ _)
      · rw [if_neg hx]
        exact Or.inl rfl
    · simp only [List.foldl_cons] at *
      exact Or.inr (List.mem_cons_of_mem _ h)

/-- Claim C7.  With an installed session, getReport for a component id
returns no report exactly when the id appears in no commit's actual-duration
map; otherwise renderCount is the number of such commits, totalDuration
their sum, avgDuration the quotient total / count, and maxDuration their
maximum (durations are non-negative profiling times; ds collects, in commit
order, the recorded duration of each commit containing the id). -/
theorem c7_get_report (p : ProfilerState) (session : ProfilingSession) (componentId : Int)
    (tree : TreeState) (ds : List ℚ)
    (hs : p.session = some session)
    (hds : ds = session.commits.filterMap (fun c => alGet c.fiberActualDurations componentId))
    (hnn : ∀ d ∈ ds, 0 ≤ d) :
    (getReport p componentId tree = none ↔ ds = []) ∧
    (∀ r, getReport p componentId tree = some r →
      r.renderCount = ds.length ∧
      r.totalDuration = ds.sum ∧
      r.avgDuration = ds.sum / (ds.length : ℚ) ∧
      r.maxDuration ∈ ds ∧
      (∀ d ∈ ds, d ≤ r.maxDuration)) := by
  have hspec := reportLoop_spec componentId session.commits 0 0 0 []
  rw [← hds] at hspec
  obtain ⟨h1, h2, h3⟩ := hspec
  simp only [zero_add] at h1 h2 h3
  unfold getReport
  simp only [hs]
  by_cases hz : (reportLoop componentId session.commits 0 0 0 []).1 = 0
  · rw [if_pos hz]
    constructor
    · simp only [true_iff]
      have : ds.length = 0 := by omega
      exact List.eq_nil_of_length_eq_zero this
    · intro r hr
      exact absurd hr (by simp)
  · rw [if_neg hz]
    have hne : ds ≠ [] := by
      intro hnil
      rw [hnil] at h1
      simp at h1
      exact hz h1
    constructor
    · exact ⟨fun h => absurd h (by simp), fun h => absurd h hne⟩
    · intro r hr
      simp only [Option.some.injEq] at hr
      subst hr
      refine ⟨h1, h2, ?_, ?_, ?_⟩
      · simp only [h2, h1]
      · rcases foldMax_mem_or ds 0 with h | h
        · rw [h3, h]
          obtain ⟨d0, hd0⟩ := List.exists_mem_of_ne_nil ds hne
          have hle : d0 ≤ (0 : ℚ) := h ▸ foldMax_le ds 0 d0 hd0
          have hge : (0 : ℚ) ≤ d0 := hnn d0 hd0
          have : d0 = 0 := le_antisymm hle hge
          exact this ▸ hd0
        · exact h3 ▸ h
      · intro d hd
        exact h3 ▸ foldMax_le ds 0 d hd

/-- Profiling state used to witness C7: one commit touching components 1, 2. -/
def c7Profiler : ProfilerState :=
  ⟨some ⟨"s", 0, none,
    [⟨1000, 12, [(1, 10), (2, 5)], [(1, 4)], [(1, ⟨false, false, some ["x"], none, none⟩)]⟩]⟩, []⟩

/-- Tree naming component 1, used to witness C7. -/
def c7Tree : TreeState :=
  ⟨[(1, ⟨1, "X", .fn, none, none, [], 1⟩)], [1], [("x", [1])], [], [], false⟩

/-- Report produced by getReport for component 1 of c7Profiler. -/
def c7Report : ComponentRenderReport :=
  ⟨1, "X", 1, 10, 10, 10, [RenderCause.propsChanged]⟩

/-- Witness for C7 at a concrete session. -/
theorem c7_get_report_witness :
    getReport c7Profiler 1 c7Tree = some c7Report ∧
    c7Report.renderCount = [(10 : ℚ)].length ∧
    c7Report.totalDuration = [(10 : ℚ)].sum ∧
    c7Report.avgDuration = [(10 : ℚ)].sum / (([(10 : ℚ)].length : Nat) : ℚ) ∧
    c7Report.maxDuration ∈ [(10 : ℚ)] ∧
    getReport c7Profiler 3 c7Tree = none :=
  have h := c7_get_report c7Profiler ⟨"s", 0, none,
    [⟨1000, 12, [(1, 10), (2, 5)], [(1, 4)], [(1, ⟨false, false, some ["x"], none, none⟩)]⟩]⟩
    1 c7Tree [(10 : ℚ)] rfl rfl
    (by intro d hd; rw [List.mem_singleton] at hd; subst hd; norm_num)
  have h3 := c7_get_report c7Profiler ⟨"s", 0, none,
    [⟨1000, 12, [(1, 10), (2, 5)], [(1, 4)], [(1, ⟨false, false, some ["x"], none, none⟩)]⟩]⟩
    3 c7Tree [] rfl rfl (by intro d hd; exact absurd hd (List.not_mem_nil d))
  have hr : getReport c7Profiler 1 c7Tree = some c7Report := by
    simp [getReport, c7Profiler, reportLoop, alGet, getNode, c7Tree, describeCauses,
      jsNonempty, setAdd, c7Report]
  have hc := h.2 c7Report hr
  ⟨hr, hc.1, hc.2.1, hc.2.2.1, hc.2.2.2.1, h3.1.mpr rfl⟩

/- ── Well-formed forest states ──
The spec's section-3 invariants for the component tree, under which the
structural claims hold (adversarial batches can leave states outside them,
as the counterexamples above show).  Acyclicity is certified by a depth
function that strictly decreases along parent links. -/

/-- Descendant relation of claim C1 and C3: the reflexive-transitive closure
of the stored children edges starting at root. -/
inductive Desc (st : TreeState) (root : Int) : Int → Prop where
  | refl : Desc st root root
  | child : ∀ {b c : Int} {nd : ComponentNode},
      Desc st root b → alGet st.nodes b = some nd → c ∈ nd.children → Desc st root c

structure WellFormed (st : TreeState) : Prop where
  keysNodup : (st.nodes.map Prod.fst).Nodup
  idMatch : ∀ p ∈ st.nodes, p.2.id = p.1
  childrenExist : ∀ p ∈ st.nodes, ∀ c ∈ p.2.children,
    ∃ nd, alGet st.nodes c = some nd ∧ nd.parentId = some p.1
  parentListed : ∀ p ∈ st.nodes, ∀ pid, p.2.parentId = some pid →
    ∃ q ∈ st.nodes, q.1 = pid ∧ p.1 ∈ q.2.children
  childrenNodup : ∀ p ∈ st.nodes, p.2.children.Nodup
  rootsNodup : st.roots.Nodup
  rootsMem : ∀ r ∈ st.roots, ∃ nd, alGet st.nodes r = some nd ∧ nd.parentId = none
  rootsComplete : ∀ p ∈ st.nodes, p.2.parentId = none → p.1 ∈ st.roots
  acyclic : ∃ dep : Int → Nat,
    ∀ p ∈ st.nodes, ∀ pid, p.2.parentId = some pid → dep pid < dep p.1

namespace WellFormed

variable {st : TreeState}

/-- Each descendant of a node in the map is itself in the map, and a proper
descendant has its last-step parent among the descendants. -/
theorem desc_present (wf : WellFormed st) {r x : Int} (h : Desc st r x)
    (hr : (alGet st.nodes r).isSome) : (alGet st.nodes x).isSome := by
  induction h with
  | refl => exact hr
  | child hd hb hc ih =>
    rename_i b c nd
    obtain ⟨cnd, hcnd, _⟩ := wf.childrenExist _ (alGet_mem hb) c hc
    simp [hcnd]

end WellFormed

/-- Depth certificate fixed once for a well-formed state, with the facts the
structural arguments need. -/
theorem wf_dep (wf : WellFormed st) :
    ∃ dep : Int → Nat,
      (∀ p ∈ st.nodes, ∀ pid, p.2.parentId = some pid → dep pid < dep p.1) :=
  wf.acyclic

/-- Along a descendant path the certified depth never decreases. -/
theorem desc_dep_le {st : TreeState} (wf : WellFormed st) (dep : Int → Nat)
    (hdep : ∀ p ∈ st.nodes, ∀ pid, p.2.parentId = some pid → dep pid < dep p.1)
    {r x : Int} (h : Desc st r x) : dep r ≤ dep x := by
  induction h with
  | refl => exact le_rfl
  | child hd hb hc ih =>
    rename_i b c nd
    obtain ⟨cnd, hcnd, hpar⟩ := wf.childrenExist _ (alGet_mem hb) c hc
    have h1 := hdep _ (alGet_mem hcnd) b hpar
    simp only at h1
    omega

/-- A proper descendant is strictly deeper. -/
theorem desc_dep_lt {st : TreeState} (wf : WellFormed st) (dep : Int → Nat)
    (hdep : ∀ p ∈ st.nodes, ∀ pid, p.2.parentId = some pid → dep pid < dep p.1)
    {r x : Int} (h : Desc st r x) (hne : x ≠ r) : dep r < dep x := by
  cases h with
  | refl => exact absurd rfl hne
  | child hd hb hc =>
    rename_i b nd
    obtain ⟨cnd, hcnd, hpar⟩ := wf.childrenExist _ (alGet_mem hb) x hc
    have h1 := hdep _ (alGet_mem hcnd) b hpar
    simp only at h1
    have h2 := desc_dep_le wf dep hdep hd
    omega

/-- Two ancestors of the same node are comparable: the children edges of a
well-formed state give each node at most one parent, so ancestor chains are
linear. -/
theorem desc_linear {st : TreeState} (wf : WellFormed st) (dep : Int → Nat)
    (hdep : ∀ p ∈ st.nodes, ∀ pid, p.2.parentId = some pid → dep pid < dep p.1) :
    ∀ (n : Nat) (x : Int), dep x ≤ n → ∀ a b : Int,
      Desc st a x → Desc st b x → Desc st a b ∨ Desc st b a := by
  intro n
  induction n with
  | zero =>
    intro x hx a b ha hb
    cases ha with
    | refl => exact Or.inr hb
    | child hd hb' hc =>
      rename_i b0 nd
      obtain ⟨cnd, hcnd, hpar⟩ := wf.childrenExist _ (alGet_mem hb') x hc
      have h1 := hdep _ (alGet_mem hcnd) b0 hpar
      simp only at h1
      omega
  | succ n ih =>
    intro x hx a b ha hb
    cases ha with
    | refl => exact Or.inr hb
    | child hda hba hca =>
      rename_i ba nda
      cases hb with
      | refl =>
        exact Or.inl (Desc.child hda hba hca)
      | child hdb hbb hcb =>
        rename_i bb ndb
        -- both last steps name x's unique parent, so ba = bb
        obtain ⟨cnda, hcnda, hpara⟩ := wf.childrenExist _ (alGet_mem hba) x hca
        obtain ⟨cndb, hcndb, hparb⟩ := wf.childrenExist _ (alGet_mem hbb) x hcb
        rw [hcnda] at hcndb
        injection hcndb with hnd
        subst hnd
        rw [hpara] at hparb
        injection hparb with hbab
        subst hbab
        have hlt := hdep _ (alGet_mem hcnda) ba hpara
        simp only at hlt
        exact ih ba (by omega) a b hda hdb

/-- A root reached by a descendant path from another root is that root. -/
theorem desc_root_eq {st : TreeState} (wf : WellFormed st) {r₁ r₂ : Int}
    (h2 : r₂ ∈ st.roots) (hd : Desc st r₁ r₂) : r₂ = r₁ := by
  cases hd with
  | refl => rfl
  | child hd hb hc =>
    rename_i b nd
    obtain ⟨cnd, hcnd, hpar⟩ := wf.childrenExist _ (alGet_mem hb) r₂ hc
    obtain ⟨rnd, hrnd, hrpar⟩ := wf.rootsMem r₂ h2
    rw [hcnd] at hrnd
    injection hrnd with hnd
    subst hnd
    rw [hpar] at hrpar
    exact absurd hrpar (by simp)

/-- Each live node lies below exactly one root (uniqueness half). -/
theorem desc_unique_root {st : TreeState} (wf : WellFormed st) (dep : Int → Nat)
    (hdep : ∀ p ∈ st.nodes, ∀ pid, p.2.parentId = some pid → dep pid < dep p.1)
    {r₁ r₂ x : Int} (h1 : r₁ ∈ st.roots) (h2 : r₂ ∈ st.roots)
    (hd1 : Desc st r₁ x) (hd2 : Desc st r₂ x) : r₁ = r₂ := by
  rcases desc_linear wf dep hdep (dep x) x le_rfl r₁ r₂ hd1 hd2 with h | h
  · exact (desc_root_eq wf h2 h).symm
  · exact desc_root_eq wf h1 h

/-- Each live node lies below at least one root (coverage half). -/
theorem desc_coverage {st : TreeState} (wf : WellFormed st) (dep : Int → Nat)
    (hdep : ∀ p ∈ st.nodes, ∀ pid, p.2.parentId = some pid → dep pid < dep p.1) :
    ∀ (n : Nat) (p : Int × ComponentNode), p ∈ st.nodes → dep p.1 ≤ n →
      ∃ r ∈ st.roots, Desc st r p.1 := by
  intro n
  induction n with
  | zero =>
    intro p hp hdp
    cases hpar : p.2.parentId with
    | none => exact ⟨p.1, wf.rootsComplete p hp hpar, Desc.refl⟩
    | some pid =>
      have := hdep p hp pid hpar
      omega
  | succ n ih =>
    intro p hp hdp
    cases hpar : p.2.parentId with
    | none => exact ⟨p.1, wf.rootsComplete p hp hpar, Desc.refl⟩
    | some pid =>
      obtain ⟨q, hq, hqid, hqch⟩ := wf.parentListed p hp pid hpar
      have hlt := hdep p hp pid hpar
      obtain ⟨r, hr, hdr⟩ := ih q hq (by rw [hqid]; omega)
      exact ⟨r, hr, Desc.child hdr (mem_alGet wf.keysNodup hq) hqch⟩

/- ── Subtree certificates ──
An STree records the exact shape of a stored subtree; Represents ties it to
the state.  The removal and traversal lemmas run by structural induction on
these certificates, which are built from WellFormed states below. -/

inductive STree where
  | mk (rootId : Int) (kids : List STree)

def STree.rootId : STree → Int
  | .mk i _ => i

def STree.flatten : STree → List Int
  | .mk i kids => i :: (kids.attach.map (fun c => STree.flatten c.1)).flatten
decreasing_by
  have h := List.sizeOf_lt_of_mem c.2
  simp only [STree.mk.sizeOf_spec]
  omega

def STree.height : STree → Nat
  | .mk _ kids => 1 + (kids.attach.map (fun c => STree.height c.1)).foldr max 0
decreasing_by
  have h := List.sizeOf_lt_of_mem c.2
  simp only [STree.mk.sizeOf_spec]
  omega

theorem STree.flatten_mk (i : Int) (kids : List STree) :
    STree.flatten (.mk i kids) = i :: (kids.map STree.flatten).flatten := by
  unfold STree.flatten
  congr 2
  exact List.attach_map_val kids STree.flatten

theorem STree.height_mk (i : Int) (kids : List STree) :
    STree.height (.mk i kids) = 1 + (kids.map STree.height).foldr max 0 := by
  unfold STree.height
  congr 2
  exact List.attach_map_val kids STree.height

inductive Represents (st : TreeState) : STree → Prop where
  | mk : ∀ (i : Int) (kids : List STree) (nd : ComponentNode),
      alGet st.nodes i = some nd →
      nd.children = kids.map STree.rootId →
      (∀ c ∈ kids, Represents st c) →
      (∀ c ∈ kids, ∀ cnd, alGet st.nodes c.rootId = some cnd → cnd.parentId = some i) →
      Represents st (.mk i kids)

theorem rootId_mem_flatten (t : STree) : t.rootId ∈ t.flatten := by
  obtain ⟨i, kids⟩ := t
  rw [STree.flatten_mk]
  exact List.mem_cons_self _ _

theorem represents_transfer : ∀ {t : STree} {st₁ st₂ : TreeState},
    Represents st₁ t →
    (∀ x ∈ t.flatten, alGet st₂.nodes x = alGet st₁.nodes x) →
    Represents st₂ t := by
  intro t st₁ st₂ h
  induction h with
  | mk i kids nd hnd hch hkids hpar ih =>
    intro hagree
    have hmemi : i ∈ STree.flatten (.mk i kids) := by
      rw [STree.flatten_mk]; exact List.mem_cons_self _ _
    have hsub : ∀ c ∈ kids, ∀ x ∈ STree.flatten c, x ∈ STree.flatten (.mk i kids) := by
      intro c hc x hx
      rw [STree.flatten_mk]
      exact List.mem_cons_of_mem _ (List.mem_flatten.mpr ⟨c.flatten, List.mem_map_of_mem _ hc, hx⟩)
    refine Represents.mk i kids nd ?_ hch ?_ ?_
    · rw [hagree i hmemi]; exact hnd
    · exact fun c hc => ih c hc (fun x hx => hagree x (hsub c hc x hx))
    · intro c hc cnd hcnd
      apply hpar c hc cnd
      rw [← hagree c.rootId (hsub c hc _ (rootId_mem_flatten c))]
      exact hcnd

/-- Transitivity of the descendant relation. -/
theorem desc_trans {st : TreeState} {a b c : Int}
    (h1 : Desc st a b) (h2 : Desc st b c) : Desc st a c := by
  induction h2 with
  | refl => exact h1
  | child hd hb hc ih => exact Desc.child ih hb hc

/-- A proper descendant of i is a descendant of one of i's stored children. -/
theorem desc_first_step {st : TreeState} (wf : WellFormed st) (dep : Int → Nat)
    (hdep : ∀ p ∈ st.nodes, ∀ pid, p.2.parentId = some pid → dep pid < dep p.1)
    {i : Int} {nd : ComponentNode} (hnd : alGet st.nodes i = some nd) :
    ∀ (n : Nat) (x : Int), dep x ≤ n → Desc st i x → x ≠ i →
      ∃ c ∈ nd.children, Desc st c x := by
  intro n
  induction n with
  | zero =>
    intro x hx hd hne
    cases hd with
    | refl => exact absurd rfl hne
    | child hd hb hc =>
      rename_i b nd0
      obtain ⟨cnd, hcnd, hpar⟩ := wf.childrenExist _ (alGet_mem hb) x hc
      have h1 := hdep _ (alGet_mem hcnd) b hpar
      simp only at h1
      omega
  | succ n ih =>
    intro x hx hd hne
    cases hd with
    | refl => exact absurd rfl hne
    | child hd hb hc =>
      rename_i b nd0
      by_cases hbi : b = i
      · subst hbi
        rw [hnd] at hb
        injection hb with hb
        subst hb
        exact ⟨x, hc, Desc.refl⟩
      · obtain ⟨cnd, hcnd, hpar⟩ := wf.childrenExist _ (alGet_mem hb) x hc
        have h1 := hdep _ (alGet_mem hcnd) b hpar
        simp only at h1
        obtain ⟨c, hcmem, hcd⟩ := ih b (by omega) hd hbi
        exact ⟨c, hcmem, Desc.child hcd hb hc⟩

theorem filter_length_mono {α : Type} (l : List α) (p q : α → Bool)
    (himp : ∀ x ∈ l, q x = true → p x = true) :
    (l.filter q).length ≤ (l.filter p).length := by
  induction l with
  | nil => simp
  | cons a rest ih =>
    have hrest := ih (fun x hx => himp x (List.mem_cons_of_mem _ hx))
    by_cases hq : q a = true
    · have hp := himp a (List.mem_cons_self _ _) hq
      simp [List.filter_cons, hq, hp]
      omega
    · simp only [List.filter_cons]
      rw [if_neg (by simp [hq])]
      by_cases hp : p a = true
      · rw [if_pos (by simp [hp])]
        simp
        omega
      · rw [if_neg (by simp [hp])]
        exact hrest

theorem filter_length_lt {α : Type} (l : List α) (p q : α → Bool)
    (himp : ∀ x ∈ l, q x = true → p x = true)
    (x0 : α) (hx0 : x0 ∈ l) (hp0 : p x0 = true) (hq0 : ¬ q x0 = true) :
    (l.filter q).length < (l.filter p).length := by
  induction l with
  | nil => simp at hx0
  | cons a rest ih =>
    have hrmono := filter_length_mono rest p q (fun x hx => himp x (List.mem_cons_of_mem _ hx))
    rcases List.mem_cons.mp hx0 with rfl | hx0'
    · simp only [List.filter_cons]
      rw [if_neg (by simp [hq0]), if_pos (by simp [hp0])]
      simp
      omega
    · by_cases hq : q a = true
      · have hp := himp a (List.mem_cons_self _ _) hq
        simp only [List.filter_cons]
        rw [if_pos (by simp [hq]), if_pos (by simp [hp])]
        simp
        exact ih (fun x hx hqx => himp x (List.mem_cons_of_mem _ hx) hqx) hx0'
      · simp only [List.filter_cons]
        rw [if_neg (by simp [hq])]
        by_cases hp : p a = true
        · rw [if_pos (by simp [hp])]
          simp
          have := ih (fun x hx hqx => himp x (List.mem_cons_of_mem _ hx) hqx) hx0'
          omega
        · rw [if_neg (by simp [hp])]
          exact ih (fun x hx hqx => himp x (List.mem_cons_of_mem _ hx) hqx) hx0'

/-- Distinct stored children of one node head disjoint descendant sets. -/
theorem sibling_disjoint {st : TreeState} (wf : WellFormed st) (dep : Int → Nat)
    (hdep : ∀ p ∈ st.nodes, ∀ pid, p.2.parentId = some pid → dep pid < dep p.1)
    {i : Int} {nd : ComponentNode} (hnd : alGet st.nodes i = some nd)
    {c₁ c₂ : Int} (h₁ : c₁ ∈ nd.children) (h₂ : c₂ ∈ nd.children) (hne : c₁ ≠ c₂) :
    ∀ x, Desc st c₁ x → Desc st c₂ x → False := by
  have key : ∀ a b : Int, a ∈ nd.children → b ∈ nd.children → a ≠ b → ¬ Desc st a b := by
    intro a b ha hb hab hd
    obtain ⟨bnd, hbnd, hbpar⟩ := wf.childrenExist _ (alGet_mem hnd) b hb
    simp only at hbpar
    cases hd with
    | refl => exact hab rfl
    | child hd hb' hc =>
      rename_i b0 nd0
      obtain ⟨bnd', hbnd', hbpar'⟩ := wf.childrenExist _ (alGet_mem hb') b hc
      simp only at hbpar'
      rw [hbnd] at hbnd'
      injection hbnd' with hh
      subst hh
      rw [hbpar] at hbpar'
      injection hbpar' with hh
      subst hh
      -- so Desc a i; but dep i < dep a
      have hle := desc_dep_le wf dep hdep hd
      obtain ⟨and', hand', hapar⟩ := wf.childrenExist _ (alGet_mem hnd) a ha
      simp only at hapar
      have hlt := hdep _ (alGet_mem hand') i hapar
      simp only at hlt
      omega
  intro x hx1 hx2
  rcases desc_linear wf dep hdep (dep x) x le_rfl c₁ c₂ hx1 hx2 with h | h
  · exact key c₁ c₂ h₁ h₂ hne h
  · exact key c₂ c₁ h₂ h₁ (Ne.symm hne) h

/-- Construction of a subtree certificate below any live node of a
well-formed state: the flattened certificate is exactly the descendant set
and is duplicate-free. -/
theorem build_subtree {st : TreeState} (wf : WellFormed st) (dep : Int → Nat)
    (hdep : ∀ p ∈ st.nodes, ∀ pid, p.2.parentId = some pid → dep pid < dep p.1) :
    ∀ (n : Nat) (i : Int) (nd : ComponentNode),
      alGet st.nodes i = some nd →
      (st.nodes.filter (fun p => decide (dep i < dep p.1))).length ≤ n →
      ∃ t : STree, t.rootId = i ∧ Represents st t ∧
        (∀ x, x ∈ t.flatten ↔ Desc st i x) ∧ t.flatten.Nodup := by
  intro n
  induction n with
  | zero =>
    intro i nd hnd hn
    have hempty : nd.children = [] := by
      cases hch : nd.children with
      | nil => rfl
      | cons c rest =>
        obtain ⟨cnd, hcnd, hcpar⟩ := wf.childrenExist _ (alGet_mem hnd) c (by rw [hch]; exact List.mem_cons_self _ _)
        have hdepc := hdep _ (alGet_mem hcnd) i hcpar
        simp only at hdepc
        have hmem : (c, cnd) ∈ st.nodes.filter (fun p => decide (dep i < dep p.1)) := by
          rw [List.mem_filter]
          exact ⟨alGet_mem hcnd, by simpa using hdepc⟩
        have := List.length_pos.mpr (List.ne_nil_of_mem hmem)
        omega
    refine ⟨.mk i [], rfl, Represents.mk i [] nd hnd (by simp [hempty]) (by simp) (by simp), ?_, ?_⟩
    · intro x
      rw [STree.flatten_mk]
      simp only [List.map_nil, List.flatten_nil]
      constructor
      · intro hx
        simp at hx
        subst hx
        exact Desc.refl
      · intro hd
        by_cases hxi : x = i
        · simp [hxi]
        · obtain ⟨c, hc, _⟩ := desc_first_step wf dep hdep hnd (dep x) x le_rfl hd hxi
          rw [hempty] at hc
          simp at hc
    · rw [STree.flatten_mk]
      simp
  | succ n ih =>
    intro i nd hnd hn
    -- build certificates for any sublist of the children
    have inner : ∀ cs : List Int, (∀ c ∈ cs, c ∈ nd.children) →
        ∃ kts : List STree, kts.map STree.rootId = cs ∧
          (∀ kt ∈ kts, Represents st kt ∧
            (∀ x, x ∈ kt.flatten ↔ Desc st kt.rootId x) ∧ kt.flatten.Nodup) := by
      intro cs
      induction cs with
      | nil => exact fun _ => ⟨[], rfl, by simp⟩
      | cons c rest ihc =>
        intro hsub
        obtain ⟨kts, hmap, hprops⟩ := ihc (fun x hx => hsub x (List.mem_cons_of_mem _ hx))
        have hcmem := hsub c (List.mem_cons_self _ _)
        obtain ⟨cnd, hcnd, hcpar⟩ := wf.childrenExist _ (alGet_mem hnd) c hcmem
        have hdepc : dep i < dep c := by
          have := hdep _ (alGet_mem hcnd) i hcpar
          simpa using this
        have hmeas : (st.nodes.filter (fun p => decide (dep c < dep p.1))).length ≤ n := by
          have hlt := filter_length_lt st.nodes (fun p => decide (dep i < dep p.1))
            (fun p => decide (dep c < dep p.1))
            (fun p hp hq => by
              simp only [decide_eq_true_eq] at hq ⊢
              omega)
            (c, cnd) (alGet_mem hcnd) (by simpa using hdepc) (by simp)
          omega
        obtain ⟨t, hrt, hrep, hiff, hnds⟩ := ih c cnd hcnd hmeas
        refine ⟨t :: kts, by simp [hrt, hmap], ?_⟩
        intro kt hkt
        rcases List.mem_cons.mp hkt with rfl | hkt'
        · exact ⟨hrep, by rw [hrt]; exact hiff, hnds⟩
        · exact hprops kt hkt'
    obtain ⟨kts, hmap, hprops⟩ := inner nd.children (fun c hc => hc)
    have hdesc_of_kid : ∀ kt ∈ kts, ∀ x, x ∈ kt.flatten → Desc st i x := by
      intro kt hkt x hx
      have hc : kt.rootId ∈ nd.children := by
        rw [← hmap]
        exact List.mem_map_of_mem _ hkt
      have hdx := ((hprops kt hkt).2.1 x).mp hx
      exact desc_trans (Desc.child Desc.refl hnd hc) hdx
    refine ⟨.mk i kts, rfl, Represents.mk i kts nd hnd hmap.symm
      (fun c hc => (hprops c hc).1) ?_, ?_, ?_⟩
    · intro c hc cnd hcnd
      have hcmem : c.rootId ∈ nd.children := by
        rw [← hmap]; exact List.mem_map_of_mem _ hc
      obtain ⟨cnd', hcnd', hcpar'⟩ := wf.childrenExist _ (alGet_mem hnd) c.rootId hcmem
      rw [hcnd] at hcnd'
      injection hcnd' with hh
      subst hh
      exact hcpar'
    · intro x
      rw [STree.flatten_mk]
      constructor
      · intro hx
        rcases List.mem_cons.mp hx with rfl | hx'
        · exact Desc.refl
        · obtain ⟨fl, hfl, hxfl⟩ := List.mem_flatten.mp hx'
          obtain ⟨kt, hkt, rfl⟩ := List.mem_map.mp hfl
          exact hdesc_of_kid kt hkt x hxfl
      · intro hd
        by_cases hxi : x = i
        · subst hxi
          exact List.mem_cons_self _ _
        · obtain ⟨c, hc, hcd⟩ := desc_first_step wf dep hdep hnd (dep x) x le_rfl hd hxi
          rw [← hmap] at hc
          obtain ⟨kt, hkt, rfl⟩ := List.mem_map.mp hc
          apply List.mem_cons_of_mem
          apply List.mem_flatten.mpr
          exact ⟨kt.flatten, List.mem_map_of_mem _ hkt, ((hprops kt hkt).2.1 x).mpr hcd⟩
    · rw [STree.flatten_mk]
      rw [List.nodup_cons]
      constructor
      · intro hx
        obtain ⟨fl, hfl, hxfl⟩ := List.mem_flatten.mp hx
        obtain ⟨kt, hkt, rfl⟩ := List.mem_map.mp hfl
        have hc : kt.rootId ∈ nd.children := by
          rw [← hmap]; exact List.mem_map_of_mem _ hkt
        obtain ⟨cnd, hcnd, hcpar⟩ := wf.childrenExist _ (alGet_mem hnd) kt.rootId hc
        have hdepc := hdep _ (alGet_mem hcnd) i hcpar
        simp only at hdepc
        have hdx := ((hprops kt hkt).2.1 i).mp hxfl
        have hle := desc_dep_le wf dep hdep hdx
        omega
      · rw [List.nodup_flatten]
        constructor
        · intro fl hfl
          obtain ⟨kt, hkt, rfl⟩ := List.mem_map.mp hfl
          exact (hprops kt hkt).2.2
        · -- pairwise disjointness of the kid flattens
          have hchn : (kts.map STree.rootId).Nodup := by
            rw [hmap]
            exact wf.childrenNodup _ (alGet_mem hnd)
          have hpw : kts.Pairwise (fun t₁ t₂ => t₁.rootId ≠ t₂.rootId) :=
            (List.pairwise_map).mp (hchn)
          rw [List.pairwise_map]
          refine hpw.imp_of_mem ?_
          intro t₁ t₂ h₁ h₂ hne x hx₁ hx₂
          have hc₁ : t₁.rootId ∈ nd.children := by
            rw [← hmap]; exact List.mem_map_of_mem _ h₁
          have hc₂ : t₂.rootId ∈ nd.children := by
            rw [← hmap]; exact List.mem_map_of_mem _ h₂
          exact sibling_disjoint wf dep hdep hnd hc₁ hc₂ hne x
            (((hprops t₁ h₁).2.1 x).mp hx₁) (((hprops t₂ h₂).2.1 x).mp hx₂)

/-- Packaged subtree construction from a well-formed state. -/
theorem exists_subtree {st : TreeState} (wf : WellFormed st) {i : Int} {nd : ComponentNode}
    (hnd : alGet st.nodes i = some nd) :
    ∃ t : STree, t.rootId = i ∧ Represents st t ∧
      (∀ x, x ∈ t.flatten ↔ Desc st i x) ∧ t.flatten.Nodup := by
  obtain ⟨dep, hdep⟩ := wf.acyclic
  exact build_subtree wf dep hdep _ i nd hnd le_rfl

theorem foldr_max_le_sum (L : List Nat) : L.foldr max 0 ≤ L.sum := by
  induction L with
  | nil => simp
  | cons a rest ih =>
    simp only [List.foldr_cons, List.sum_cons]
    omega

/-- The height of a certificate is at most the length of its flattening. -/
theorem height_le_flatten : ∀ (n : Nat) (t : STree), sizeOf t ≤ n →
    t.height ≤ t.flatten.length := by
  have hrec : ∀ (ks : List STree), (∀ kt ∈ ks, kt.height ≤ kt.flatten.length) →
      (ks.map STree.height).foldr max 0 ≤ (ks.map (fun kt => kt.flatten.length)).sum := by
    intro ks
    induction ks with
    | nil => simp
    | cons k rest ih =>
      intro hks
      simp only [List.map_cons, List.foldr_cons, List.sum_cons]
      have h1 := hks k (List.mem_cons_self _ _)
      have h2 := ih (fun kt hkt => hks kt (List.mem_cons_of_mem _ hkt))
      omega
  intro n
  induction n with
  | zero =>
    intro t h
    obtain ⟨i, kids⟩ := t
    simp [STree.mk.sizeOf_spec] at h
  | succ n ih =>
    intro t h
    obtain ⟨i, kids⟩ := t
    rw [STree.height_mk, STree.flatten_mk]
    have hk : ∀ kt ∈ kids, kt.height ≤ kt.flatten.length := by
      intro kt hkt
      apply ih
      have h1 := List.sizeOf_lt_of_mem hkt
      simp only [STree.mk.sizeOf_spec] at h
      omega
    have hmax := hrec kids hk
    have hlen : ((kids.map STree.flatten).flatten).length =
        (kids.map (fun kt => kt.flatten.length)).sum := by
      rw [List.length_flatten, List.map_map]
      rfl
    simp only [List.length_cons]
    omega

/- ── Characterization of recursive removal ── -/

/-- Name-index key a node would be scrubbed under: its lowercased display
name, or nothing for the empty (falsy) name. -/
def nameKey (st : TreeState) (x : Int) : Option String :=
  (alGet st.nodes x).bind
    (fun nd => if nd.displayName = "" then none else some (toLowerCase nd.displayName))

/-- Effect of removing one whole subtree rooted at i with parent slot
parOpt: the subtree keys disappear, every other node keeps its value except
the parent, whose children lose i; roots lose the subtree; each removed
node's name-index entry is scrubbed; label maps and the format flag stay. -/
structure PrunedAt (st₀ st₁ : TreeState) (R : List Int) (i : Int) (parOpt : Option Int) : Prop where
  keys : st₁.nodes.map Prod.fst = (st₀.nodes.map Prod.fst).filter (fun k => decide (k ∉ R))
  gone : ∀ x ∈ R, alGet st₁.nodes x = none
  kept : ∀ x, x ∉ R → parOpt ≠ some x → alGet st₁.nodes x = alGet st₀.nodes x
  par : ∀ pp, parOpt = some pp → alGet st₁.nodes pp =
      (alGet st₀.nodes pp).map (fun q => { q with children := q.children.filter (· ≠ i) })
  roots : st₁.roots = st₀.roots.filter (fun r => decide (r ∉ R))
  buckets : ∀ s x, x ∈ bucketGet st₁ s ↔
      x ∈ bucketGet st₀ s ∧ ¬(x ∈ R ∧ nameKey st₀ x = some s)
  l2i : st₁.labelToId = st₀.labelToId
  i2l : st₁.idToLabel = st₀.idToLabel
  flag : st₁.extendedAddFormat = st₀.extendedAddFormat

/-- Accumulated effect of removing a family of disjoint subtrees whose
shared parent is i (which is deleted afterwards by the caller). -/
structure PrunedFold (st₀ st₁ : TreeState) (F : List Int) (i : Int) : Prop where
  keys : st₁.nodes.map Prod.fst = (st₀.nodes.map Prod.fst).filter (fun k => decide (k ∉ F))
  gone : ∀ x ∈ F, alGet st₁.nodes x = none
  kept : ∀ x, x ∉ F → x ≠ i → alGet st₁.nodes x = alGet st₀.nodes x
  roots : st₁.roots = st₀.roots.filter (fun r => decide (r ∉ F))
  buckets : ∀ s x, x ∈ bucketGet st₁ s ↔
      x ∈ bucketGet st₀ s ∧ ¬(x ∈ F ∧ nameKey st₀ x = some s)
  l2i : st₁.labelToId = st₀.labelToId
  i2l : st₁.idToLabel = st₀.idToLabel
  flag : st₁.extendedAddFormat = st₀.extendedAddFormat

theorem alSet_keys_of_mem {κ α : Type} [DecidableEq κ] {m : List (κ × α)} {k : κ} {v0 : α}
    (h : alGet m k = some v0) (v : α) : (alSet m k v).map Prod.fst = m.map Prod.fst := by
  induction m with
  | nil => simp [alGet] at h
  | cons p rest ih =>
    obtain ⟨k₀, v₀⟩ := p
    by_cases h0 : k₀ = k
    · simp [alSet, h0]
    · simp only [alGet, if_neg h0] at h
      simp [alSet, h0, ih h]

theorem alDelete_keys {κ α : Type} [DecidableEq κ] (m : List (κ × α)) (k : κ) :
    (alDelete m k).map Prod.fst = (m.map Prod.fst).filter (fun x => decide (x ≠ k)) := by
  induction m with
  | nil => rfl
  | cons p rest ih =>
    simp only [alDelete] at ih ⊢
    simp only [ne_eq, decide_not] at ih ⊢
    by_cases h0 : p.1 = k
    · simp [List.filter_cons, h0, ih]
    · simp [List.filter_cons, h0, ih]

/-- A pruning step never changes a surviving node's name key (the parent
slot only loses a child id; the display name stays). -/
theorem PrunedAt.nameKey_eq {st₀ st₁ : TreeState} {R : List Int} {i : Int} {parOpt : Option Int}
    (h : PrunedAt st₀ st₁ R i parOpt) (x : Int) (hx : x ∉ R) :
    nameKey st₁ x = nameKey st₀ x := by
  by_cases hpx : parOpt = some x
  · rw [nameKey, h.par x hpx, nameKey]
    cases alGet st₀.nodes x <;> simp
  · rw [nameKey, h.kept x hx hpx, nameKey]

theorem alGet_alDelete_self {κ α : Type} [DecidableEq κ] (m : List (κ × α)) (k : κ) :
    alGet (alDelete m k) k = none := by
  rw [alGet_eq_none, alDelete_keys]
  intro hmem
  rw [List.mem_filter] at hmem
  simp at hmem

theorem alGet_alDelete_ne {κ α : Type} [DecidableEq κ] (m : List (κ × α)) (k k' : κ)
    (h : k' ≠ k) : alGet (alDelete m k) k' = alGet m k' := by
  induction m with
  | nil => rfl
  | cons p rest ih =>
    obtain ⟨k₀, v₀⟩ := p
    simp only [alDelete] at ih ⊢
    simp only [ne_eq, decide_not] at ih ⊢
    rw [List.filter_cons]
    by_cases h0 : k₀ = k
    · rw [if_neg (by simp [h0]), ih]
      have h1 : ¬ k₀ = k' := fun hh => h (hh.symm.trans h0)
      simp [alGet, h1]
    · rw [if_pos (by simp [h0])]
      by_cases h1 : k₀ = k'
      · simp [alGet, h1]
      · simp [alGet, h1, ih]

theorem removeUnlinkParent_eq_noparent (st : TreeState) (node : ComponentNode) (id : Int)
    (h : node.parentId = none) : removeUnlinkParent st node id = st := by
  unfold removeUnlinkParent
  rw [h]

theorem removeUnlinkParent_eq_absent (st : TreeState) (node : ComponentNode) (id pid : Int)
    (h : node.parentId = some pid) (h2 : alGet st.nodes pid = none) :
    removeUnlinkParent st node id = st := by
  unfold removeUnlinkParent
  rw [h]
  show (match alGet st.nodes pid with
    | some parent =>
      let parent' := { parent with children := parent.children.filter (· ≠ id) }
      { st with nodes := alSet st.nodes pid parent' }
    | none => st) = st
  rw [h2]

theorem removeUnlinkParent_eq_found (st : TreeState) (node : ComponentNode) (id pid : Int)
    (parent : ComponentNode) (h : node.parentId = some pid)
    (h2 : alGet st.nodes pid = some parent) :
    removeUnlinkParent st node id =
      { st with nodes := alSet st.nodes pid ({ parent with children := parent.children.filter (· ≠ id) }) } := by
  unfold removeUnlinkParent
  rw [h]
  show (match alGet st.nodes pid with
    | some parent =>
      let parent' := { parent with children := parent.children.filter (· ≠ id) }
      { st with nodes := alSet st.nodes pid parent' }
    | none => st) = _
  rw [h2]

/-- Characterization of the parent-unlink step. -/
theorem removeUnlinkParent_spec (st : TreeState) (node : ComponentNode) (id : Int) :
    (removeUnlinkParent st node id).nodes.map Prod.fst = st.nodes.map Prod.fst ∧
    (∀ x, node.parentId ≠ some x →
      alGet (removeUnlinkParent st node id).nodes x = alGet st.nodes x) ∧
    (∀ pp, node.parentId = some pp →
      alGet (removeUnlinkParent st node id).nodes pp =
        (alGet st.nodes pp).map (fun q => { q with children := q.children.filter (· ≠ id) })) ∧
    (removeUnlinkParent st node id).roots = st.roots ∧
    (removeUnlinkParent st node id).nameIndex = st.nameIndex ∧
    (removeUnlinkParent st node id).labelToId = st.labelToId ∧
    (removeUnlinkParent st node id).idToLabel = st.idToLabel ∧
    (removeUnlinkParent st node id).extendedAddFormat = st.extendedAddFormat := by
  cases hpar : node.parentId with
  | none =>
    rw [removeUnlinkParent_eq_noparent st node id hpar]
    exact ⟨rfl, fun x _ => rfl, fun pp hpp => by simp at hpp, rfl, rfl, rfl, rfl, rfl⟩
  | some pid =>
    cases hget : alGet st.nodes pid with
    | none =>
      rw [removeUnlinkParent_eq_absent st node id pid hpar hget]
      refine ⟨rfl, fun x _ => rfl, ?_, rfl, rfl, rfl, rfl, rfl⟩
      intro pp hpp
      injection hpp with hpp
      subst hpp
      rw [hget]
      rfl
    | some parent =>
      rw [removeUnlinkParent_eq_found st node id pid parent hpar hget]
      refine ⟨alSet_keys_of_mem hget _, ?_, ?_, rfl, rfl, rfl, rfl, rfl⟩
      · intro x hx
        have hne : pid ≠ x := fun hh => hx (congrArg some hh)
        exact alGet_alSet_ne _ _ _ _ hne
      · intro pp hpp
        injection hpp with hpp
        subst hpp
        rw [alGet_alSet_self, hget]
        rfl

theorem removeScrubName_eq_falsy (st : TreeState) (node : ComponentNode) (id : Int)
    (h : node.displayName = "") : removeScrubName st node id = st := by
  unfold removeScrubName
  rw [if_neg (by simp [h])]

theorem removeScrubName_eq_nobucket (st : TreeState) (node : ComponentNode) (id : Int)
    (h : node.displayName ≠ "") (hb : alGet st.nameIndex (toLowerCase node.displayName) = none) :
    removeScrubName st node id = st := by
  unfold removeScrubName
  rw [if_pos (by simpa using h)]
  show (match alGet st.nameIndex (toLowerCase node.displayName) with
    | some s =>
      let s' := s.filter (· ≠ id)
      if s'.length = 0 then
        { st with nameIndex := alDelete st.nameIndex (toLowerCase node.displayName) }
      else
        { st with nameIndex := alSet st.nameIndex (toLowerCase node.displayName) s' }
    | none => st) = st
  rw [hb]

theorem removeScrubName_eq_del (st : TreeState) (node : ComponentNode) (id : Int)
    (setl : List Int) (h : node.displayName ≠ "")
    (hb : alGet st.nameIndex (toLowerCase node.displayName) = some setl)
    (hlen : (setl.filter (· ≠ id)).length = 0) :
    removeScrubName st node id =
      { st with nameIndex := alDelete st.nameIndex (toLowerCase node.displayName) } := by
  unfold removeScrubName
  rw [if_pos (by simpa using h)]
  show (match alGet st.nameIndex (toLowerCase node.displayName) with
    | some s =>
      let s' := s.filter (· ≠ id)
      if s'.length = 0 then
        { st with nameIndex := alDelete st.nameIndex (toLowerCase node.displayName) }
      else
        { st with nameIndex := alSet st.nameIndex (toLowerCase node.displayName) s' }
    | none => st) = _
  rw [hb]
  show (if (setl.filter (· ≠ id)).length = 0 then _ else _) = _
  rw [if_pos hlen]

theorem removeScrubName_eq_set (st : TreeState) (node : ComponentNode) (id : Int)
    (setl : List Int) (h : node.displayName ≠ "")
    (hb : alGet st.nameIndex (toLowerCase node.displayName) = some setl)
    (hlen : ¬ (setl.filter (· ≠ id)).length = 0) :
    removeScrubName st node id =
      { st with nameIndex := alSet st.nameIndex (toLowerCase node.displayName) (setl.filter (· ≠ id)) } := by
  unfold removeScrubName
  rw [if_pos (by simpa using h)]
  show (match alGet st.nameIndex (toLowerCase node.displayName) with
    | some s =>
      let s' := s.filter (· ≠ id)
      if s'.length = 0 then
        { st with nameIndex := alDelete st.nameIndex (toLowerCase node.displayName) }
      else
        { st with nameIndex := alSet st.nameIndex (toLowerCase node.displayName) s' }
    | none => st) = _
  rw [hb]
  show (if (setl.filter (· ≠ id)).length = 0 then _ else _) = _
  rw [if_neg hlen]

theorem bucketGet_nameIndex (st : TreeState) (ni : List (String × List Int)) (s : String) :
    bucketGet { st with nameIndex := ni } s = (alGet ni s).getD [] := rfl

/-- Characterization of the name-scrub step. -/
theorem removeScrubName_spec (st : TreeState) (node : ComponentNode) (id : Int) :
    (removeScrubName st node id).nodes = st.nodes ∧
    (removeScrubName st node id).roots = st.roots ∧
    (∀ s x, x ∈ bucketGet (removeScrubName st node id) s ↔
      x ∈ bucketGet st s ∧
        ¬(x = id ∧ (if node.displayName = "" then (none : Option String)
            else some (toLowerCase node.displayName)) = some s)) ∧
    (removeScrubName st node id).labelToId = st.labelToId ∧
    (removeScrubName st node id).idToLabel = st.idToLabel ∧
    (removeScrubName st node id).extendedAddFormat = st.extendedAddFormat := by
  by_cases hdn : node.displayName = ""
  · rw [removeScrubName_eq_falsy st node id hdn]
    refine ⟨rfl, rfl, ?_, rfl, rfl, rfl⟩
    intro s x
    rw [if_pos hdn]
    simp
  · cases hb : alGet st.nameIndex (toLowerCase node.displayName) with
    | none =>
      rw [removeScrubName_eq_nobucket st node id hdn hb]
      refine ⟨rfl, rfl, ?_, rfl, rfl, rfl⟩
      intro s x
      rw [if_neg hdn]
      constructor
      · intro hx
        refine ⟨hx, ?_⟩
        rintro ⟨rfl, hkey⟩
        injection hkey with hkey
        rw [← hkey] at hx
        rw [bucketGet, hb] at hx
        simp at hx
      · exact fun hh => hh.1
    | some setl =>
      by_cases hlen : (setl.filter (· ≠ id)).length = 0
      · rw [removeScrubName_eq_del st node id setl hdn hb hlen]
        have hall : ∀ y ∈ setl, y = id := by
          intro y hy
          by_contra hne
          have hmem : y ∈ setl.filter (· ≠ id) :=
            List.mem_filter.mpr ⟨hy, by simpa using hne⟩
          rw [List.length_eq_zero.mp hlen] at hmem
          simp at hmem
        refine ⟨rfl, rfl, ?_, rfl, rfl, rfl⟩
        intro s x
        rw [if_neg hdn, bucketGet_nameIndex]
        by_cases hs : s = toLowerCase node.displayName
        · subst hs
          rw [alGet_alDelete_self]
          constructor
          · intro hx
            simp at hx
          · rintro ⟨hx, hcl⟩
            rw [bucketGet, hb] at hx
            simp only [Option.getD_some] at hx
            exact absurd ⟨hall x hx, rfl⟩ hcl
        · rw [alGet_alDelete_ne _ _ _ (fun hh => hs hh)]
          rw [bucketGet]
          constructor
          · intro hx
            refine ⟨hx, ?_⟩
            rintro ⟨rfl, hkey⟩
            injection hkey with hkey
            exact hs hkey.symm
          · exact fun hh => hh.1
      · rw [removeScrubName_eq_set st node id setl hdn hb hlen]
        refine ⟨rfl, rfl, ?_, rfl, rfl, rfl⟩
        intro s x
        rw [if_neg hdn, bucketGet_nameIndex]
        by_cases hs : s = toLowerCase node.displayName
        · subst hs
          rw [alGet_alSet_self]
          simp only [Option.getD_some]
          rw [bucketGet, hb]
          simp only [Option.getD_some, List.mem_filter]
          constructor
          · rintro ⟨hx, hne⟩
            simp at hne
            exact ⟨hx, by rintro ⟨rfl, _⟩; exact hne rfl⟩
          · rintro ⟨hx, hcl⟩
            refine ⟨hx, ?_⟩
            have hxid : ¬ x = id := fun hh => hcl ⟨hh, by simp⟩
            simpa using hxid
        · rw [alGet_alSet_ne _ _ _ _ (fun hh => hs hh.symm)]
          rw [bucketGet]
          constructor
          · intro hx
            refine ⟨hx, ?_⟩
            rintro ⟨rfl, hkey⟩
            injection hkey with hkey
            exact hs hkey.symm
          · exact fun hh => hh.1

theorem removeNodeF_succ (m : Nat) (st : TreeState) (id : Int) :
    removeNodeF (m + 1) st id = removeNodeBody (removeNodeF m) st id := rfl

theorem removeNodeBody_none (rec : TreeState → Int → Option TreeState) (st : TreeState)
    (id : Int) (h : alGet st.nodes id = none) :
    removeNodeBody rec st id = some st := by
  unfold removeNodeBody
  rw [h]

theorem removeNodeBody_found_some (rec : TreeState → Int → Option TreeState) (st st4 : TreeState)
    (id : Int) (node : ComponentNode) (h : alGet st.nodes id = some node)
    (hf : node.children.foldlM (fun s c => rec s c) (removePre st node id) = some st4) :
    removeNodeBody rec st id = some { st4 with nodes := alDelete st4.nodes id } := by
  unfold removeNodeBody
  simp only [h, hf]

theorem removeNodeBody_found_none (rec : TreeState → Int → Option TreeState) (st : TreeState)
    (id : Int) (node : ComponentNode) (h : alGet st.nodes id = some node)
    (hf : node.children.foldlM (fun s c => rec s c) (removePre st node id) = none) :
    removeNodeBody rec st id = none := by
  unfold removeNodeBody
  simp only [h, hf]

theorem height_pos (t : STree) : 1 ≤ t.height := by
  obtain ⟨i, kids⟩ := t
  rw [STree.height_mk]
  omega

theorem le_foldr_max (L : List Nat) {a : Nat} (h : a ∈ L) : a ≤ L.foldr max 0 := by
  induction L with
  | nil => simp at h
  | cons b rest ih =>
    simp only [List.foldr_cons]
    rcases List.mem_cons.mp h with rfl | h2
    · omega
    · have := ih h2
      omega

theorem filter_and {α : Type} (l : List α) (p q : α → Bool) :
    (l.filter p).filter q = l.filter (fun a => p a && q a) := by
  induction l with
  | nil => rfl
  | cons a rest ih =>
    by_cases hp : p a <;> by_cases hq : q a <;>
      simp [List.filter_cons, hp, hq, ih]

theorem length_filter_ne_of_nodup (l : List Int) (r : Int) (hn : l.Nodup) (hr : r ∈ l) :
    (l.filter (fun x => decide (x ≠ r))).length + 1 = l.length := by
  induction l with
  | nil => simp at hr
  | cons a rest ih =>
    rw [List.nodup_cons] at hn
    rcases List.mem_cons.mp hr with rfl | hr2
    · rw [List.filter_cons, if_neg (by simp)]
      have hall : rest.filter (fun x => decide (x ≠ r)) = rest :=
        List.filter_eq_self.mpr (fun x hx => by
          simp only [decide_eq_true_eq]
          exact fun hh => hn.1 (hh ▸ hx))
      rw [hall]
      simp
    · have hne : a ≠ r := fun hh => hn.1 (hh ▸ hr2)
      rw [List.filter_cons, if_pos (by simpa using hne)]
      have := ih hn.2 hr2
      simp only [List.length_cons]
      omega

theorem length_filter_notmem (R : List Int) : ∀ (K : List Int), K.Nodup → R.Nodup →
    (∀ x ∈ R, x ∈ K) →
    (K.filter (fun k => decide (k ∉ R))).length + R.length = K.length := by
  induction R with
  | nil =>
    intro K hK hR hsub
    simp
  | cons r R ih =>
    intro K hK hR hsub
    rw [List.nodup_cons] at hR
    have hrK : r ∈ K := hsub r (List.mem_cons_self _ _)
    have hsplit : K.filter (fun k => decide (k ∉ r :: R)) =
        (K.filter (fun x => decide (x ≠ r))).filter (fun k => decide (k ∉ R)) := by
      rw [filter_and]
      apply List.filter_congr
      intro x hx
      show decide (x ∉ r :: R) = (decide (x ≠ r) && decide (x ∉ R))
      by_cases h1 : x = r <;> by_cases h2 : x ∈ R <;> simp [h1, h2]
    rw [hsplit]
    have hK2 : (K.filter (fun x => decide (x ≠ r))).Nodup := hK.filter _
    have hsub2 : ∀ x ∈ R, x ∈ K.filter (fun x => decide (x ≠ r)) := by
      intro x hx
      rw [List.mem_filter]
      exact ⟨hsub x (List.mem_cons_of_mem _ hx), by
        simp only [decide_eq_true_eq]
        exact fun hh => hR.1 (hh ▸ hx)⟩
    have h1 := ih (K.filter (fun x => decide (x ≠ r))) hK2 hR.2 hsub2
    have h2 := length_filter_ne_of_nodup K r hK hrK
    simp only [List.length_cons]
    omega

theorem removePre_eq (st : TreeState) (node : ComponentNode) (id : Int) :
    removePre st node id =
      removeScrubName { removeUnlinkParent st node id with roots := (removeUnlinkParent st node id).roots.filter (· ≠ id) } node id := rfl

/-- Combined characterization of the pre-recursion edits. -/
theorem removePre_spec (st : TreeState) (node : ComponentNode) (id : Int) :
    (removePre st node id).nodes.map Prod.fst = st.nodes.map Prod.fst ∧
    (∀ x, node.parentId ≠ some x →
      alGet (removePre st node id).nodes x = alGet st.nodes x) ∧
    (∀ pp, node.parentId = some pp →
      alGet (removePre st node id).nodes pp =
        (alGet st.nodes pp).map (fun q => { q with children := q.children.filter (· ≠ id) })) ∧
    (removePre st node id).roots = st.roots.filter (· ≠ id) ∧
    (∀ s x, x ∈ bucketGet (removePre st node id) s ↔
      x ∈ bucketGet st s ∧
        ¬(x = id ∧ (if node.displayName = "" then (none : Option String)
            else some (toLowerCase node.displayName)) = some s)) ∧
    (removePre st node id).labelToId = st.labelToId ∧
    (removePre st node id).idToLabel = st.idToLabel ∧
    (removePre st node id).extendedAddFormat = st.extendedAddFormat := by
  obtain ⟨hukeys, hukept, hupar, huroots, huni, hul2i, hui2l, huflag⟩ :=
    removeUnlinkParent_spec st node id
  obtain ⟨hsnodes, hsroots, hsbuckets, hsl2i, hsi2l, hsflag⟩ :=
    removeScrubName_spec
      { removeUnlinkParent st node id with
        roots := (removeUnlinkParent st node id).roots.filter (· ≠ id) } node id
  rw [removePre_eq]
  have hnodes2 : (removeScrubName { removeUnlinkParent st node id with roots := (removeUnlinkParent st node id).roots.filter (· ≠ id) } node id).nodes = (removeUnlinkParent st node id).nodes := hsnodes
  refine ⟨?_, ?_, ?_, ?_, ?_, ?_, ?_, ?_⟩
  · rw [hnodes2]
    exact hukeys
  · intro x hx
    rw [hnodes2]
    exact hukept x hx
  · intro pp hpp
    rw [hnodes2]
    exact hupar pp hpp
  · have hroots2 : (removeScrubName { removeUnlinkParent st node id with roots := (removeUnlinkParent st node id).roots.filter (· ≠ id) } node id).roots = (removeUnlinkParent st node id).roots.filter (· ≠ id) := hsroots
    rw [hroots2, huroots]
  · intro s x
    have hb2 : bucketGet { removeUnlinkParent st node id with roots := (removeUnlinkParent st node id).roots.filter (· ≠ id) } s = bucketGet st s := by
      show (alGet (removeUnlinkParent st node id).nameIndex s).getD [] = bucketGet st s
      rw [huni]
      rfl
    rw [hsbuckets s x, hb2]
  · have h2 : (removeScrubName { removeUnlinkParent st node id with roots := (removeUnlinkParent st node id).roots.filter (· ≠ id) } node id).labelToId = (removeUnlinkParent st node id).labelToId := hsl2i
    rw [h2, hul2i]
  · have h2 : (removeScrubName { removeUnlinkParent st node id with roots := (removeUnlinkParent st node id).roots.filter (· ≠ id) } node id).idToLabel = (removeUnlinkParent st node id).idToLabel := hsi2l
    rw [h2, hui2l]
  · have h2 : (removeScrubName { removeUnlinkParent st node id with roots := (removeUnlinkParent st node id).roots.filter (· ≠ id) } node id).extendedAddFormat = (removeUnlinkParent st node id).extendedAddFormat := hsflag
    rw [h2, huflag]

theorem PrunedFold.nil (st : TreeState) (i : Int) : PrunedFold st st [] i := by
  refine ⟨?_, ?_, ?_, ?_, ?_, rfl, rfl, rfl⟩
  · simp
  · intro x hx
    simp at hx
  · intro x _ _
    rfl
  · simp
  · intro s x
    simp

/-- Appending one pruned subtree to an accumulated family of pruned
subtrees below the same still-present parent. -/
theorem PrunedAt.fold_compose {st₀ st₁ st₂ : TreeState} {fl F : List Int} {r i : Int}
    (h₁ : PrunedAt st₀ st₁ fl r (some i))
    (h₂ : PrunedFold st₁ st₂ F i)
    (hdisj : ∀ x ∈ fl, x ∉ F)
    (hifl : i ∉ fl) (hiF : i ∉ F) :
    PrunedFold st₀ st₂ (fl ++ F) i := by
  refine ⟨?_, ?_, ?_, ?_, ?_, ?_, ?_, ?_⟩
  · rw [h₂.keys, h₁.keys, filter_and]
    apply List.filter_congr
    intro x hx
    by_cases h1 : x ∈ fl <;> by_cases h2 : x ∈ F <;> simp [h1, h2]
  · intro x hx
    rcases List.mem_append.mp hx with hx1 | hx2
    · rw [h₂.kept x (hdisj x hx1) (fun hh => hifl (hh ▸ hx1))]
      exact h₁.gone x hx1
    · exact h₂.gone x hx2
  · intro x hx hxi
    have hx1 : x ∉ fl := fun hh => hx (List.mem_append.mpr (Or.inl hh))
    have hx2 : x ∉ F := fun hh => hx (List.mem_append.mpr (Or.inr hh))
    rw [h₂.kept x hx2 hxi]
    exact h₁.kept x hx1 (fun hh => hxi (Option.some.inj hh).symm)
  · rw [h₂.roots, h₁.roots, filter_and]
    apply List.filter_congr
    intro x hx
    by_cases h1 : x ∈ fl <;> by_cases h2 : x ∈ F <;> simp [h1, h2]
  · intro s x
    have hnk : ∀ y, y ∈ F → nameKey st₁ y = nameKey st₀ y := by
      intro y hy
      exact h₁.nameKey_eq y (fun hh => hdisj y hh hy)
    rw [h₂.buckets s x]
    constructor
    · rintro ⟨hb1, hn2⟩
      have hb0 := (h₁.buckets s x).mp hb1
      refine ⟨hb0.1, ?_⟩
      rintro ⟨hmem, hkey⟩
      rcases List.mem_append.mp hmem with h1 | h1
      · exact hb0.2 ⟨h1, hkey⟩
      · exact hn2 ⟨h1, (hnk x h1).trans hkey⟩
    · rintro ⟨hb0, hn⟩
      have hb1 : x ∈ bucketGet st₁ s :=
        (h₁.buckets s x).mpr
          ⟨hb0, fun hh => hn ⟨List.mem_append.mpr (Or.inl hh.1), hh.2⟩⟩
      refine ⟨hb1, ?_⟩
      rintro ⟨h1, hk1⟩
      exact hn ⟨List.mem_append.mpr (Or.inr h1), (hnk x h1).symm.trans hk1⟩
  · exact h₂.l2i.trans h₁.l2i
  · exact h₂.i2l.trans h₁.i2l
  · exact h₂.flag.trans h₁.flag

theorem Represents.root_some {st : TreeState} {t : STree} (h : Represents st t) :
    ∃ nd, alGet st.nodes t.rootId = some nd := by
  cases h with
  | mk i kids nd hnd hch hkids hbp => exact ⟨nd, hnd⟩

/-- Running the child loop of removeNode over a family of represented,
pairwise-disjoint subtrees whose common parent lies outside them. -/
theorem removeKids_run (n m : Nat)
    (IH : ∀ t : STree, t.height ≤ n → ∀ (st : TreeState) (nd : ComponentNode),
      t.height ≤ m → Represents st t → t.flatten.Nodup →
      alGet st.nodes t.rootId = some nd →
      (∀ pp, nd.parentId = some pp → pp ∉ t.flatten) →
      ∃ st', removeNodeF m st t.rootId = some st' ∧
        PrunedAt st st' t.flatten t.rootId nd.parentId) :
    ∀ (kts : List STree) (st : TreeState) (i : Int),
      (∀ kt ∈ kts, kt.height ≤ n ∧ kt.height ≤ m) →
      (∀ kt ∈ kts, Represents st kt) →
      (∀ kt ∈ kts, ∀ cnd, alGet st.nodes kt.rootId = some cnd → cnd.parentId = some i) →
      (∀ kt ∈ kts, kt.flatten.Nodup) →
      ((kts.map STree.flatten).flatten).Nodup →
      i ∉ (kts.map STree.flatten).flatten →
      ∃ st', List.foldlM (fun s c => removeNodeF m s c) st (kts.map STree.rootId) = some st' ∧
        PrunedFold st st' ((kts.map STree.flatten).flatten) i := by
  intro kts
  induction kts with
  | nil =>
    intro st i _ _ _ _ _ _
    exact ⟨st, rfl, PrunedFold.nil st i⟩
  | cons kt kts ihk =>
    intro st i hh hrep hbp hknodup hnodup hi
    have hU : ((kt :: kts).map STree.flatten).flatten =
        kt.flatten ++ (kts.map STree.flatten).flatten := by
      simp
    rw [hU] at hnodup hi
    rw [List.nodup_append] at hnodup
    obtain ⟨hnd1, hndrest, hdisj⟩ := hnodup
    have hi1 : i ∉ kt.flatten := fun hh2 => hi (List.mem_append.mpr (Or.inl hh2))
    have hi2 : i ∉ (kts.map STree.flatten).flatten :=
      fun hh2 => hi (List.mem_append.mpr (Or.inr hh2))
    have hrepkt := hrep kt (List.mem_cons_self _ _)
    obtain ⟨cnd, hcnd⟩ := hrepkt.root_some
    have hbpar : cnd.parentId = some i := hbp kt (List.mem_cons_self _ _) cnd hcnd
    obtain ⟨st₁, hrun, hP⟩ :=
      IH kt (hh kt (List.mem_cons_self _ _)).1 st cnd (hh kt (List.mem_cons_self _ _)).2
        hrepkt hnd1 hcnd
        (fun pp hpp => by
          rw [hbpar] at hpp
          injection hpp with hpp
          subst hpp
          exact hi1)
    rw [hbpar] at hP
    have hagree : ∀ x ∈ (kts.map STree.flatten).flatten,
        alGet st₁.nodes x = alGet st.nodes x := by
      intro x hx
      exact hP.kept x (fun hh2 => hdisj hh2 hx)
        (fun hh2 => hi2 ((Option.some.inj hh2) ▸ hx))
    obtain ⟨st₂, hrun₂, hF⟩ :=
      ihk st₁ i
        (fun kt2 h2 => hh kt2 (List.mem_cons_of_mem _ h2))
        (fun kt2 h2 => represents_transfer (hrep kt2 (List.mem_cons_of_mem _ h2))
          (fun x hx => hagree x (List.mem_flatten.mpr
            ⟨kt2.flatten, List.mem_map_of_mem _ h2, hx⟩)))
        (fun kt2 h2 cnd2 hcnd2 => by
          apply hbp kt2 (List.mem_cons_of_mem _ h2) cnd2
          rw [← hagree kt2.rootId (List.mem_flatten.mpr
            ⟨kt2.flatten, List.mem_map_of_mem _ h2, rootId_mem_flatten kt2⟩)]
          exact hcnd2)
        (fun kt2 h2 => hknodup kt2 (List.mem_cons_of_mem _ h2))
        hndrest hi2
    refine ⟨st₂, ?_, ?_⟩
    · rw [List.map_cons, List.foldlM_cons, hrun]
      show List.foldlM (fun s c => removeNodeF m s c) st₁ (kts.map STree.rootId) = some st₂
      exact hrun₂
    · rw [hU]
      exact hP.fold_compose hF (fun x hx hx2 => hdisj hx hx2) hi1 hi2

/-- Master removal lemma: on a represented duplicate-free subtree whose
root's parent lies outside it, the fuelled removal succeeds whenever the
fuel is at least the subtree height, and prunes exactly the subtree. -/
theorem removeNodeF_run : ∀ (n : Nat) (t : STree), t.height ≤ n →
    ∀ (st : TreeState) (nd : ComponentNode) (m : Nat), t.height ≤ m →
      Represents st t → t.flatten.Nodup →
      alGet st.nodes t.rootId = some nd →
      (∀ pp, nd.parentId = some pp → pp ∉ t.flatten) →
      ∃ st', removeNodeF m st t.rootId = some st' ∧
        PrunedAt st st' t.flatten t.rootId nd.parentId := by
  intro n
  induction n with
  | zero =>
    intro t hn
    have := height_pos t
    omega
  | succ n ih =>
    intro t hn st nd m hm hrep hnodup hnd hpar
    obtain ⟨i, kids⟩ := t
    simp only [STree.rootId, STree.flatten_mk] at hnd hnodup hpar ⊢
    cases m with
    | zero =>
      have := height_pos (STree.mk i kids)
      omega
    | succ m =>
    cases hrep with
    | mk _ _ nd0 hnd0 hch hkids hbp =>
    rw [hnd0] at hnd
    injection hnd with he
    rw [he] at hnd0 hch
    rw [STree.height_mk] at hn hm
    rw [List.nodup_cons] at hnodup
    obtain ⟨hiU, hUnd⟩ := hnodup
    have hhk : ∀ kt ∈ kids, kt.height ≤ n ∧ kt.height ≤ m := by
      intro kt hkt
      have := le_foldr_max (kids.map STree.height) (List.mem_map_of_mem STree.height hkt)
      omega
    have hknodup : ∀ kt ∈ kids, kt.flatten.Nodup := by
      intro kt hkt
      exact (List.nodup_flatten.mp hUnd).1 kt.flatten (List.mem_map_of_mem _ hkt)
    obtain ⟨hpkeys, hpkept, hppar, hproots, hpbuckets, hpl2i, hpi2l, hpflag⟩ :=
      removePre_spec st nd i
    have hxU : ∀ kt ∈ kids, ∀ x ∈ kt.flatten, x ∈ (kids.map STree.flatten).flatten :=
      fun kt hkt x hx => List.mem_flatten.mpr ⟨kt.flatten, List.mem_map_of_mem _ hkt, hx⟩
    have hagree3 : ∀ x, x ∈ (kids.map STree.flatten).flatten →
        alGet (removePre st nd i).nodes x = alGet st.nodes x := by
      intro x hx
      apply hpkept
      intro hps
      exact hpar x hps (List.mem_cons_of_mem _ hx)
    obtain ⟨stF, hfold, hPF⟩ :=
      removeKids_run n m (fun t ht st2 nd2 => ih t ht st2 nd2 m) kids
        (removePre st nd i) i hhk
        (fun kt hkt => represents_transfer (hkids kt hkt)
          (fun x hx => hagree3 x (hxU kt hkt x hx)))
        (fun kt hkt cnd hcnd => by
          apply hbp kt hkt cnd
          rw [← hagree3 kt.rootId (hxU kt hkt _ (rootId_mem_flatten kt))]
          exact hcnd)
        hknodup hUnd hiU
    refine ⟨{ stF with nodes := alDelete stF.nodes i }, ?_, ?_⟩
    · rw [removeNodeF_succ]
      exact removeNodeBody_found_some (removeNodeF m) st stF i nd hnd0
        (by rw [hch]; exact hfold)
    · have hnk3 : ∀ x, nameKey (removePre st nd i) x = nameKey st x := by
        intro x
        by_cases hxp : nd.parentId = some x
        · simp only [nameKey]
          rw [hppar x hxp]
          cases alGet st.nodes x <;> simp
        · simp only [nameKey]
          rw [hpkept x hxp]
      have hnki : nameKey st i =
          (if nd.displayName = "" then (none : Option String)
            else some (toLowerCase nd.displayName)) := by
        simp only [nameKey]
        rw [hnd0]
        rfl
      refine ⟨?_, ?_, ?_, ?_, ?_, ?_, ?_, ?_, ?_⟩
      · show (alDelete stF.nodes i).map Prod.fst = _
        rw [alDelete_keys, hPF.keys, hpkeys, filter_and]
        apply List.filter_congr
        intro x hx
        by_cases h1 : x ∈ (kids.map STree.flatten).flatten <;> by_cases h2 : x = i <;>
          simp [h1, h2]
      · intro x hx
        rcases List.mem_cons.mp hx with rfl | hx2
        · exact alGet_alDelete_self _ _
        · rw [alGet_alDelete_ne _ _ _ (fun he => hiU (by rw [← he]; exact hx2))]
          exact hPF.gone x hx2
      · intro x hx hps
        have hxi : x ≠ i := fun he => hx (by rw [he]; exact List.mem_cons_self _ _)
        have hxU2 : x ∉ (kids.map STree.flatten).flatten :=
          fun he => hx (List.mem_cons_of_mem _ he)
        rw [alGet_alDelete_ne _ _ _ hxi, hPF.kept x hxU2 hxi]
        exact hpkept x hps
      · intro pp hpp
        have hppmem := hpar pp hpp
        have hppi : pp ≠ i := fun he => hppmem (by rw [he]; exact List.mem_cons_self _ _)
        have hppU : pp ∉ (kids.map STree.flatten).flatten :=
          fun he => hppmem (List.mem_cons_of_mem _ he)
        rw [alGet_alDelete_ne _ _ _ hppi, hPF.kept pp hppU hppi]
        exact hppar pp hpp
      · show stF.roots = _
        rw [hPF.roots, hproots, filter_and]
        apply List.filter_congr
        intro x hx
        by_cases h1 : x ∈ (kids.map STree.flatten).flatten <;> by_cases h2 : x = i <;>
          simp [h1, h2]
      · intro s x
        show x ∈ bucketGet stF s ↔ _
        rw [hPF.buckets s x, hpbuckets s x, hnk3 x, ← hnki]
        constructor
        · rintro ⟨⟨hb, hn1⟩, hn2⟩
          refine ⟨hb, ?_⟩
          rintro ⟨hmem, hkey⟩
          rcases List.mem_cons.mp hmem with rfl | h2
          · exact hn1 ⟨rfl, hkey⟩
          · exact hn2 ⟨h2, hkey⟩
        · rintro ⟨hb, hn⟩
          refine ⟨⟨hb, ?_⟩, ?_⟩
          · rintro ⟨rfl, hkey⟩
            exact hn ⟨List.mem_cons_self _ _, hkey⟩
          · rintro ⟨h2, hkey⟩
            exact hn ⟨List.mem_cons_of_mem _ h2, hkey⟩
      · exact hPF.l2i.trans hpl2i
      · exact hPF.i2l.trans hpi2l
      · exact hPF.flag.trans hpflag

/-- Full run of removeNode on a live id of a well-formed state: the removal
terminates and prunes the descendant set, which is duplicate-free and drawn
from the stored keys. -/
theorem removeNode_wf_run {st : TreeState} (wf : WellFormed st) {id : Int}
    {nd : ComponentNode} (hnd : alGet st.nodes id = some nd) :
    ∃ (st' : TreeState) (R : List Int), removeNode st id = some st' ∧
      (∀ x, x ∈ R ↔ Desc st id x) ∧
      R.Nodup ∧
      (∀ x ∈ R, x ∈ st.nodes.map Prod.fst) ∧
      PrunedAt st st' R id nd.parentId := by
  obtain ⟨dep, hdep⟩ := wf.acyclic
  obtain ⟨t, hrt, hrep, hiff, hnds⟩ := exists_subtree wf hnd
  have hpar : ∀ pp, nd.parentId = some pp → pp ∉ t.flatten := by
    intro pp hpp hmem
    have hdesc := (hiff pp).mp hmem
    have hlt := hdep _ (alGet_mem hnd) pp hpp
    simp only at hlt
    have hle := desc_dep_le wf dep hdep hdesc
    omega
  have hsub : ∀ x ∈ t.flatten, x ∈ st.nodes.map Prod.fst := by
    intro x hx
    have hdx := (hiff x).mp hx
    have hsome := wf.desc_present hdx (by rw [hnd]; rfl)
    exact (alGet_isSome_iff _ _).mp hsome
  have hlen : t.flatten.length ≤ st.nodes.length := by
    have h1 := List.Subperm.length_le (List.subperm_of_subset hnds hsub)
    simpa using h1
  have hfuel : t.height ≤ st.nodes.length + 1 := by
    have h1 := height_le_flatten (sizeOf t) t le_rfl
    omega
  obtain ⟨st', hrun, hP⟩ :=
    removeNodeF_run t.height t le_rfl st nd (st.nodes.length + 1) hfuel hrep hnds
      (by rw [hrt]; exact hnd) hpar
  rw [hrt] at hrun hP
  exact ⟨st', t.flatten, hrun, hiff, hnds, hsub, hP⟩

/-- C3: on a well-formed forest state, a REMOVE of a present id deletes the
node and exactly its descendants from the map, scrubs each removed node
from the lower-cased name index, drops the count by the subtree size, and
touches no node outside the subtree. -/
theorem c3_amended {st : TreeState} (wf : WellFormed st) {id : Int} {nd : ComponentNode}
    (hnd : alGet st.nodes id = some nd) :
    ∃ (st' : TreeState) (R : List Int), removeNode st id = some st' ∧
      (∀ x, x ∈ R ↔ Desc st id x) ∧
      R.Nodup ∧
      (∀ x ∈ R, getNode st' x = none) ∧
      (∀ x, ¬ Desc st id x → (getNode st' x).isSome = (getNode st x).isSome) ∧
      getComponentCount st' + R.length = getComponentCount st ∧
      (∀ s x, x ∈ bucketGet st' s ↔
        x ∈ bucketGet st s ∧ ¬(Desc st id x ∧ nameKey st x = some s)) := by
  obtain ⟨st', R, hrun, hiff, hnds, hsub, hP⟩ := removeNode_wf_run wf hnd
  refine ⟨st', R, hrun, hiff, hnds, ?_, ?_, ?_, ?_⟩
  · intro x hx
    simp only [getNode]
    exact hP.gone x hx
  · intro x hnd2
    have hxR : x ∉ R := fun hh => hnd2 ((hiff x).mp hh)
    simp only [getNode]
    by_cases hps : nd.parentId = some x
    · rw [hP.par x hps]
      cases alGet st.nodes x <;> rfl
    · rw [hP.kept x hxR hps]
  · have h2 := length_filter_notmem R (st.nodes.map Prod.fst)
      wf.keysNodup hnds hsub
    rw [← hP.keys] at h2
    simp only [getComponentCount]
    simpa using h2
  · intro s x
    rw [hP.buckets s x]
    constructor
    · rintro ⟨hb, hn⟩
      exact ⟨hb, fun hh => hn ⟨(hiff x).mpr hh.1, hh.2⟩⟩
    · rintro ⟨hb, hn⟩
      exact ⟨hb, fun hh => hn ⟨(hiff x).mp hh.1, hh.2⟩⟩

/-- Two-node well-formed forest used to instantiate the C3 theorem. -/
def c3Node1 : ComponentNode := ⟨1, "App", .fn, none, none, [2], 1⟩

def c3Node2 : ComponentNode := ⟨2, "Box", .fn, none, some 1, [], 1⟩

def c3State : TreeState :=
  ⟨[(1, c3Node1), (2, c3Node2)], [1], [("app", [1]), ("box", [2])], [], [], false⟩

theorem c3State_wf : WellFormed c3State := by
  refine ⟨?_, ?_, ?_, ?_, ?_, ?_, ?_, ?_, ?_⟩
  · decide
  · decide
  · intro p hp c hc
    fin_cases hp
    · fin_cases hc
      exact ⟨c3Node2, rfl, rfl⟩
    · simp [c3Node2] at hc
  · intro p hp pid hpid
    fin_cases hp
    · simp [c3Node1] at hpid
    · simp only [c3Node2] at hpid
      injection hpid with h
      subst h
      exact ⟨(1, c3Node1), by decide, rfl, by decide⟩
  · decide
  · decide
  · intro r hr
    fin_cases hr
    exact ⟨c3Node1, rfl, rfl⟩
  · intro p hp hnone
    fin_cases hp
    · decide
    · simp [c3Node2] at hnone
  · refine ⟨fun x => x.toNat, ?_⟩
    intro p hp pid hpid
    fin_cases hp
    · simp [c3Node1] at hpid
    · simp only [c3Node2] at hpid
      injection hpid with h
      subst h
      decide

/-- Concrete instantiation of the C3 theorem at a two-node forest. -/
theorem c3_amended_witness :
    ∃ (st' : TreeState) (R : List Int), removeNode c3State 1 = some st' ∧
      (∀ x, x ∈ R ↔ Desc c3State 1 x) ∧
      R.Nodup ∧
      (∀ x ∈ R, getNode st' x = none) ∧
      (∀ x, ¬ Desc c3State 1 x → (getNode st' x).isSome = (getNode c3State x).isSome) ∧
      getComponentCount st' + R.length = getComponentCount c3State ∧
      (∀ s x, x ∈ bucketGet st' s ↔
        x ∈ bucketGet c3State s ∧ ¬(Desc c3State 1 x ∧ nameKey c3State x = some s)) :=
  c3_amended c3State_wf rfl

theorem walkF_succ (st : TreeState) (md : Option Nat) (m : Nat) (id : Int) (depth : Nat)
    (acc : WalkAcc) :
    walkF st md (m + 1) id depth acc = walkBody st md (walkF st md m) id depth acc := rfl

theorem walkBody_missing (st : TreeState) (md : Option Nat)
    (rec : Int → Nat → WalkAcc → Option WalkAcc) (id : Int) (depth : Nat) (acc : WalkAcc)
    (h : alGet st.nodes id = none) : walkBody st md rec id depth acc = some acc := by
  unfold walkBody
  simp only [h]

theorem walkBody_found_nodepth (st : TreeState)
    (rec : Int → Nat → WalkAcc → Option WalkAcc) (id : Int) (depth : Nat) (acc : WalkAcc)
    (node : ComponentNode) (h : alGet st.nodes id = some node) :
    walkBody st none rec id depth acc =
      node.children.foldlM (fun a c => rec c (depth + 1) a) (walkPush node depth acc) := by
  unfold walkBody
  simp only [h]
  rfl

theorem walkPush_result (node : ComponentNode) (depth : Nat) (acc : WalkAcc) :
    (walkPush node depth acc).result = acc.result ++
      [⟨node.id, "@c" ++ toString acc.counter, node.displayName, node.type, node.key,
        node.parentId, node.children, depth⟩] := rfl

theorem walkPush_counter (node : ComponentNode) (depth : Nat) (acc : WalkAcc) :
    (walkPush node depth acc).counter = acc.counter + 1 := rfl

theorem walkPush_idToLabel (node : ComponentNode) (depth : Nat) (acc : WalkAcc) :
    (walkPush node depth acc).idToLabel =
      alSet acc.idToLabel node.id ("@c" ++ toString acc.counter) := rfl

theorem map_congr_fun {α β : Type} (l : List α) (f g : α → β)
    (h : ∀ a ∈ l, f a = g a) : l.map f = l.map g := by
  induction l with
  | nil => rfl
  | cons a rest ih =>
    simp only [List.map_cons]
    rw [h a (List.mem_cons_self _ _), ih (fun a2 ha2 => h a2 (List.mem_cons_of_mem _ ha2))]

/-- The getTree walk over a family of represented subtrees: emissions are the
concatenated pre-orders, labels advance sequentially from the entry counter,
and only emitted ids gain idToLabel entries. -/
theorem walkKids_run (st : TreeState) (n m : Nat)
    (IH : ∀ t : STree, t.height ≤ n → ∀ (depth : Nat) (acc : WalkAcc), t.height ≤ m →
      Represents st t →
      ∃ (acc' : WalkAcc) (L : List TreeNode),
        walkF st none m t.rootId depth acc = some acc' ∧
        acc'.result = acc.result ++ L ∧
        L.map TreeNode.id = t.flatten ∧
        L.map TreeNode.label =
          (List.range L.length).map (fun j => "@c" ++ toString (acc.counter + j)) ∧
        acc'.counter = acc.counter + L.length ∧
        (∀ x, x ∉ t.flatten → alGet acc'.idToLabel x = alGet acc.idToLabel x)) :
    ∀ (kts : List STree) (depth : Nat) (acc : WalkAcc),
      (∀ kt ∈ kts, kt.height ≤ n ∧ kt.height ≤ m) →
      (∀ kt ∈ kts, Represents st kt) →
      ∃ (acc' : WalkAcc) (L : List TreeNode),
        List.foldlM (fun a c => walkF st none m c depth a) acc (kts.map STree.rootId) =
          some acc' ∧
        acc'.result = acc.result ++ L ∧
        L.map TreeNode.id = (kts.map STree.flatten).flatten ∧
        L.map TreeNode.label =
          (List.range L.length).map (fun j => "@c" ++ toString (acc.counter + j)) ∧
        acc'.counter = acc.counter + L.length ∧
        (∀ x, x ∉ (kts.map STree.flatten).flatten →
          alGet acc'.idToLabel x = alGet acc.idToLabel x) := by
  intro kts
  induction kts with
  | nil =>
    intro depth acc _ _
    refine ⟨acc, [], rfl, by simp, by simp, by simp, by simp, fun x _ => rfl⟩
  | cons kt kts ihk =>
    intro depth acc hh hrep
    obtain ⟨acc₁, L₁, hw₁, hres₁, hids₁, hlab₁, hcnt₁, hkeep₁⟩ :=
      IH kt (hh kt (List.mem_cons_self _ _)).1 depth acc (hh kt (List.mem_cons_self _ _)).2
        (hrep kt (List.mem_cons_self _ _))
    obtain ⟨acc₂, L₂, hw₂, hres₂, hids₂, hlab₂, hcnt₂, hkeep₂⟩ :=
      ihk depth acc₁ (fun kt2 h2 => hh kt2 (List.mem_cons_of_mem _ h2))
        (fun kt2 h2 => hrep kt2 (List.mem_cons_of_mem _ h2))
    refine ⟨acc₂, L₁ ++ L₂, ?_, ?_, ?_, ?_, ?_, ?_⟩
    · rw [List.map_cons, List.foldlM_cons, hw₁]
      show List.foldlM (fun a c => walkF st none m c depth a) acc₁ (kts.map STree.rootId) =
        some acc₂
      exact hw₂
    · rw [hres₂, hres₁, List.append_assoc]
    · simp only [List.map_append, List.map_cons, List.flatten_cons]
      rw [hids₁, hids₂]
    · rw [List.map_append, hlab₁, hlab₂, List.length_append, List.range_add,
        List.map_append, List.map_map]
      congr 1
      apply map_congr_fun
      intro a _
      simp only [Function.comp_apply]
      rw [hcnt₁]
      have harr : acc.counter + L₁.length + a = acc.counter + (L₁.length + a) := by omega
      rw [harr]
    · rw [List.length_append]
      omega
    · intro x hx
      simp only [List.map_cons, List.flatten_cons, List.mem_append] at hx
      push_neg at hx
      rw [hkeep₂ x hx.2]
      exact hkeep₁ x hx.1

/-- Master walk lemma: on a represented subtree of a state whose stored ids
match their keys, the unbounded-depth walk succeeds given fuel at least the
height and emits exactly the pre-order of the subtree with sequential
labels. -/
theorem walkF_run : ∀ (n : Nat) (t : STree), t.height ≤ n →
    ∀ (st : TreeState), (∀ p ∈ st.nodes, p.2.id = p.1) →
    ∀ (m depth : Nat) (acc : WalkAcc), t.height ≤ m →
      Represents st t →
      ∃ (acc' : WalkAcc) (L : List TreeNode),
        walkF st none m t.rootId depth acc = some acc' ∧
        acc'.result = acc.result ++ L ∧
        L.map TreeNode.id = t.flatten ∧
        L.map TreeNode.label =
          (List.range L.length).map (fun j => "@c" ++ toString (acc.counter + j)) ∧
        acc'.counter = acc.counter + L.length ∧
        (∀ x, x ∉ t.flatten → alGet acc'.idToLabel x = alGet acc.idToLabel x) := by
  intro n
  induction n with
  | zero =>
    intro t hn
    have := height_pos t
    omega
  | succ n ih =>
    intro t hn st hid m depth acc hm hrep
    obtain ⟨i, kids⟩ := t
    simp only [STree.rootId, STree.flatten_mk]
    cases m with
    | zero =>
      have := height_pos (STree.mk i kids)
      omega
    | succ m =>
    cases hrep with
    | mk _ _ nd0 hnd0 hch hkids hbp =>
    have hndid : nd0.id = i := by
      have := hid _ (alGet_mem hnd0)
      simpa using this
    rw [STree.height_mk] at hn hm
    have hhk : ∀ kt ∈ kids, kt.height ≤ n ∧ kt.height ≤ m := by
      intro kt hkt
      have := le_foldr_max (kids.map STree.height) (List.mem_map_of_mem STree.height hkt)
      omega
    obtain ⟨acc', L', hw, hres, hids, hlab, hcnt, hkeep⟩ :=
      walkKids_run st n m (fun t2 ht2 => ih t2 ht2 st hid m) kids (depth + 1)
        (walkPush nd0 depth acc) hhk hkids
    refine ⟨acc',
      ⟨nd0.id, "@c" ++ toString acc.counter, nd0.displayName, nd0.type, nd0.key,
        nd0.parentId, nd0.children, depth⟩ :: L', ?_, ?_, ?_, ?_, ?_, ?_⟩
    · rw [walkF_succ, walkBody_found_nodepth st (walkF st none m) i depth acc nd0 hnd0, hch]
      exact hw
    · rw [hres, walkPush_result, List.append_assoc]
      rfl
    · simp only [List.map_cons]
      rw [hids, hndid]
    · simp only [List.map_cons, List.length_cons]
      rw [hlab, List.range_succ_eq_map, List.map_cons, List.map_map, walkPush_counter]
      congr 1
      apply map_congr_fun
      intro a _
      simp only [Function.comp_apply]
      congr 2
      omega
    · rw [hcnt, walkPush_counter]
      simp only [List.length_cons]
      omega
    · intro x hx
      rw [List.mem_cons] at hx
      push_neg at hx
      rw [hkeep x hx.2, walkPush_idToLabel]
      rw [alGet_alSet_ne _ _ _ _ (by rw [hndid]; exact fun hh => hx.1 hh.symm)]

/-- Subtree certificates for a list of live roots. -/
theorem exists_forest {st : TreeState} (wf : WellFormed st) :
    ∀ rs : List Int, (∀ r ∈ rs, ∃ nd, alGet st.nodes r = some nd) →
      ∃ RT : List STree, RT.map STree.rootId = rs ∧
        (∀ t ∈ RT, Represents st t ∧ (∀ x, x ∈ t.flatten ↔ Desc st t.rootId x) ∧
          t.flatten.Nodup) := by
  intro rs
  induction rs with
  | nil => exact fun _ => ⟨[], rfl, by simp⟩
  | cons r rest ih =>
    intro hmem
    obtain ⟨RT, hmap, hprops⟩ := ih (fun x hx => hmem x (List.mem_cons_of_mem _ hx))
    obtain ⟨nd, hnd⟩ := hmem r (List.mem_cons_self _ _)
    obtain ⟨t, hrt, hrep, hiff, hnds⟩ := exists_subtree wf hnd
    refine ⟨t :: RT, by simp [hrt, hmap], ?_⟩
    intro t2 ht2
    rcases List.mem_cons.mp ht2 with rfl | h2
    · exact ⟨hrep, by rw [hrt]; exact hiff, hnds⟩
    · exact hprops t2 h2

/-- Full run of getTree with no depth limit on a well-formed state: the
roots fold succeeds, the emission covers exactly the live nodes without
duplicates, labels are sequential from 1, and ids absent from the map gain
no idToLabel entry. -/
theorem getTree_wf_run {st : TreeState} (wf : WellFormed st) :
    ∃ accF : WalkAcc,
      List.foldlM (fun acc r => walkF st none (st.nodes.length + 1) r 0 acc)
        (⟨[], 1, [], []⟩ : WalkAcc) st.roots = some accF ∧
      getTree st none =
        some ({ st with labelToId := accF.labelToId, idToLabel := accF.idToLabel },
          accF.result) ∧
      (accF.result.map TreeNode.id).Nodup ∧
      (∀ x, x ∈ accF.result.map TreeNode.id ↔ (alGet st.nodes x).isSome = true) ∧
      accF.result.length = getComponentCount st ∧
      accF.result.map TreeNode.label =
        (List.range accF.result.length).map (fun j => "@c" ++ toString (j + 1)) ∧
      (∀ x, (alGet st.nodes x).isSome = false → alGet accF.idToLabel x = none) := by
  obtain ⟨dep, hdep⟩ := wf.acyclic
  obtain ⟨RT, hmap, hprops⟩ :=
    exists_forest wf st.roots (fun r hr => (wf.rootsMem r hr).imp (fun nd h => h.1))
  have hfuel : ∀ t ∈ RT, t.height ≤ st.nodes.length + 1 := by
    intro t ht
    obtain ⟨hrep, hiff, hnds⟩ := hprops t ht
    obtain ⟨nd, hnd⟩ := hrep.root_some
    have hsub : ∀ x ∈ t.flatten, x ∈ st.nodes.map Prod.fst := by
      intro x hx
      exact (alGet_isSome_iff _ _).mp
        (wf.desc_present ((hiff x).mp hx) (by rw [hnd]; rfl))
    have hlen := List.Subperm.length_le (List.subperm_of_subset hnds hsub)
    have hh := height_le_flatten (sizeOf t) t le_rfl
    simp only [List.length_map] at hlen
    omega
  obtain ⟨accF, L, hw, hres, hids, hlab, hcnt, hkeep⟩ :=
    walkKids_run st (st.nodes.length + 1) (st.nodes.length + 1)
      (fun t2 ht2 depth acc hm2 hrep2 =>
        walkF_run (st.nodes.length + 1) t2 ht2 st wf.idMatch (st.nodes.length + 1)
          depth acc hm2 hrep2)
      RT 0 ⟨[], 1, [], []⟩ (fun t2 ht2 => ⟨hfuel t2 ht2, hfuel t2 ht2⟩)
      (fun t2 ht2 => (hprops t2 ht2).1)
  have hinitres : (⟨[], 1, [], []⟩ : WalkAcc).result = [] := rfl
  have hinitcnt : (⟨[], 1, [], []⟩ : WalkAcc).counter = 1 := rfl
  rw [hinitres, List.nil_append] at hres
  rw [hinitcnt] at hlab hcnt
  rw [hmap] at hw
  have hUnodup : ((RT.map STree.flatten).flatten).Nodup := by
    rw [List.nodup_flatten]
    constructor
    · intro fl hfl
      obtain ⟨t, ht, rfl⟩ := List.mem_map.mp hfl
      exact (hprops t ht).2.2
    · have hrnd : (RT.map STree.rootId).Nodup := by rw [hmap]; exact wf.rootsNodup
      have hpw : RT.Pairwise (fun t₁ t₂ => t₁.rootId ≠ t₂.rootId) :=
        List.pairwise_map.mp hrnd
      rw [List.pairwise_map]
      refine hpw.imp_of_mem ?_
      intro t₁ t₂ h₁ h₂ hne x hx₁ hx₂
      have hr₁ : t₁.rootId ∈ st.roots := by
        rw [← hmap]
        exact List.mem_map_of_mem _ h₁
      have hr₂ : t₂.rootId ∈ st.roots := by
        rw [← hmap]
        exact List.mem_map_of_mem _ h₂
      exact hne (desc_unique_root wf dep hdep hr₁ hr₂
        (((hprops t₁ h₁).2.1 x).mp hx₁) (((hprops t₂ h₂).2.1 x).mp hx₂))
  have hUiff : ∀ x, x ∈ (RT.map STree.flatten).flatten ↔
      (alGet st.nodes x).isSome = true := by
    intro x
    constructor
    · intro hx
      obtain ⟨fl, hfl, hxfl⟩ := List.mem_flatten.mp hx
      obtain ⟨t, ht, rfl⟩ := List.mem_map.mp hfl
      obtain ⟨hrep, hiff, _⟩ := hprops t ht
      obtain ⟨nd, hnd⟩ := hrep.root_some
      exact wf.desc_present ((hiff x).mp hxfl) (by rw [hnd]; rfl)
    · intro hx
      obtain ⟨nd, hnd⟩ := Option.isSome_iff_exists.mp hx
      obtain ⟨r, hr, hdr⟩ := desc_coverage wf dep hdep (dep x) (x, nd) (alGet_mem hnd) le_rfl
      have hrRT : r ∈ RT.map STree.rootId := by
        rw [hmap]
        exact hr
      obtain ⟨t, ht, rfl⟩ := List.mem_map.mp hrRT
      exact List.mem_flatten.mpr
        ⟨t.flatten, List.mem_map_of_mem _ ht, ((hprops t ht).2.1 x).mpr hdr⟩
  refine ⟨accF, hw, ?_, ?_, ?_, ?_, ?_, ?_⟩
  · unfold getTree
    simp only [hw]
  · rw [hres, hids]
    exact hUnodup
  · intro x
    rw [hres, hids]
    exact hUiff x
  · rw [hres]
    have h1 : L.length = (RT.map STree.flatten).flatten.length := by
      rw [← hids, List.length_map]
    have hsub1 : ∀ x ∈ (RT.map STree.flatten).flatten, x ∈ st.nodes.map Prod.fst :=
      fun x hx => (alGet_isSome_iff _ _).mp ((hUiff x).mp hx)
    have hsub2 : ∀ x ∈ st.nodes.map Prod.fst, x ∈ (RT.map STree.flatten).flatten :=
      fun x hx => (hUiff x).mpr ((alGet_isSome_iff _ _).mpr hx)
    have h2 := List.Subperm.length_le (List.subperm_of_subset hUnodup hsub1)
    have h3 := List.Subperm.length_le (List.subperm_of_subset wf.keysNodup hsub2)
    simp only [List.length_map] at h2 h3
    simp only [getComponentCount]
    omega
  · rw [hres, hlab]
    apply map_congr_fun
    intro a _
    congr 2
    omega
  · intro x hx
    have hxU : x ∉ (RT.map STree.flatten).flatten := by
      intro hx2
      rw [(hUiff x).mp hx2] at hx
      cases hx
    exact (hkeep x hxU).trans rfl

/-- C2: on a well-formed forest state, getTree with no depth limit succeeds,
emits each live node exactly once with the label at position j built from
the counter value j+1, the emission count is the node count, and each live
node lies below exactly one root. -/
theorem c2_amended {st : TreeState} (wf : WellFormed st) :
    ∃ (stout : TreeState) (L : List TreeNode),
      getTree st none = some (stout, L) ∧
      (L.map TreeNode.id).Nodup ∧
      (∀ x, x ∈ L.map TreeNode.id ↔ (alGet st.nodes x).isSome = true) ∧
      L.length = getComponentCount st ∧
      L.map TreeNode.label =
        (List.range L.length).map (fun j => "@c" ++ toString (j + 1)) ∧
      (∀ x, (alGet st.nodes x).isSome = true →
        ∃! r, r ∈ st.roots ∧ Desc st r x) := by
  obtain ⟨accF, hw, hgt, hnodup, hiff, hlen, hlab, hkeep⟩ := getTree_wf_run wf
  refine ⟨_, accF.result, hgt, hnodup, hiff, hlen, hlab, ?_⟩
  obtain ⟨dep, hdep⟩ := wf.acyclic
  intro x hx
  obtain ⟨nd, hnd⟩ := Option.isSome_iff_exists.mp hx
  obtain ⟨r, hr, hdr⟩ := desc_coverage wf dep hdep (dep x) (x, nd) (alGet_mem hnd) le_rfl
  refine ⟨r, ⟨hr, hdr⟩, ?_⟩
  rintro r2 ⟨hr2, hdr2⟩
  exact desc_unique_root wf dep hdep hr2 hr hdr2 hdr

/-- Concrete instantiation of the C2 theorem at a two-node forest. -/
theorem c2_amended_witness :
    ∃ (stout : TreeState) (L : List TreeNode),
      getTree c3State none = some (stout, L) ∧
      (L.map TreeNode.id).Nodup ∧
      (∀ x, x ∈ L.map TreeNode.id ↔ (alGet c3State.nodes x).isSome = true) ∧
      L.length = getComponentCount c3State ∧
      L.map TreeNode.label =
        (List.range L.length).map (fun j => "@c" ++ toString (j + 1)) ∧
      (∀ x, (alGet c3State.nodes x).isSome = true →
        ∃! r, r ∈ c3State.roots ∧ Desc c3State r x) :=
  c2_amended c3State_wf

/-- One opcode-loop step decoding an ADD of the 7-field shape whose parent
id is nonzero and absent: the node is inserted with the fallback name, no
parent's children list gains the id, the roots are untouched, and the name
index gains the id under the lowercased fallback. -/
theorem opsLoop_add_orphan (ops : List Int) (rid : Int) (tbl : List (Option String))
    (fuel : Nat) (st : TreeState) (i : Int) (added : List (Int × String))
    (id et pid : Int)
    (hlt : i < (ops.length : Int))
    (hop : getOp ops i = some 1)
    (h1 : getOp ops (i + 1) = some id)
    (h2 : getOp ops (i + 2) = some et)
    (h3 : getOp ops (i + 3) = some pid)
    (h5 : getOp ops (i + 5) = some 0)
    (h6 : getOp ops (i + 6) = some 0)
    (het : ¬ et = 11)
    (hpid0 : ¬ pid = 0)
    (hpidid : ¬ pid = id)
    (hpid : alGet st.nodes pid = none)
    (hflag : st.extendedAddFormat = false) :
    opsLoop ops rid tbl (fuel + 1) st i added =
      opsLoop ops rid tbl fuel
        { st with
            nodes := alSet st.nodes id
              ⟨id, (if et = 7 then "HostComponent" else "Anonymous"), toComponentType et,
                none, some pid, [], rid⟩,
            nameIndex := alSet st.nameIndex
              (toLowerCase (if et = 7 then "HostComponent" else "Anonymous"))
              (setAdd ((alGet st.nameIndex
                  (toLowerCase (if et = 7 then "HostComponent" else "Anonymous"))).getD [])
                id) }
        (i + 3 + 4 + 0)
        (added ++ [(id, (if et = 7 then "HostComponent" else "Anonymous"))]) := by
  rw [opsLoop, if_pos hlt]
  simp only [hop, h1, h2, h3, h5, h6]
  rw [if_pos trivial, if_neg het]
  have h00 : ¬ (0 : Int) > 0 := by decide
  rw [if_neg h00, if_neg h00]
  simp only [if_neg hpid0]
  rw [alGet_alSet_ne _ _ _ _ (fun hh => hpidid hh.symm), hpid]
  have hfb : ¬ (if et = 7 then "HostComponent" else "Anonymous") = "" := by
    split <;> decide
  rw [if_pos (by simpa using hfb)]
  simp only [bucketGet, hflag]
  rfl

/-- The walk ignores a node that is absent in the base state, unreferenced
by any children list, and not the walked root: states agreeing elsewhere
walk identically, with any larger fuel. -/
theorem walkF_agree : ∀ (m₁ : Nat) (st₁ st₂ : TreeState) (bad : Int),
    (∀ x, x ≠ bad → alGet st₂.nodes x = alGet st₁.nodes x) →
    (∀ p ∈ st₁.nodes, bad ∉ p.2.children) →
    ∀ (m₂ : Nat), m₁ ≤ m₂ →
    ∀ (r : Int) (depth : Nat) (acc : WalkAcc) (out : WalkAcc), r ≠ bad →
      walkF st₁ none m₁ r depth acc = some out →
      walkF st₂ none m₂ r depth acc = some out := by
  intro m₁
  induction m₁ with
  | zero =>
    intro st₁ st₂ bad hagree hch m₂ hm r depth acc out hr h
    exact Option.noConfusion h
  | succ m₁ ih =>
    intro st₁ st₂ bad hagree hch m₂ hm r depth acc out hr h
    cases m₂ with
    | zero => omega
    | succ m₂ =>
    rw [walkF_succ] at h
    rw [walkF_succ]
    cases hget : alGet st₁.nodes r with
    | none =>
      rw [walkBody_missing _ _ _ _ _ _ hget] at h
      rw [walkBody_missing _ _ _ _ _ _ ((hagree r hr).trans hget)]
      exact h
    | some node =>
      rw [walkBody_found_nodepth _ _ _ _ _ _ hget] at h
      rw [walkBody_found_nodepth _ _ _ _ _ _ ((hagree r hr).trans hget)]
      have hcs : ∀ c ∈ node.children, c ≠ bad := by
        intro c hc he
        exact hch _ (alGet_mem hget) (he ▸ hc)
      have hfold : ∀ (cs : List Int), (∀ c ∈ cs, c ≠ bad) → ∀ (a0 o : WalkAcc),
          List.foldlM (fun a c => walkF st₁ none m₁ c (depth + 1) a) a0 cs = some o →
          List.foldlM (fun a c => walkF st₂ none m₂ c (depth + 1) a) a0 cs = some o := by
        intro cs hcs2
        induction cs with
        | nil =>
          intro a0 o h0
          exact h0
        | cons c rest ihc =>
          intro a0 o h0
          rw [List.foldlM_cons] at h0 ⊢
          cases hw1 : walkF st₁ none m₁ c (depth + 1) a0 with
          | none =>
            rw [hw1] at h0
            exact absurd h0 (by simp)
          | some a1 =>
            rw [hw1] at h0
            have h0' : List.foldlM (fun a c => walkF st₁ none m₁ c (depth + 1) a) a1 rest =
                some o := h0
            rw [ih st₁ st₂ bad hagree hch m₂ (by omega) c (depth + 1) a0 a1
              (hcs2 c (List.mem_cons_self _ _)) hw1]
            exact ihc (fun c2 hc2 => hcs2 c2 (List.mem_cons_of_mem _ hc2)) a1 o h0'
      exact hfold node.children hcs _ out h

/-- getTree ignores such a node entirely: applied to the second state it
returns the same emission and label maps. -/
theorem getTree_agree (st₁ st₂ : TreeState) (bad : Int)
    (hroots : st₂.roots = st₁.roots)
    (hagree : ∀ x, x ≠ bad → alGet st₂.nodes x = alGet st₁.nodes x)
    (hch : ∀ p ∈ st₁.nodes, bad ∉ p.2.children)
    (hmono : st₁.nodes.length ≤ st₂.nodes.length)
    (hbadroot : ∀ r ∈ st₁.roots, r ≠ bad)
    (accF : WalkAcc)
    (h : List.foldlM (fun acc r => walkF st₁ none (st₁.nodes.length + 1) r 0 acc)
      (⟨[], 1, [], []⟩ : WalkAcc) st₁.roots = some accF) :
    getTree st₂ none =
      some ({ st₂ with labelToId := accF.labelToId, idToLabel := accF.idToLabel },
        accF.result) := by
  have hfold : ∀ (rs : List Int), (∀ r ∈ rs, r ≠ bad) → ∀ (a0 o : WalkAcc),
      List.foldlM (fun acc r => walkF st₁ none (st₁.nodes.length + 1) r 0 acc) a0 rs =
        some o →
      List.foldlM (fun acc r => walkF st₂ none (st₂.nodes.length + 1) r 0 acc) a0 rs =
        some o := by
    intro rs hrs
    induction rs with
    | nil =>
      intro a0 o h0
      exact h0
    | cons r rest ihr =>
      intro a0 o h0
      rw [List.foldlM_cons] at h0 ⊢
      cases hw1 : walkF st₁ none (st₁.nodes.length + 1) r 0 a0 with
      | none =>
        rw [hw1] at h0
        exact absurd h0 (by simp)
      | some a1 =>
        rw [hw1] at h0
        have h0' : List.foldlM (fun acc r => walkF st₁ none (st₁.nodes.length + 1) r 0 acc)
            a1 rest = some o := h0
        rw [walkF_agree (st₁.nodes.length + 1) st₁ st₂ bad hagree hch
          (st₂.nodes.length + 1) (by omega) r 0 a0 a1 (hrs r (List.mem_cons_self _ _)) hw1]
        exact ihr (fun r2 hr2 => hrs r2 (List.mem_cons_of_mem _ hr2)) a1 o h0'
  unfold getTree
  rw [hroots]
  simp only [hfold st₁.roots hbadroot _ _ h]

/-- Decoding a single-ADD batch of the 7-field shape whose parent id is
nonzero, distinct from the new id and absent from the tree: the batch
returns normally having inserted the node with the fallback display name
and its name-index entry, and nothing else. -/
theorem applyOperations_orphan (st : TreeState) (rid rfid id et pid : Int)
    (het : ¬ et = 11) (hpid0 : ¬ pid = 0) (hpidid : ¬ pid = id)
    (hpid : alGet st.nodes pid = none)
    (hflag : st.extendedAddFormat = false) :
    applyOperations st [rid, rfid, 0, 1, id, et, pid, 0, 0, 0] =
      .ok ({ st with
          nodes := alSet st.nodes id
            ⟨id, (if et = 7 then "HostComponent" else "Anonymous"), toComponentType et,
              none, some pid, [], rid⟩,
          nameIndex := alSet st.nameIndex
            (toLowerCase (if et = 7 then "HostComponent" else "Anonymous"))
            (setAdd ((alGet st.nameIndex
                (toLowerCase (if et = 7 then "HostComponent" else "Anonymous"))).getD [])
              id) },
        [(id, (if et = 7 then "HostComponent" else "Anonymous"))]) := by
  have hlen10 : List.length [rid, rfid, (0 : Int), 1, id, et, pid, 0, 0, 0] = 10 := rfl
  unfold applyOperations
  rw [if_neg (by rw [hlen10]; decide)]
  simp only [show getOp [rid, rfid, 0, 1, id, et, pid, 0, 0, 0] 2 = some 0 from rfl]
  simp only [show parseStringTable [rid, rfid, 0, 1, id, et, pid, 0, 0, 0] (3 + 0)
      ((0 : Int).toNat + 1) 3 [none] = .ok ([none], 3) from rfl]
  rw [opsLoop_add_orphan [rid, rfid, 0, 1, id, et, pid, 0, 0, 0] _ [none]
    (List.length [rid, rfid, 0, 1, id, et, pid, 0, 0, 0]) st 3 _ id et pid
    (by rw [hlen10]; decide) rfl rfl rfl rfl rfl rfl het hpid0 hpidid hpid hflag]
  rw [show List.length [rid, rfid, (0 : Int), 1, id, et, pid, 0, 0, 0] = 9 + 1 from rfl]
  rw [opsLoop_exit _ _ _ 9 _ _ _ (by rw [hlen10]; decide)]
  rfl

/-- C10 as stated fails on one corner: an ADD whose nonzero parentId equals
the added id names no present node before the operation, yet the code looks
the parent up after inserting the new node, finds the node itself, and
appends the id to its own childIds list. -/
theorem c10_counterexample :
    alGet c3State.nodes 5 = none ∧ ¬ (5 : Int) = 0 ∧
    ∃ (st' : TreeState) (added : List (Int × String)) (nd : ComponentNode),
      applyOperations c3State [1, 1, 0, 1, 5, 5, 5, 0, 0, 0] = .ok (st', added) ∧
      getNode st' 5 = some nd ∧ nd.parentId = some 5 ∧ (5 : Int) ∈ nd.children := by
  refine ⟨rfl, by decide, _, _, _, rfl, rfl, rfl, by decide⟩

/-- C10: an ADD of the non-root shape whose nonzero parentId names no node
still inserts the new node - getNode returns it and every count includes
it - but no children list references it, it is not a root, and getTree
neither emits it nor assigns it a label. -/
theorem c10_orphan_unreachable {st : TreeState} (wf : WellFormed st)
    (rid rfid id et pid : Int)
    (hfresh : alGet st.nodes id = none)
    (hpid : alGet st.nodes pid = none)
    (hpid0 : ¬ pid = 0) (hpidid : ¬ pid = id) (het : ¬ et = 11)
    (hflag : st.extendedAddFormat = false) :
    ∃ (stAdd : TreeState) (node : ComponentNode),
      applyOperations st [rid, rfid, 0, 1, id, et, pid, 0, 0, 0] =
        .ok (stAdd, [(id, node.displayName)]) ∧
      getNode stAdd id = some node ∧
      node.parentId = some pid ∧
      getAllNodeIds stAdd = getAllNodeIds st ++ [id] ∧
      getComponentCount stAdd = getComponentCount st + 1 ∧
      alGet (getCountByType stAdd) (toComponentType et) =
        some ((alGet (getCountByType st) (toComponentType et)).getD 0 + 1) ∧
      stAdd.roots = st.roots ∧
      id ∉ getRootIds stAdd ∧
      (∀ x nd2, ¬ x = id → getNode stAdd x = some nd2 → id ∉ nd2.children) ∧
      (∃ (stout : TreeState) (L : List TreeNode),
        getTree st none = some (stout, L) ∧
        getTree stAdd none =
          some ({ stAdd with labelToId := stout.labelToId, idToLabel := stout.idToLabel }, L) ∧
        id ∉ L.map TreeNode.id ∧
        alGet stout.idToLabel id = none) := by
  have hchfree : ∀ p ∈ st.nodes, id ∉ p.2.children := by
    intro p hp hin
    obtain ⟨ndx, hndx, _⟩ := wf.childrenExist p hp id hin
    rw [hfresh] at hndx
    cases hndx
  have hrootfree : ∀ r ∈ st.roots, r ≠ id := by
    intro r hr he
    obtain ⟨ndr, hndr, _⟩ := wf.rootsMem r hr
    rw [he, hfresh] at hndr
    cases hndr
  have happend : alSet st.nodes id
      (⟨id, (if et = 7 then "HostComponent" else "Anonymous"), toComponentType et,
        none, some pid, [], rid⟩ : ComponentNode) =
      st.nodes ++ [(id, ⟨id, (if et = 7 then "HostComponent" else "Anonymous"),
        toComponentType et, none, some pid, [], rid⟩)] := alSet_fresh _ hfresh
  obtain ⟨accF, hw, hgt, hnodupL, hiffL, hlenL, hlabL, hkeepL⟩ := getTree_wf_run wf
  refine ⟨_, ⟨id, (if et = 7 then "HostComponent" else "Anonymous"), toComponentType et,
    none, some pid, [], rid⟩,
    applyOperations_orphan st rid rfid id et pid het hpid0 hpidid hpid hflag,
    ?_, rfl, ?_, ?_, ?_, rfl, ?_, ?_, ?_⟩
  · show alGet (alSet st.nodes id _) id = _
    rw [alGet_alSet_self]
  · show (alSet st.nodes id _).map Prod.fst = st.nodes.map Prod.fst ++ [id]
    rw [happend]
    simp
  · show (alSet st.nodes id _).length = st.nodes.length + 1
    rw [happend]
    simp
  · show alGet ((alSet st.nodes id _).foldl _ []) (toComponentType et) = _
    rw [happend, List.foldl_append]
    show alGet (alSet (getCountByType st) (toComponentType et)
      ((alGet (getCountByType st) (toComponentType et)).getD 0 + 1)) (toComponentType et) = _
    rw [alGet_alSet_self]
  · intro hin
    exact hrootfree id hin rfl
  · intro x nd2 hx hnd2 hin
    rw [getNode] at hnd2
    rw [show alGet (alSet st.nodes id
        (⟨id, (if et = 7 then "HostComponent" else "Anonymous"), toComponentType et,
          none, some pid, [], rid⟩ : ComponentNode)) x = alGet st.nodes x from
      alGet_alSet_ne _ _ _ _ (fun hh => hx hh.symm)] at hnd2
    exact hchfree _ (alGet_mem hnd2) hin
  · refine ⟨{ st with labelToId := accF.labelToId, idToLabel := accF.idToLabel },
      accF.result, hgt, ?_, ?_, ?_⟩
    · refine getTree_agree st _ id ?_ ?_ ?_ ?_ ?_ accF hw
      · rfl
      · intro x hx
        exact alGet_alSet_ne _ _ _ _ (fun hh => hx hh.symm)
      · exact hchfree
      · rw [show ({ st with
            nodes := alSet st.nodes id
              ⟨id, (if et = 7 then "HostComponent" else "Anonymous"), toComponentType et,
                none, some pid, [], rid⟩,
            nameIndex := alSet st.nameIndex
              (toLowerCase (if et = 7 then "HostComponent" else "Anonymous"))
              (setAdd ((alGet st.nameIndex
                  (toLowerCase (if et = 7 then "HostComponent" else "Anonymous"))).getD [])
                id) } : TreeState).nodes = alSet st.nodes id
              ⟨id, (if et = 7 then "HostComponent" else "Anonymous"), toComponentType et,
                none, some pid, [], rid⟩ from rfl, happend]
        simp
      · exact hrootfree
    · intro hin
      have := (hiffL id).mp hin
      rw [hfresh] at this
      cases this
    · exact hkeepL id (by rw [hfresh]; rfl)

/-- Concrete instantiation of the C10 theorem at the two-node forest with a
fresh id 5 and absent parent 99. -/
theorem c10_orphan_unreachable_witness :
    ∃ (stAdd : TreeState) (node : ComponentNode),
      applyOperations c3State [1, 1, 0, 1, 5, 5, 99, 0, 0, 0] =
        .ok (stAdd, [(5, node.displayName)]) ∧
      getNode stAdd 5 = some node ∧
      node.parentId = some 99 ∧
      getAllNodeIds stAdd = getAllNodeIds c3State ++ [5] ∧
      getComponentCount stAdd = getComponentCount c3State + 1 ∧
      alGet (getCountByType stAdd) (toComponentType 5) =
        some ((alGet (getCountByType c3State) (toComponentType 5)).getD 0 + 1) ∧
      stAdd.roots = c3State.roots ∧
      (5 : Int) ∉ getRootIds stAdd ∧
      (∀ x nd2, ¬ x = (5 : Int) → getNode stAdd x = some nd2 → (5 : Int) ∉ nd2.children) ∧
      (∃ (stout : TreeState) (L : List TreeNode),
        getTree c3State none = some (stout, L) ∧
        getTree stAdd none =
          some ({ stAdd with labelToId := stout.labelToId, idToLabel := stout.idToLabel }, L) ∧
        (5 : Int) ∉ L.map TreeNode.id ∧
        alGet stout.idToLabel 5 = none) :=
  c10_orphan_unreachable c3State_wf 1 1 5 5 99 rfl rfl (by decide) (by decide) (by decide) rfl

theorem desc_last_step {st : TreeState} {r c : Int} (h : Desc st r c) (hne : c ≠ r) :
    ∃ b nd, Desc st r b ∧ alGet st.nodes b = some nd ∧ c ∈ nd.children := by
  cases h with
  | refl => exact absurd rfl hne
  | child hd hb hc => exact ⟨_, _, hd, hb, hc⟩

theorem desc_transfer_fwd {st₀ st₁ : TreeState} {r : Int}
    (hagree : ∀ x, Desc st₀ r x → alGet st₁.nodes x = alGet st₀.nodes x) :
    ∀ {x}, Desc st₀ r x → Desc st₁ r x := by
  intro x h
  induction h with
  | refl => exact Desc.refl
  | child hd hb hc ih =>
    rename_i b c nd
    exact Desc.child ih (by rw [hagree b hd]; exact hb) hc

theorem desc_transfer_rev {st₀ st₁ : TreeState} {r : Int}
    (hagree : ∀ x, Desc st₀ r x → alGet st₁.nodes x = alGet st₀.nodes x) :
    ∀ {x}, Desc st₁ r x → Desc st₀ r x := by
  intro x h
  induction h with
  | refl => exact Desc.refl
  | child hd hb hc ih =>
    rename_i b c nd
    have hb0 : alGet st₀.nodes b = some nd := by
      rw [← hagree b ih]
      exact hb
    exact Desc.child ih hb0 hc

/-- Removing the full descendant set of a parentless node keeps the state
well-formed. -/
theorem wf_preserved_root {st st' : TreeState} (wf : WellFormed st) {r : Int}
    {R : List Int}
    (hrpar : ∀ ndr, alGet st.nodes r = some ndr → ndr.parentId = none)
    (hiff : ∀ x, x ∈ R ↔ Desc st r x)
    (hP : PrunedAt st st' R r none) : WellFormed st' := by
  obtain ⟨dep, hdep⟩ := wf.acyclic
  have hkeys' : (st'.nodes.map Prod.fst).Nodup := by
    rw [hP.keys]
    exact wf.keysNodup.filter _
  have hval : ∀ p : Int × ComponentNode, p ∈ st'.nodes →
      p.1 ∉ R ∧ alGet st.nodes p.1 = some p.2 ∧ p ∈ st.nodes := by
    intro p hp
    obtain ⟨k, v⟩ := p
    have hget : alGet st'.nodes k = some v := mem_alGet hkeys' hp
    have hkR : k ∉ R := by
      intro hk
      rw [hP.gone k hk] at hget
      cases hget
    have hget0 : alGet st.nodes k = some v := by
      rw [← hP.kept k hkR (by simp)]
      exact hget
    exact ⟨hkR, hget0, alGet_mem hget0⟩
  have hchkept : ∀ k v, k ∉ R → alGet st.nodes k = some v → ∀ c ∈ v.children, c ∉ R := by
    intro k v hkR hkv c hc hcR
    have hdesc : Desc st r c := (hiff c).mp hcR
    obtain ⟨cnd, hcnd, hcp⟩ := wf.childrenExist (k, v) (alGet_mem hkv) c hc
    simp only at hcp
    by_cases hcr : c = r
    · have := hrpar cnd (hcr ▸ hcnd)
      rw [this] at hcp
      cases hcp
    · obtain ⟨b, ndb, hdb, hbnd, hbc⟩ := desc_last_step hdesc hcr
      obtain ⟨cnd2, hcnd2, hcp2⟩ := wf.childrenExist _ (alGet_mem hbnd) c hbc
      simp only at hcp2
      rw [hcnd] at hcnd2
      injection hcnd2 with he
      rw [← he] at hcp2
      rw [hcp] at hcp2
      injection hcp2 with he2
      rw [he2] at hkR
      exact hkR ((hiff b).mpr hdb)
  refine ⟨hkeys', ?_, ?_, ?_, ?_, ?_, ?_, ?_, ?_⟩
  · intro p hp
    exact wf.idMatch p (hval p hp).2.2
  · intro p hp c hc
    obtain ⟨hkR, hget0, hmem0⟩ := hval p hp
    obtain ⟨cnd, hcnd, hcp⟩ := wf.childrenExist p hmem0 c hc
    have hcR := hchkept p.1 p.2 hkR hget0 c hc
    refine ⟨cnd, ?_, hcp⟩
    rw [hP.kept c hcR (by simp)]
    exact hcnd
  · intro p hp pid hpid
    obtain ⟨hkR, hget0, hmem0⟩ := hval p hp
    obtain ⟨q, hq, hqid, hqch⟩ := wf.parentListed p hmem0 pid hpid
    have hqR : q.1 ∉ R := by
      intro hqR2
      have hdq : Desc st r q.1 := (hiff _).mp hqR2
      have hq1 : alGet st.nodes q.1 = some q.2 := mem_alGet wf.keysNodup hq
      exact hkR ((hiff _).mpr (Desc.child hdq hq1 hqch))
    refine ⟨(q.1, q.2), ?_, hqid, hqch⟩
    apply alGet_mem
    rw [hP.kept q.1 hqR (by simp)]
    exact mem_alGet wf.keysNodup hq
  · intro p hp
    exact wf.childrenNodup p (hval p hp).2.2
  · rw [hP.roots]
    exact wf.rootsNodup.filter _
  · intro r2 hr2
    rw [hP.roots, List.mem_filter] at hr2
    obtain ⟨hr2s, hr2R'⟩ := hr2
    have hr2R : r2 ∉ R := by simpa using hr2R'
    obtain ⟨nd2, hnd2, hp2⟩ := wf.rootsMem r2 hr2s
    refine ⟨nd2, ?_, hp2⟩
    rw [hP.kept r2 hr2R (by simp)]
    exact hnd2
  · intro p hp hpn
    obtain ⟨hkR, hget0, hmem0⟩ := hval p hp
    have hmem2 := wf.rootsComplete p hmem0 hpn
    rw [hP.roots, List.mem_filter]
    exact ⟨hmem2, by simpa using hkR⟩
  · refine ⟨dep, ?_⟩
    intro p hp pid hpid
    exact hdep p (hval p hp).2.2 pid hpid

theorem removeNode_absent (st : TreeState) (id : Int) (h : alGet st.nodes id = none) :
    removeNode st id = some st := by
  unfold removeNode
  rw [removeNodeF_succ]
  exact removeNodeBody_none _ _ _ h

theorem pruned_absent {st st' : TreeState} {R : List Int} {i : Int} {p : Option Int}
    (hP : PrunedAt st st' R i p) : ∀ x, alGet st.nodes x = none → alGet st'.nodes x = none := by
  intro x hx
  rw [alGet_eq_none] at hx ⊢
  rw [hP.keys]
  intro hmem
  exact hx (List.mem_filter.mp hmem).1

theorem desc_absent {st : TreeState} {r x : Int} (h : alGet st.nodes r = none)
    (hd : Desc st r x) : x = r := by
  induction hd with
  | refl => rfl
  | child hd2 hb hc ih =>
    subst ih
    rw [h] at hb
    cases hb

/-- Folding removeRoot over a list of owned entries that are each absent or
a root of a well-formed tree: the fold terminates, preserves
well-formedness, empties exactly the union of their descendant sets, and
leaves every other entry with its original value. -/
theorem removeRoots_run : ∀ (rs : List Int) (st : TreeState), WellFormed st →
    (∀ r ∈ rs, alGet st.nodes r = none ∨ r ∈ st.roots) →
    ∃ st', rs.foldlM (fun t r => removeRoot t r) st = some st' ∧
      WellFormed st' ∧
      (∀ r ∈ rs, ∀ x, Desc st r x → alGet st'.nodes x = none) ∧
      (∀ x, (∀ r ∈ rs, ¬ Desc st r x) → alGet st'.nodes x = alGet st.nodes x) ∧
      (∀ x, alGet st.nodes x = none → alGet st'.nodes x = none) := by
  intro rs
  induction rs with
  | nil =>
    intro st wf _
    exact ⟨st, rfl, wf, by simp, fun x _ => rfl, fun x hx => hx⟩
  | cons r rest ih =>
    intro st wf hside
    obtain ⟨dep, hdep⟩ := wf.acyclic
    cases hr : alGet st.nodes r with
    | none =>
      obtain ⟨st', hfold, wf', hgone, hkept, habs⟩ :=
        ih st wf (fun r2 h2 => hside r2 (List.mem_cons_of_mem _ h2))
      refine ⟨st', ?_, wf', ?_, ?_, habs⟩
      · rw [List.foldlM_cons]
        show removeRoot st r >>= _ = _
        rw [show removeRoot st r = some st from removeNode_absent st r hr]
        exact hfold
      · intro r2 h2 x hdx
        rcases List.mem_cons.mp h2 with rfl | h2'
        · have he := desc_absent hr hdx
          subst he
          exact habs _ hr
        · exact hgone r2 h2' x hdx
      · intro x hx
        exact hkept x (fun r2 h2 => hx r2 (List.mem_cons_of_mem _ h2))
    | some nd =>
      have hrroot : r ∈ st.roots := by
        rcases hside r (List.mem_cons_self _ _) with h | h
        · rw [h] at hr
          cases hr
        · exact h
      have hrpar : ∀ ndr, alGet st.nodes r = some ndr → ndr.parentId = none := by
        intro ndr hndr
        obtain ⟨nd2, hnd2, hp2⟩ := wf.rootsMem r hrroot
        rw [hndr] at hnd2
        injection hnd2 with he
        rw [he]
        exact hp2
      have hndpar : nd.parentId = none := hrpar nd hr
      obtain ⟨st₁, R, hrun, hiff, hnds, hsubR, hP⟩ := removeNode_wf_run wf hr
      rw [hndpar] at hP
      have wf₁ : WellFormed st₁ := wf_preserved_root wf hrpar hiff hP
      have hdisjoint : ∀ r2, r2 ∈ st.roots → r2 ≠ r → ∀ y, Desc st r2 y → y ∉ R := by
        intro r2 hr2 hne y hdy hyR
        exact hne (desc_unique_root wf dep hdep hr2 hrroot hdy ((hiff y).mp hyR))
      have hagree2 : ∀ r2, r2 ∈ rest → r2 ≠ r → ∀ y, Desc st r2 y →
          alGet st₁.nodes y = alGet st.nodes y := by
        intro r2 h2 hne y hdy
        rcases hside r2 (List.mem_cons_of_mem _ h2) with habs2 | hroot2
        · have he := desc_absent habs2 hdy
          subst he
          rw [pruned_absent hP _ habs2, habs2]
        · exact hP.kept y (hdisjoint r2 hroot2 hne y hdy) (by simp)
      have hside₁ : ∀ r2 ∈ rest, alGet st₁.nodes r2 = none ∨ r2 ∈ st₁.roots := by
        intro r2 h2
        cases hg : alGet st₁.nodes r2 with
        | none => exact Or.inl rfl
        | some nd2 =>
          right
          have hr2R : r2 ∉ R := by
            intro hR2
            rw [hP.gone r2 hR2] at hg
            cases hg
          have hg0 : alGet st.nodes r2 = some nd2 := by
            rw [← hP.kept r2 hr2R (by simp)]
            exact hg
          rcases hside r2 (List.mem_cons_of_mem _ h2) with habs2 | hroot2
          · rw [habs2] at hg0
            cases hg0
          · rw [hP.roots, List.mem_filter]
            exact ⟨hroot2, by simpa using hr2R⟩
      obtain ⟨st₂, hfold, wf₂, hgone, hkept, habs⟩ := ih st₁ wf₁ hside₁
      refine ⟨st₂, ?_, wf₂, ?_, ?_, ?_⟩
      · rw [List.foldlM_cons]
        show removeRoot st r >>= _ = _
        rw [show removeRoot st r = some st₁ from hrun]
        exact hfold
      · intro r2 h2 x hdx
        rcases List.mem_cons.mp h2 with rfl | h2'
        · exact habs x (hP.gone x ((hiff x).mpr hdx))
        · by_cases hne : r2 = r
          · rw [hne] at hdx
            exact habs x (hP.gone x ((hiff x).mpr hdx))
          · rcases hside r2 (List.mem_cons_of_mem _ h2') with habs2 | hroot2
            · have he := desc_absent habs2 hdx
              subst he
              exact habs _ (pruned_absent hP _ habs2)
            · exact hgone r2 h2' x
                (desc_transfer_fwd (fun y hy => hagree2 r2 h2' hne y hy) hdx)
      · intro x hx
        have hxR : x ∉ R := fun hh => hx r (List.mem_cons_self _ _) ((hiff x).mp hh)
        have hkept₁ : alGet st₁.nodes x = alGet st.nodes x := hP.kept x hxR (by simp)
        rw [← hkept₁]
        apply hkept
        intro r2 h2 hdx₁
        by_cases hne : r2 = r
        · rw [hne] at hdx₁
          have hrgone : alGet st₁.nodes r = none := hP.gone r ((hiff r).mpr Desc.refl)
          have hxr := desc_absent hrgone hdx₁
          exact hx r (List.mem_cons_self _ _) (by rw [hxr]; exact Desc.refl)
        · exact hx r2 (List.mem_cons_of_mem _ h2)
            (desc_transfer_rev (fun y hy => hagree2 r2 h2 hne y hy) hdx₁)
      · intro x hx
        exact habs x (pruned_absent hP x hx)

theorem cleanupConnection_eq_none (b : BridgeState) (ws : Nat)
    (h : alGet b.connectionRoots ws = none) :
    cleanupConnection b ws =
      some { b with connections := b.connections.filter (· ≠ ws) } := by
  unfold cleanupConnection
  show (match alGet b.connectionRoots ws with
    | none => some { b with connections := b.connections.filter (· ≠ ws) }
    | some roots =>
      match roots.foldlM (fun t r => removeRoot t r) b.tree with
      | some t =>
        some { b with connections := b.connections.filter (· ≠ ws), tree := t, connectionRoots := alDelete b.connectionRoots ws }
      | none => none) = _
  rw [h]

theorem cleanupConnection_eq_some (b : BridgeState) (ws : Nat) (roots : List Int)
    (t : TreeState)
    (h : alGet b.connectionRoots ws = some roots)
    (hf : roots.foldlM (fun t r => removeRoot t r) b.tree = some t) :
    cleanupConnection b ws =
      some { b with connections := b.connections.filter (· ≠ ws), tree := t, connectionRoots := alDelete b.connectionRoots ws } := by
  unfold cleanupConnection
  show (match alGet b.connectionRoots ws with
    | none => some { b with connections := b.connections.filter (· ≠ ws) }
    | some roots =>
      match roots.foldlM (fun t r => removeRoot t r) b.tree with
      | some t =>
        some { b with connections := b.connections.filter (· ≠ ws), tree := t, connectionRoots := alDelete b.connectionRoots ws }
      | none => none) = _
  rw [h]
  show (match roots.foldlM (fun t r => removeRoot t r) b.tree with
    | some t =>
      some { b with connections := b.connections.filter (· ≠ ws), tree := t, connectionRoots := alDelete b.connectionRoots ws }
    | none => none) = _
  rw [hf]

/-- C1 amended: when the tree is a well-formed forest and each recorded
owned root is absent or a tree root, disconnect cleanup drops the socket,
deletes the ownership record, removes exactly the owned roots and their
descendants, and leaves every other node's stored value untouched. -/
theorem c1_amended {b : BridgeState} (wf : WellFormed b.tree) (ws : Nat)
    (hroots : ∀ r ∈ ownedRoots b ws, alGet b.tree.nodes r = none ∨ r ∈ b.tree.roots) :
    ∃ b', cleanupConnection b ws = some b' ∧
      b'.connections = b.connections.filter (· ≠ ws) ∧
      alGet b'.connectionRoots ws = none ∧
      (∀ r ∈ ownedRoots b ws, ∀ x, Desc b.tree r x → getNode b'.tree x = none) ∧
      (∀ x, (∀ r ∈ ownedRoots b ws, ¬ Desc b.tree r x) →
        getNode b'.tree x = getNode b.tree x) := by
  cases hcr : alGet b.connectionRoots ws with
  | none =>
    have how : ownedRoots b ws = [] := by
      unfold ownedRoots
      rw [hcr]
      rfl
    refine ⟨_, cleanupConnection_eq_none b ws hcr, rfl, ?_, ?_, ?_⟩
    · show alGet b.connectionRoots ws = none
      exact hcr
    · intro r hr
      rw [how] at hr
      cases hr
    · intro x _
      rfl
  | some roots =>
    have how : ownedRoots b ws = roots := by
      unfold ownedRoots
      rw [hcr]
      rfl
    rw [how] at hroots
    obtain ⟨st', hfold, wf', hgone, hkept, habs⟩ := removeRoots_run roots b.tree wf hroots
    refine ⟨_, cleanupConnection_eq_some b ws roots st' hcr hfold, rfl, ?_, ?_, ?_⟩
    · show alGet (alDelete b.connectionRoots ws) ws = none
      exact alGet_alDelete_self _ _
    · intro r hr x hdx
      rw [how] at hr
      exact hgone r hr x hdx
    · intro x hx
      rw [how] at hx
      exact hkept x hx

/-- Bridge state with two live connections both owning root 1 of the
two-node tree. -/
def c1Bridge : BridgeState := ⟨[1, 2], [], [(1, [1]), (2, [1])], [], c3State⟩

/-- C1 as stated fails on a reachable overlap: two connections can record
the same root, and closing one removes nodes living under a root owned by
the other live connection. -/
theorem c1_counterexample :
    ∃ b', cleanupConnection c1Bridge 1 = some b' ∧
      (2 : Nat) ∈ c1Bridge.connections ∧ (2 : Nat) ≠ 1 ∧
      (1 : Int) ∈ ownedRoots c1Bridge 2 ∧
      Desc c1Bridge.tree 1 2 ∧
      getNode c1Bridge.tree 2 = some c3Node2 ∧
      getNode b'.tree 2 = none := by
  refine ⟨_, rfl, by decide, by decide, by decide, ?_, rfl, rfl⟩
  exact Desc.child Desc.refl (show alGet c3State.nodes 1 = some c3Node1 from rfl)
    (by decide)

/-- Concrete instantiation of the amended C1 theorem. -/
theorem c1_amended_witness :
    ∃ b', cleanupConnection c1Bridge 1 = some b' ∧
      b'.connections = c1Bridge.connections.filter (· ≠ 1) ∧
      alGet b'.connectionRoots 1 = none ∧
      (∀ r ∈ ownedRoots c1Bridge 1, ∀ x, Desc c1Bridge.tree r x →
        getNode b'.tree x = none) ∧
      (∀ x, (∀ r ∈ ownedRoots c1Bridge 1, ¬ Desc c1Bridge.tree r x) →
        getNode b'.tree x = getNode c1Bridge.tree x) :=
  c1_amended c3State_wf 1 (by decide)

theorem removeNodeF_flag : ∀ (fuel : Nat) (st : TreeState) (id : Int) (st' : TreeState),
    removeNodeF fuel st id = some st' →
    st'.extendedAddFormat = st.extendedAddFormat := by
  intro fuel
  induction fuel with
  | zero =>
    intro st id st' h
    exact Option.noConfusion h
  | succ fuel ih =>
    intro st id st' h
    rw [removeNodeF_succ] at h
    unfold removeNodeBody at h
    cases hget : alGet st.nodes id with
    | none =>
      simp only [hget] at h
      injection h with h
      subst h
      rfl
    | some node =>
      simp only [hget] at h
      cases hf : node.children.foldlM (fun s c => removeNodeF fuel s c)
          (removePre st node id) with
      | none =>
        simp only [hf] at h
        exact Option.noConfusion h
      | some st4 =>
        simp only [hf] at h
        injection h with h
        subst h
        show st4.extendedAddFormat = st.extendedAddFormat
        have hfold : ∀ (cs : List Int) (s0 s1 : TreeState),
            cs.foldlM (fun s c => removeNodeF fuel s c) s0 = some s1 →
            s1.extendedAddFormat = s0.extendedAddFormat := by
          intro cs
          induction cs with
          | nil =>
            intro s0 s1 h0
            injection h0 with h0
            subst h0
            rfl
          | cons c rest ihc =>
            intro s0 s1 h0
            rw [List.foldlM_cons] at h0
            cases hw : removeNodeF fuel s0 c with
            | none =>
              rw [hw] at h0
              exact absurd h0 (by simp)
            | some s2 =>
              rw [hw] at h0
              have h0' : rest.foldlM (fun s c => removeNodeF fuel s c) s2 = some s1 := h0
              rw [ihc s2 s1 h0', ih s0 c s2 hw]
        rw [hfold node.children (removePre st node id) st4 hf]
        exact (removePre_spec st node id).2.2.2.2.2.2.2

theorem removeIds_flag : ∀ (ops : List Int) (n : Nat) (pos : Int) (st st' : TreeState),
    removeIds ops pos n st = some st' →
    st'.extendedAddFormat = st.extendedAddFormat := by
  intro ops n
  induction n with
  | zero =>
    intro pos st st' h
    simp only [removeIds] at h
    injection h with h
    subst h
    rfl
  | succ n ihn =>
    intro pos st st' h
    simp only [removeIds] at h
    cases hg : getOp ops pos with
    | none =>
      simp only [hg] at h
      exact ihn (pos + 1) st st' h
    | some id =>
      simp only [hg] at h
      cases hw : removeNode st id with
      | none =>
        simp only [hw] at h
        exact Option.noConfusion h
      | some st2 =>
        simp only [hw] at h
        rw [ihn (pos + 1) st2 st' h]
        exact removeNodeF_flag _ st id st2 hw

set_option maxHeartbeats 3000000 in
theorem opsLoop_flag_mono : ∀ (fuel : Nat) (ops : List Int) (rid : Int)
    (tbl : List (Option String)) (st : TreeState) (i : Int)
    (added : List (Int × String)) (st' : TreeState) (added' : List (Int × String)),
    opsLoop ops rid tbl fuel st i added = .ok (st', added') →
    st.extendedAddFormat = true → st'.extendedAddFormat = true := by
  intro fuel
  induction fuel with
  | zero =>
    intro ops rid tbl st i added st' added' h hflag
    rw [opsLoop] at h
    exact Except.noConfusion h
  | succ fuel ih =>
    intro ops rid tbl st i added st' added' h hflag
    by_cases hlt : i < (ops.length : Int)
    case neg =>
      rw [opsLoop, if_neg hlt] at h
      injection h with hp
      injection hp with h1 h2
      rw [← h1]
      exact hflag
    case pos =>
      rw [opsLoop, if_pos hlt] at h
      cases hg : getOp ops i with
      | none =>
        simp only [hg] at h
        exact ih _ _ _ _ _ _ _ _ h hflag
      | some op =>
      simp only [hg] at h
      by_cases ho1 : op = 1
      · rw [if_pos ho1] at h
        repeat' split at h
        all_goals
        first
        | exact ih _ _ _ _ _ _ _ _ h hflag
        | (apply ih _ _ _ _ _ _ _ _ h
           all_goals first | exact hflag | rfl | (split <;> exact hflag))
        | exact Except.noConfusion h
        | (injection h with hp
           injection hp with h1 h2
           rw [← h1]
           all_goals first | exact hflag | rfl | (split <;> exact hflag))
        | (rename_i hrm
           apply ih _ _ _ _ _ _ _ _ h
           rw [removeIds_flag _ _ _ _ _ hrm]
           exact hflag)
      · rw [if_neg ho1] at h
        by_cases ho2 : op = 2
        · rw [if_pos ho2] at h
          repeat' split at h
          all_goals
          first
          | exact ih _ _ _ _ _ _ _ _ h hflag
          | (apply ih _ _ _ _ _ _ _ _ h
             all_goals first | exact hflag | rfl | (split <;> exact hflag))
          | exact Except.noConfusion h
          | (injection h with hp
             injection hp with h1 h2
             rw [← h1]
             all_goals first | exact hflag | rfl | (split <;> exact hflag))
          | (rename_i hrm
             apply ih _ _ _ _ _ _ _ _ h
             rw [removeIds_flag _ _ _ _ _ hrm]
             exact hflag)
        · rw [if_neg ho2] at h
          by_cases ho3 : op = 3
          · rw [if_pos ho3] at h
            repeat' split at h
            all_goals
            first
            | exact ih _ _ _ _ _ _ _ _ h hflag
            | (apply ih _ _ _ _ _ _ _ _ h
               all_goals first | exact hflag | rfl | (split <;> exact hflag))
            | exact Except.noConfusion h
            | (injection h with hp
               injection hp with h1 h2
               rw [← h1]
               all_goals first | exact hflag | rfl | (split <;> exact hflag))
            | (rename_i hrm
               apply ih _ _ _ _ _ _ _ _ h
               rw [removeIds_flag _ _ _ _ _ hrm]
               exact hflag)
          · rw [if_neg ho3] at h
            by_cases ho4 : op = 4
            · rw [if_pos ho4] at h
              repeat' split at h
              all_goals
              first
              | exact ih _ _ _ _ _ _ _ _ h hflag
              | (apply ih _ _ _ _ _ _ _ _ h
                 all_goals first | exact hflag | rfl | (split <;> exact hflag))
              | exact Except.noConfusion h
              | (injection h with hp
                 injection hp with h1 h2
                 rw [← h1]
                 all_goals first | exact hflag | rfl | (split <;> exact hflag))
              | (rename_i hrm
                 apply ih _ _ _ _ _ _ _ _ h
                 rw [removeIds_flag _ _ _ _ _ hrm]
                 exact hflag)
            · rw [if_neg ho4] at h
              by_cases ho5 : op = 5
              · rw [if_pos ho5] at h
                repeat' split at h
                all_goals
                first
                | exact ih _ _ _ _ _ _ _ _ h hflag
                | (apply ih _ _ _ _ _ _ _ _ h
                   all_goals first | exact hflag | rfl | (split <;> exact hflag))
                | exact Except.noConfusion h
                | (injection h with hp
                   injection hp with h1 h2
                   rw [← h1]
                   all_goals first | exact hflag | rfl | (split <;> exact hflag))
                | (rename_i hrm
                   apply ih _ _ _ _ _ _ _ _ h
                   rw [removeIds_flag _ _ _ _ _ hrm]
                   exact hflag)
              · rw [if_neg ho5] at h
                by_cases ho6 : op = 6
                · rw [if_pos ho6] at h
                  repeat' split at h
                  all_goals
                  first
                  | exact ih _ _ _ _ _ _ _ _ h hflag
                  | (apply ih _ _ _ _ _ _ _ _ h
                     all_goals first | exact hflag | rfl | (split <;> exact hflag))
                  | exact Except.noConfusion h
                  | (injection h with hp
                     injection hp with h1 h2
                     rw [← h1]
                     all_goals first | exact hflag | rfl | (split <;> exact hflag))
                  | (rename_i hrm
                     apply ih _ _ _ _ _ _ _ _ h
                     rw [removeIds_flag _ _ _ _ _ hrm]
                     exact hflag)
                · rw [if_neg ho6] at h
                  by_cases ho7 : op = 7
                  · rw [if_pos ho7] at h
                    repeat' split at h
                    all_goals
                    first
                    | exact ih _ _ _ _ _ _ _ _ h hflag
                    | (apply ih _ _ _ _ _ _ _ _ h
                       all_goals first | exact hflag | rfl | (split <;> exact hflag))
                    | exact Except.noConfusion h
                    | (injection h with hp
                       injection hp with h1 h2
                       rw [← h1]
                       all_goals first | exact hflag | rfl | (split <;> exact hflag))
                    | (rename_i hrm
                       apply ih _ _ _ _ _ _ _ _ h
                       rw [removeIds_flag _ _ _ _ _ hrm]
                       exact hflag)
                  · rw [if_neg ho7] at h
                    by_cases ho8 : op = 8
                    · rw [if_pos ho8] at h
                      repeat' split at h
                      all_goals
                      first
                      | exact ih _ _ _ _ _ _ _ _ h hflag
                      | (apply ih _ _ _ _ _ _ _ _ h
                         all_goals first | exact hflag | rfl | (split <;> exact hflag))
                      | exact Except.noConfusion h
                      | (injection h with hp
                         injection hp with h1 h2
                         rw [← h1]
                         all_goals first | exact hflag | rfl | (split <;> exact hflag))
                      | (rename_i hrm
                         apply ih _ _ _ _ _ _ _ _ h
                         rw [removeIds_flag _ _ _ _ _ hrm]
                         exact hflag)
                    · rw [if_neg ho8] at h
                      by_cases ho9 : op = 9
                      · rw [if_pos ho9] at h
                        repeat' split at h
                        all_goals
                        first
                        | exact ih _ _ _ _ _ _ _ _ h hflag
                        | (apply ih _ _ _ _ _ _ _ _ h
                           all_goals first | exact hflag | rfl | (split <;> exact hflag))
                        | exact Except.noConfusion h
                        | (injection h with hp
                           injection hp with h1 h2
                           rw [← h1]
                           all_goals first | exact hflag | rfl | (split <;> exact hflag))
                        | (rename_i hrm
                           apply ih _ _ _ _ _ _ _ _ h
                           rw [removeIds_flag _ _ _ _ _ hrm]
                           exact hflag)
                      · rw [if_neg ho9] at h
                        by_cases ho10 : op = 10
                        · rw [if_pos ho10] at h
                          repeat' split at h
                          all_goals
                          first
                          | exact ih _ _ _ _ _ _ _ _ h hflag
                          | (apply ih _ _ _ _ _ _ _ _ h
                             all_goals first | exact hflag | rfl | (split <;> exact hflag))
                          | exact Except.noConfusion h
                          | (injection h with hp
                             injection hp with h1 h2
                             rw [← h1]
                             all_goals first | exact hflag | rfl | (split <;> exact hflag))
                          | (rename_i hrm
                             apply ih _ _ _ _ _ _ _ _ h
                             rw [removeIds_flag _ _ _ _ _ hrm]
                             exact hflag)
                        · rw [if_neg ho10] at h
                          by_cases ho11 : op = 11
                          · rw [if_pos ho11] at h
                            repeat' split at h
                            all_goals
                            first
                            | exact ih _ _ _ _ _ _ _ _ h hflag
                            | (apply ih _ _ _ _ _ _ _ _ h
                               all_goals first | exact hflag | rfl | (split <;> exact hflag))
                            | exact Except.noConfusion h
                            | (injection h with hp
                               injection hp with h1 h2
                               rw [← h1]
                               all_goals first | exact hflag | rfl | (split <;> exact hflag))
                            | (rename_i hrm
                               apply ih _ _ _ _ _ _ _ _ h
                               rw [removeIds_flag _ _ _ _ _ hrm]
                               exact hflag)
                          · rw [if_neg ho11] at h
                            by_cases ho12 : op = 12
                            · rw [if_pos ho12] at h
                              repeat' split at h
                              all_goals
                              first
                              | exact ih _ _ _ _ _ _ _ _ h hflag
                              | (apply ih _ _ _ _ _ _ _ _ h
                                 all_goals first | exact hflag | rfl | (split <;> exact hflag))
                              | exact Except.noConfusion h
                              | (injection h with hp
                                 injection hp with h1 h2
                                 rw [← h1]
                                 all_goals first | exact hflag | rfl | (split <;> exact hflag))
                              | (rename_i hrm
                                 apply ih _ _ _ _ _ _ _ _ h
                                 rw [removeIds_flag _ _ _ _ _ hrm]
                                 exact hflag)
                            · rw [if_neg ho12] at h
                              by_cases ho13 : op = 13
                              · rw [if_pos ho13] at h
                                repeat' split at h
                                all_goals
                                first
                                | exact ih _ _ _ _ _ _ _ _ h hflag
                                | (apply ih _ _ _ _ _ _ _ _ h
                                   all_goals first | exact hflag | rfl | (split <;> exact hflag))
                                | exact Except.noConfusion h
                                | (injection h with hp
                                   injection hp with h1 h2
                                   rw [← h1]
                                   all_goals first | exact hflag | rfl | (split <;> exact hflag))
                                | (rename_i hrm
                                   apply ih _ _ _ _ _ _ _ _ h
                                   rw [removeIds_flag _ _ _ _ _ hrm]
                                   exact hflag)
                              · rw [if_neg ho13] at h
                                exact ih _ _ _ _ _ _ _ _ h hflag

/-- Once the extended-ADD flag is set on the tree, any successfully decoded
batch leaves it set. -/
theorem applyOperations_flag_mono (st : TreeState) (ops : List Int) (st' : TreeState)
    (added' : List (Int × String))
    (h : applyOperations st ops = .ok (st', added'))
    (hflag : st.extendedAddFormat = true) : st'.extendedAddFormat = true := by
  unfold applyOperations at h
  split at h
  · injection h with hp
    injection hp with h1 h2
    rw [← h1]
    exact hflag
  · split at h
    · injection h with hp
      injection hp with h1 h2
      rw [← h1]
      exact hflag
    · split at h
      · exact Except.noConfusion h
      · exact opsLoop_flag_mono _ _ _ _ _ _ _ _ _ h hflag

/-- The operations handler reads and writes the one shared tree; which
socket delivered the batch only affects the bookkeeping, never the tree. -/
theorem handleOperations_tree (b : BridgeState) (ws : Nat) (ops : List Int) :
    (handleOperations b ws ops).tree =
      (match applyOperations b.tree ops with
       | .ok (t, _) => t
       | .error _ => b.tree) := by
  unfold handleOperations
  split
  · show (match applyOperations b.tree ops with
      | .ok (t, _) =>
        { connections := b.connections,
          rendererIds := setAdd b.rendererIds (ops.getD 0 0),
          connectionRoots := alSet b.connectionRoots ws (setAdd (ownedRoots b ws) (ops.getD 1 0)),
          pendingInspections := b.pendingInspections, tree := t }
      | .error _ =>
        { connections := b.connections,
          rendererIds := setAdd b.rendererIds (ops.getD 0 0),
          connectionRoots := alSet b.connectionRoots ws (setAdd (ownedRoots b ws) (ops.getD 1 0)),
          pendingInspections := b.pendingInspections, tree := b.tree } : BridgeState).tree = _
    cases h : applyOperations b.tree ops with
    | ok p =>
      obtain ⟨t, added⟩ := p
      simp only [h]
    | error e =>
      simp only [h]
  · show (match applyOperations b.tree ops with
      | .ok (t, _) => { b with tree := t }
      | .error _ => b).tree = _
    cases h : applyOperations b.tree ops with
    | ok p =>
      obtain ⟨t, added⟩ := p
      simp only [h]
    | error e =>
      simp only [h]

/-- One opcode-loop step on opcode 13 (APPLIED_ACTIVITY_SLICE_CHANGE):
the shared flag is latched and the cursor advances two slots. -/
theorem opsLoop_latch13 (ops : List Int) (rid : Int) (tbl : List (Option String))
    (fuel : Nat) (st : TreeState) (i : Int) (added : List (Int × String))
    (hlt : i < (ops.length : Int))
    (hop : getOp ops i = some 13) :
    opsLoop ops rid tbl (fuel + 1) st i added =
      opsLoop ops rid tbl fuel { st with extendedAddFormat := true } (i + 2) added := by
  rw [opsLoop, if_pos hlt]
  simp only [hop]
  repeat rw [if_neg (by decide)]
  rw [if_pos trivial]

/-- One opcode-loop step decoding the same orphan ADD as above, with the
flag value left symbolic: the node decodes from the 7-field layout and the
cursor advances by 7 plus one exactly when the flag is set. -/
theorem opsLoop_add_cursor (ops : List Int) (rid : Int) (tbl : List (Option String))
    (fuel : Nat) (st : TreeState) (i : Int) (added : List (Int × String))
    (id et pid : Int) (b0 : Bool)
    (hlt : i < (ops.length : Int))
    (hop : getOp ops i = some 1)
    (h1 : getOp ops (i + 1) = some id)
    (h2 : getOp ops (i + 2) = some et)
    (h3 : getOp ops (i + 3) = some pid)
    (h5 : getOp ops (i + 5) = some 0)
    (h6 : getOp ops (i + 6) = some 0)
    (het : ¬ et = 11)
    (hpid0 : ¬ pid = 0)
    (hpidid : ¬ pid = id)
    (hpid : alGet st.nodes pid = none)
    (hflag : st.extendedAddFormat = b0) :
    opsLoop ops rid tbl (fuel + 1) st i added =
      opsLoop ops rid tbl fuel
        { st with
            nodes := alSet st.nodes id
              ⟨id, (if et = 7 then "HostComponent" else "Anonymous"), toComponentType et,
                none, some pid, [], rid⟩,
            nameIndex := alSet st.nameIndex
              (toLowerCase (if et = 7 then "HostComponent" else "Anonymous"))
              (setAdd ((alGet st.nameIndex
                  (toLowerCase (if et = 7 then "HostComponent" else "Anonymous"))).getD [])
                id) }
        (i + 3 + 4 + (if b0 then 1 else 0))
        (added ++ [(id, (if et = 7 then "HostComponent" else "Anonymous"))]) := by
  rw [opsLoop, if_pos hlt]
  simp only [hop, h1, h2, h3, h5, h6]
  rw [if_pos trivial, if_neg het]
  have h00 : ¬ (0 : Int) > 0 := by decide
  rw [if_neg h00, if_neg h00]
  simp only [if_neg hpid0]
  rw [alGet_alSet_ne _ _ _ _ (fun hh => hpidid hh.symm), hpid]
  have hfb : ¬ (if et = 7 then "HostComponent" else "Anonymous") = "" := by
    split <;> decide
  rw [if_pos (by simpa using hfb)]
  simp only [bucketGet, hflag]

/-- C5: the extended-ADD latch is per shared tree, not per connection.  The
handler feeds every connection's batches to the one tree; once the flag is
true any successful batch leaves it true; a latching opcode (13 shown) sets
it; and an ADD consumes 7 plus one fields exactly when the flag is set at
that point. -/
theorem c5_amended :
    (∀ (b : BridgeState) (ws ws' : Nat) (ops : List Int),
      (handleOperations b ws ops).tree = (handleOperations b ws' ops).tree) ∧
    (∀ (st : TreeState) (ops : List Int) (st' : TreeState) (added' : List (Int × String)),
      applyOperations st ops = .ok (st', added') →
      st.extendedAddFormat = true → st'.extendedAddFormat = true) ∧
    (∀ (ops : List Int) (rid : Int) (tbl : List (Option String)) (fuel : Nat)
      (st : TreeState) (i : Int) (added : List (Int × String)),
      i < (ops.length : Int) → getOp ops i = some 13 →
      opsLoop ops rid tbl (fuel + 1) st i added =
        opsLoop ops rid tbl fuel { st with extendedAddFormat := true } (i + 2) added) ∧
    (∀ (ops : List Int) (rid : Int) (tbl : List (Option String)) (fuel : Nat)
      (st : TreeState) (i : Int) (added : List (Int × String)) (id et pid : Int) (b0 : Bool),
      i < (ops.length : Int) → getOp ops i = some 1 →
      getOp ops (i + 1) = some id → getOp ops (i + 2) = some et →
      getOp ops (i + 3) = some pid → getOp ops (i + 5) = some 0 →
      getOp ops (i + 6) = some 0 →
      ¬ et = 11 → ¬ pid = 0 → ¬ pid = id → alGet st.nodes pid = none →
      st.extendedAddFormat = b0 →
      opsLoop ops rid tbl (fuel + 1) st i added =
        opsLoop ops rid tbl fuel
          { st with
              nodes := alSet st.nodes id
                ⟨id, (if et = 7 then "HostComponent" else "Anonymous"), toComponentType et,
                  none, some pid, [], rid⟩,
              nameIndex := alSet st.nameIndex
                (toLowerCase (if et = 7 then "HostComponent" else "Anonymous"))
                (setAdd ((alGet st.nameIndex
                    (toLowerCase (if et = 7 then "HostComponent" else "Anonymous"))).getD [])
                  id) }
          (i + 3 + 4 + (if b0 then 1 else 0))
          (added ++ [(id, (if et = 7 then "HostComponent" else "Anonymous"))])) :=
  ⟨fun b ws ws2 ops =>
      (handleOperations_tree b ws ops).trans (handleOperations_tree b ws2 ops).symm,
   fun st ops st' added' h hflag => applyOperations_flag_mono st ops st' added' h hflag,
   fun ops rid tbl fuel st i added hlt hop => opsLoop_latch13 ops rid tbl fuel st i added hlt hop,
   fun ops rid tbl fuel st i added id et pid b0 hlt hop h1 h2 h3 h5 h6 het hp0 hpi hpd hfl =>
     opsLoop_add_cursor ops rid tbl fuel st i added id et pid b0 hlt hop h1 h2 h3 h5 h6
       het hp0 hpi hpd hfl⟩

/-- Concrete instantiations of the four C5 conjuncts. -/
theorem c5_amended_witness :
    (handleOperations c1Bridge 1 [13, 0]).tree = (handleOperations c1Bridge 2 [13, 0]).tree ∧
    ({ emptyTree with extendedAddFormat := true } : TreeState).extendedAddFormat = true ∧
    opsLoop [13, 0] 0 [none] 1 emptyTree 0 [] =
      opsLoop [13, 0] 0 [none] 0 { emptyTree with extendedAddFormat := true } (0 + 2) [] ∧
    opsLoop [1, 1, 0, 1, 20, 5, 7, 0, 0, 0] 1 [none] 1 emptyTree 3 [] =
      opsLoop [1, 1, 0, 1, 20, 5, 7, 0, 0, 0] 1 [none] 0
        { emptyTree with
            nodes := alSet emptyTree.nodes 20
              ⟨20, (if (5 : Int) = 7 then "HostComponent" else "Anonymous"), toComponentType 5,
                none, some 7, [], 1⟩,
            nameIndex := alSet emptyTree.nameIndex
              (toLowerCase (if (5 : Int) = 7 then "HostComponent" else "Anonymous"))
              (setAdd ((alGet emptyTree.nameIndex
                  (toLowerCase (if (5 : Int) = 7 then "HostComponent" else "Anonymous"))).getD [])
                20) }
        (3 + 3 + 4 + (if false then 1 else 0))
        ([] ++ [(20, (if (5 : Int) = 7 then "HostComponent" else "Anonymous"))]) :=
  ⟨c5_amended.1 c1Bridge 1 2 [13, 0],
   c5_amended.2.1 { emptyTree with extendedAddFormat := true } [0, 0, 0] _ _ rfl rfl,
   c5_amended.2.2.1 [13, 0] 0 [none] 0 emptyTree 0 [] (by decide) rfl,
   c5_amended.2.2.2 [1, 1, 0, 1, 20, 5, 7, 0, 0, 0] 1 [none] 0 emptyTree 3 [] 20 5 7 false
     (by decide) rfl rfl rfl rfl rfl rfl (by decide) (by decide) (by decide) rfl rfl⟩

end ARD
